import Mathlib

/-!
# cjosn_parser: the two-pass JSON(-with-comments) parser of `src/main.c`

Shallow embedding of `skip_whitespace`, `scan_string`, `pass1_analyze`,
`parse_string_text`, `fill_node` and `parse_json`.

Conventions of the embedding.

* The input is the memory object `buf : List Nat` (one byte per element) and the
  `length` argument `e` (the offset of `end`).  A `const char*` cursor is the
  offset from `input`.  The code reads some bytes without comparing the cursor
  with `end` (`**cursor != ':'`, `strncmp`, the builder's `*saved` scans); such a
  read returns the byte of `buf` at that offset, and `0` past the last byte of
  `buf` (the memory after the buffer is taken to be NUL, as for a C string).
* Loops that are bounded by `end` or by the first NUL are total functions: they
  recurse on a counter that starts at the distance to that bound, so the counter
  reaches `0` only when the loop condition is false.  Loops and recursions that
  the code does not bound take a `fuel` argument and return `none` when it is
  exhausted.
* `size_t` counters are natural numbers: each is bounded by the number of input
  bytes scanned, so no wrap-around is reachable.  The `int` depth counters of the
  builder are integers.
* The arena is index based: `nodes`, `entries` and `strings` are the offsets of the
  three bump cursors inside their own regions (slot numbers), the root being node
  slot `0`.  The node that `fill_node` leaves in a slot is returned as a value that
  carries its slot number together with the nodes left in the slots of its
  children.
* `parse_json` cuts the three regions from one block whose size comes from the
  counts of pass 1 (`total_size`, `node_offset`, `entry_offset`, `string_offset`).
  Slot numbers are not bounded by these counts: a slot number at or after the count
  of its region names memory after that region, which belongs to the next region or
  lies after the block.  The value that `fill_node` returns holds every node, key
  and string as the call that fills it writes it.  What a later write through a slot
  outside its region does to bytes stored earlier, and what the bytes of such a slot
  read as, is not part of that value; it is the tree in memory on the inputs on which
  pass 2 ends with its three cursors within the counts of pass 1.
-/

namespace CJson

/-! ## Character classification and raw reads -/

/-- Byte at offset `i` from `input`; `0` after the modelled memory. -/
def rd (buf : List Nat) (i : Nat) : Nat := buf.getD i 0

/-- `isspace` of `<ctype.h>` in the C locale: space, `\t`, `\n`, `\v`, `\f`, `\r`. -/
def isspace (c : Nat) : Bool := c == 32 || (decide (9 ≤ c) && decide (c ≤ 13))

/-- `isdigit` of `<ctype.h>`. -/
def isdigit (c : Nat) : Bool := decide (48 ≤ c) && decide (c ≤ 57)

/-- `strncmp(cursor, lit, strlen(lit)) == 0` for a literal `lit` without NUL bytes. -/
def strncmp_eq (buf : List Nat) : Nat → List Nat → Bool
  | _, [] => true
  | cur, b :: bs => rd buf cur == b && strncmp_eq buf (cur + 1) bs

/-- The bytes of an ASCII string. -/
def bytes (s : String) : List Nat := s.toList.map Char.toNat

/-! ## `skip_whitespace` (main.c 73-95) -/

/-- Line 81: `while (*cursor < end && **cursor != '\n') (*cursor)++;` -/
def line_comment_end : Nat → List Nat → Nat → Nat → Nat
  | 0, _, _, cur => cur
  | fuel + 1, buf, e, cur =>
    if cur < e ∧ rd buf cur ≠ 10 then line_comment_end fuel buf e (cur + 1) else cur

/-- Lines 84-86: `while (*cursor + 1 < end && !(**cursor == '*' && *(*cursor + 1) == '/'))
(*cursor)++;` -/
def block_comment_scan : Nat → List Nat → Nat → Nat → Nat
  | 0, _, _, cur => cur
  | fuel + 1, buf, e, cur =>
    if cur + 1 < e ∧ ¬ (rd buf cur = 42 ∧ rd buf (cur + 1) = 47) then
      block_comment_scan fuel buf e (cur + 1)
    else cur

/-- The outer `while (*cursor < end)` loop of `skip_whitespace`. -/
def skip_whitespace_loop : Nat → List Nat → Nat → Nat → Nat
  | 0, _, _, cur => cur
  | fuel + 1, buf, e, cur =>
    if cur < e then
      let c := rd buf cur
      if isspace c then skip_whitespace_loop fuel buf e (cur + 1)
      else if c = 47 ∧ cur + 1 < e then
        if rd buf (cur + 1) = 47 then
          skip_whitespace_loop fuel buf e (line_comment_end (e - (cur + 2)) buf e (cur + 2))
        else if rd buf (cur + 1) = 42 then
          let p := block_comment_scan (e - (cur + 2)) buf e (cur + 2)
          skip_whitespace_loop fuel buf e (if p + 1 < e then p + 2 else p)
        else cur
      else cur
    else cur

/-- `skip_whitespace(&cursor, end)`: the new cursor. -/
def skip_whitespace (buf : List Nat) (e cur : Nat) : Nat :=
  skip_whitespace_loop (e - cur) buf e cur

/-! ## `scan_string` (main.c 98-120) -/

/-- The `while (*cursor < end)` loop of `scan_string`, on the cursor and the local
`len`; the result is `(found the closing quote, cursor, len)`. -/
def scan_string_loop : Nat → List Nat → Nat → Nat → Nat → Bool × Nat × Nat
  | 0, _, _, cur, n => (false, cur, n)
  | fuel + 1, buf, e, cur, n =>
    if cur < e then
      let c := rd buf cur
      if c = 34 then (true, cur + 1, n)
      else if c = 92 then
        if cur + 1 ≥ e then (false, cur + 1, n)
        else
          let cur1 := if rd buf (cur + 1) = 117 then cur + 1 + 4 else cur + 1
          scan_string_loop fuel buf e (cur1 + 1) (n + 1)
      else scan_string_loop fuel buf e (cur + 1) (n + 1)
    else (false, cur, n)

/-- `scan_string(&cursor, end, &out_len)`: `(return value, cursor, *out_len)`. -/
def scan_string (buf : List Nat) (e cur out_len : Nat) : Bool × Nat × Nat :=
  match scan_string_loop (e - cur) buf e (cur + 1) 0 with
  | (true, cur1, n) => (true, cur1, out_len + (n + 1))
  | (false, cur1, _) => (false, cur1, out_len)

/-! ## `pass1_analyze` (main.c 126-213) -/

/-- `struct scan_status_t`. -/
structure scan_status_t where
  nodes : Nat
  entries : Nat
  string_bytes : Nat
  err_line : Int
  err_col : Int
  err_msg : Option String
  deriving DecidableEq, Repr

/-- `struct scan_status_t stats = {0};` -/
def stats_zero : scan_status_t :=
  { nodes := 0, entries := 0, string_bytes := 0, err_line := 0, err_col := 0, err_msg := none }

/-- What one call of `pass1_analyze` leaves behind: its return value, `*cursor`
and `*stats`. -/
structure scan_result where
  ok : Bool
  cursor : Nat
  stats : scan_status_t
  deriving DecidableEq, Repr

/-- Bytes that the number branch of `pass1_analyze` runs over (line 200). -/
def is_number_char (c : Nat) : Bool :=
  isdigit c || c == 46 || c == 45 || c == 101 || c == 69 || c == 43

/-- Lines 200-202: the number-skipping loop. -/
def number_run : Nat → List Nat → Nat → Nat → Nat
  | 0, _, _, cur => cur
  | fuel + 1, buf, e, cur =>
    if cur < e ∧ is_number_char (rd buf cur) then number_run fuel buf e (cur + 1) else cur

/-- Where one pass through the body of a `while (true)` loop of `pass1_analyze`
leaves the function: at a `return`, or at the recursive call for the next value. -/
inductive loop_step where
  | ret (r : scan_result)
  | value (cur : Nat) (st : scan_status_t)
  deriving DecidableEq, Repr

/-- Lines 138-165: the body of the object loop from its head to the recursive
call, entered with the flag `first`. -/
def object_step (buf : List Nat) (e : Nat) (first : Bool) (cur0 : Nat) (st : scan_status_t) :
    loop_step :=
  let cur := skip_whitespace buf e cur0
  if cur ≥ e then .ret ⟨false, cur, st⟩
  else if rd buf cur = 125 then .ret ⟨true, cur + 1, st⟩
  else if first = false ∧ rd buf cur ≠ 44 then .ret ⟨false, cur, st⟩
  else
    let cur1 := if first then cur else skip_whitespace buf e (cur + 1)
    if rd buf cur1 ≠ 34 then .ret ⟨false, cur1, st⟩
    else
      match scan_string buf e cur1 st.string_bytes with
      | (false, cur2, sb) => .ret ⟨false, cur2, { st with string_bytes := sb }⟩
      | (true, cur2, sb) =>
        let cur3 := skip_whitespace buf e cur2
        if rd buf cur3 ≠ 58 then .ret ⟨false, cur3, { st with string_bytes := sb }⟩
        else .value (cur3 + 1) { st with string_bytes := sb, entries := st.entries + 1 }

/-- Lines 177-190: the body of the array loop from its head to the recursive call. -/
def array_step (buf : List Nat) (e : Nat) (first : Bool) (cur0 : Nat) (st : scan_status_t) :
    loop_step :=
  let cur := skip_whitespace buf e cur0
  if cur ≥ e then .ret ⟨false, cur, st⟩
  else if rd buf cur = 93 then .ret ⟨true, cur + 1, st⟩
  else if first = false ∧ rd buf cur ≠ 44 then .ret ⟨false, cur, st⟩
  else .value (if first then cur else cur + 1) st

/-- Where `pass1_analyze` stands after its first lines (127-134, 173, 196-212): at
a `return`, or entering the loop of the `'{'` or of the `'['` branch. -/
inductive value_step where
  | ret (r : scan_result)
  | object (cur : Nat) (st : scan_status_t)
  | array (cur : Nat) (st : scan_status_t)
  deriving DecidableEq, Repr

/-- Lines 127-134, 173-175 and 196-212 of `pass1_analyze`: everything outside the
two loops. -/
def value_head (buf : List Nat) (e cur0 : Nat) (st0 : scan_status_t) : value_step :=
  let cur := skip_whitespace buf e cur0
  if cur ≥ e then .ret ⟨false, cur, st0⟩
  else
    let c := rd buf cur
    let st := { st0 with nodes := st0.nodes + 1 }
    if c = 123 then .object (cur + 1) st
    else if c = 91 then .array (cur + 1) st
    else if c = 34 then
      match scan_string buf e cur st.string_bytes with
      | (r, cur1, sb) => .ret ⟨r, cur1, { st with string_bytes := sb }⟩
    else if c = 45 ∨ (48 ≤ c ∧ c ≤ 57) then
      .ret ⟨true, number_run (e - cur) buf e cur, st⟩
    else if strncmp_eq buf cur [116, 114, 117, 101] then .ret ⟨true, cur + 4, st⟩
    else if strncmp_eq buf cur [102, 97, 108, 115, 101] then .ret ⟨true, cur + 5, st⟩
    else if strncmp_eq buf cur [110, 117, 108, 108] then .ret ⟨true, cur + 4, st⟩
    else .ret ⟨false, cur, st⟩

mutual
/-- `pass1_analyze(&cursor, end, stats)`; `none` only when `fuel` runs out. -/
def pass1 : Nat → List Nat → Nat → Nat → scan_status_t → Option scan_result
  | 0, _, _, _, _ => none
  | fuel + 1, buf, e, cur0, st0 =>
    match value_head buf e cur0 st0 with
    | .ret r => some r
    | .object cur st => pass1_object fuel buf e true cur st
    | .array cur st => pass1_array fuel buf e true cur st
termination_by structural fuel => fuel
/-- The `while (true)` loop of the `'{'` branch (lines 137-172), entered at its
head with the flag `first`. -/
def pass1_object : Nat → List Nat → Nat → Bool → Nat → scan_status_t → Option scan_result
  | 0, _, _, _, _, _ => none
  | fuel + 1, buf, e, first, cur0, st =>
    match object_step buf e first cur0 st with
    | .ret r => some r
    | .value cur1 st1 =>
      match pass1 fuel buf e cur1 st1 with
      | none => none
      | some r => if r.ok then pass1_object fuel buf e false r.cursor r.stats else some r
termination_by structural fuel => fuel
/-- The `while (true)` loop of the `'['` branch (lines 176-195). -/
def pass1_array : Nat → List Nat → Nat → Bool → Nat → scan_status_t → Option scan_result
  | 0, _, _, _, _, _ => none
  | fuel + 1, buf, e, first, cur0, st =>
    match array_step buf e first cur0 st with
    | .ret r => some r
    | .value cur1 st1 =>
      match pass1 fuel buf e cur1 st1 with
      | none => none
      | some r => if r.ok then pass1_array fuel buf e false r.cursor r.stats else some r
termination_by structural fuel => fuel
end

/-- `pass1_analyze(&cursor, end, stats)` with a recursion budget that every call
stays within (`pass1_total`): a call is never made at or after `end`, and a nested
value starts at least one byte after the bracket that opens its container. -/
def pass1_analyze (buf : List Nat) (e cur : Nat) (st : scan_status_t) : Option scan_result :=
  pass1 (2 * (e - cur) + 1) buf e cur st

/-! ## `strtod` (C library), as far as `fill_node` depends on it -/

/-- `isxdigit` of `<ctype.h>`. -/
def isxdigit (c : Nat) : Bool :=
  isdigit c || (decide (97 ≤ c) && decide (c ≤ 102)) || (decide (65 ≤ c) && decide (c ≤ 70))

/-- `tolower` on ASCII. -/
def tolower (c : Nat) : Nat := if 65 ≤ c ∧ c ≤ 90 then c + 32 else c

/-- Case-insensitive match of a lower-case literal at `cur`. -/
def strncasecmp_eq (buf : List Nat) : Nat → List Nat → Bool
  | _, [] => true
  | cur, b :: bs => tolower (rd buf cur) == b && strncasecmp_eq buf (cur + 1) bs

/-- First offset at or after `cur` whose byte does not satisfy `p`; `p 0` is false
for every class used, so the scan ends at the first NUL at the latest. -/
def span_end (p : Nat → Bool) : Nat → List Nat → Nat → Nat
  | 0, _, cur => cur
  | fuel + 1, buf, cur => if p (rd buf cur) then span_end p fuel buf (cur + 1) else cur

/-- End of the run of bytes satisfying `p` that starts at `cur`. -/
def run_end (p : Nat → Bool) (buf : List Nat) (cur : Nat) : Nat :=
  span_end p (buf.length - cur) buf cur

/-- End of an optional exponent part (`mark`, optional sign, at least one decimal
digit) at `m`; `m` itself when there is none. `mark` is given in lower case. -/
def exponent_end (buf : List Nat) (mark m : Nat) : Nat :=
  if tolower (rd buf m) = mark then
    let k := if rd buf (m + 1) = 43 ∨ rd buf (m + 1) = 45 then m + 2 else m + 1
    let j := run_end isdigit buf k
    if k < j then j else m
  else m

/-- End of a mantissa at `p`: digits of class `dig` with at most one `.`; `none`
when the run has no digit. -/
def mantissa_end (dig : Nat → Bool) (buf : List Nat) (p : Nat) : Option Nat :=
  let d1 := run_end dig buf p
  if rd buf d1 = 46 then
    let d2 := run_end dig buf (d1 + 1)
    if p < d1 ∨ d1 + 1 < d2 then some d2 else none
  else if p < d1 then some d1 else none

/-- The end pointer that `strtod(cursor, &next)` stores in `next` (ISO C 7.22.1.3,
"C" locale): after optional white space and sign, the longest of `inf`/`infinity`,
`nan`/`nan(n-char-sequence)`, a hexadecimal or a decimal floating constant; `cur`
itself when no conversion is possible. -/
def strtod_end (buf : List Nat) (cur : Nat) : Nat :=
  let p0 := run_end isspace buf cur
  let p := if rd buf p0 = 43 ∨ rd buf p0 = 45 then p0 + 1 else p0
  if strncasecmp_eq buf p [105, 110, 102, 105, 110, 105, 116, 121] then p + 8
  else if strncasecmp_eq buf p [105, 110, 102] then p + 3
  else if strncasecmp_eq buf p [110, 97, 110] then
    if rd buf (p + 3) = 40 then
      let q := run_end (fun c => isdigit c || c == 95 || (decide (97 ≤ tolower c)
        && decide (tolower c ≤ 122))) buf (p + 4)
      if rd buf q = 41 then q + 1 else p + 3
    else p + 3
  else if rd buf p = 48 ∧ tolower (rd buf (p + 1)) = 120 then
    match mantissa_end isxdigit buf (p + 2) with
    | some m => exponent_end buf 112 m
    | none => p + 1
  else
    match mantissa_end isdigit buf p with
    | some m => exponent_end buf 101 m
    | none => cur

/-- The bytes of `buf` in `[a, b)`. -/
def slice (buf : List Nat) (a b : Nat) : List Nat := (buf.drop a).take (b - a)

/-! ## The tree and the arena -/

mutual
/-- `struct json_value_t` as it sits in node slot `slot`.  A `double` is kept as the
text that `strtod` converted; `chars` are the bytes stored from `val` on (the decoded
text and its terminator); `elems` are the nodes in slots `items[0..count)`;
`untouched` is a slot in which `fill_node` wrote nothing: inside the node region it
holds the zero bytes of `calloc`, at or after the end of the node region it holds
whatever is stored at that place. -/
inductive json_value_t where
  | untouched (slot : Nat)
  | null (slot : Nat)
  | bool (slot : Nat) (boolean : Int)
  | number (slot : Nat) (text : List Nat)
  | string (slot : Nat) (val : Nat) (len : Nat) (chars : List Nat)
  | array (slot : Nat) (items : Option Nat) (count : Nat) (elems : List json_value_t)
  | object (slot : Nat) (entries : Option Nat) (count : Nat) (members : List json_entry_t)
/-- `struct json_entry_t` in entry slot `index`: `key`, `key_len`, the bytes stored
from `key` on, and the node that `value` points to. -/
inductive json_entry_t where
  | mk (index : Nat) (key : Nat) (key_len : Nat) (key_chars : List Nat)
      (value : json_value_t)
end

/-- The slot a node sits in. -/
def json_value_t.slot : json_value_t → Nat
  | .untouched s => s
  | .null s => s
  | .bool s _ => s
  | .number s _ => s
  | .string s _ _ _ => s
  | .array s _ _ _ => s
  | .object s _ _ _ => s

/-- `struct json_arena_t`: the three bump cursors, as offsets into the node, entry
and string regions.  Of the `*_rem` fields only `nodes_rem` is ever assigned. -/
structure json_arena_t where
  nodes : Nat
  entries : Nat
  strings : Nat
  nodes_rem : Nat
  deriving DecidableEq, Repr

/-! ## `parse_string_text` (main.c 221-243) -/

/-- The `while (**cursor != '"')` loop; the result is the decoded bytes and the
offset of the closing quote. -/
def parse_string_loop : Nat → List Nat → Nat → List Nat → Option (List Nat × Nat)
  | 0, _, _, _ => none
  | fuel + 1, buf, cur, out =>
    let c := rd buf cur
    if c ≠ 34 then
      if c = 92 then
        let c2 := rd buf (cur + 1)
        parse_string_loop fuel buf (cur + 2)
          (out ++ [if c2 = 110 then 10 else if c2 = 116 then 9 else c2])
      else parse_string_loop fuel buf (cur + 1) (out ++ [c])
    else some (out, cur)

/-- `parse_string_text(&cursor, arena, &out_len)`: the returned start offset,
`*out_len`, the bytes written (terminator included), the cursor and the arena. -/
def parse_string_text (fuel : Nat) (buf : List Nat) (cur : Nat) (a : json_arena_t) :
    Option (Nat × Nat × List Nat × Nat × json_arena_t) :=
  match parse_string_loop fuel buf (cur + 1) [] with
  | none => none
  | some (out, cur1) =>
    some (a.strings, out.length, out ++ [0], cur1 + 1,
      { a with strings := a.strings + (out.length + 1) })

/-! ## `fill_node` (main.c 403-508) -/

/-- Line 417: `while(*saved != ':' && *saved) saved++;` -/
def find_colon : Nat → List Nat → Nat → Nat
  | 0, _, saved => saved
  | fuel + 1, buf, saved =>
    if rd buf saved ≠ 58 ∧ rd buf saved ≠ 0 then find_colon fuel buf (saved + 1) else saved

/-- Lines 420-424: the depth-balanced skip of one member value. -/
def skip_member_value : Nat → List Nat → Nat → Int → Nat
  | 0, _, saved, _ => saved
  | fuel + 1, buf, saved, d =>
    let c := rd buf saved
    if c ≠ 0 ∧ (d > 0 ∨ (c ≠ 44 ∧ c ≠ 125)) then
      let d1 := if c = 123 ∨ c = 91 then d + 1 else d
      let d2 := if c = 125 ∨ c = 93 then d1 - 1 else d1
      skip_member_value fuel buf (saved + 1) d2
    else saved

/-- Lines 415-427: the `while(1)` loop that counts the keys of an object. -/
def count_keys : Nat → List Nat → Nat → Nat → Option Nat
  | 0, _, _, _ => none
  | fuel + 1, buf, saved, count =>
    let s1 := find_colon (buf.length - saved) buf saved
    let s2 := if rd buf s1 ≠ 0 then s1 + 1 else s1
    let s3 := skip_member_value (buf.length - s2) buf s2 0
    if rd buf s3 = 125 then some count else count_keys fuel buf (s3 + 1) (count + 1)

/-- Lines 465-470: the loop that counts the items of an array. -/
def count_items : Nat → List Nat → Nat → Int → Nat → Nat
  | 0, _, _, _, count => count
  | fuel + 1, buf, saved, d, count =>
    let c := rd buf saved
    if c ≠ 0 ∧ (d > 0 ∨ c ≠ 93) then
      let d1 := if c = 123 ∨ c = 91 then d + 1 else d
      let d2 := if c = 125 ∨ c = 93 then d1 - 1 else d1
      count_items fuel buf (saved + 1) d2 (if d2 = 0 ∧ c = 44 then count + 1 else count)
    else count

/-- Lines 409-428: the number of keys that the lookahead from the `'{'` at `cur`
finds; `none` when its `while(1)` loop does not end within `fuel`. -/
def object_count (fuel : Nat) (buf : List Nat) (e cur : Nat) : Option Nat :=
  let saved := skip_whitespace buf e (cur + 1)
  if rd buf saved ≠ 125 then count_keys fuel buf saved 1 else some 0

/-- Lines 457-471: the number of items that the lookahead from the `'['` at `cur`
finds. -/
def array_count (buf : List Nat) (e cur : Nat) : Nat :=
  let saved := skip_whitespace buf e (cur + 1)
  if rd buf saved ≠ 93 then count_items (buf.length - saved) buf saved 0 1 else 0

/-- `(count > 0) ? cursor : NULL` (lines 431, 475). -/
def reserved (count cursor : Nat) : Option Nat := if count > 0 then some cursor else none

/-- `skip_whitespace(cursor, end); if(**cursor == c) (*cursor)++;` (lines 449-450,
452-453, 483-484, 486-487). -/
def skip_optional (buf : List Nat) (e cur c : Nat) : Nat :=
  let cur1 := skip_whitespace buf e cur
  if rd buf cur1 = c then cur1 + 1 else cur1

/-- Lines 489-507 of `fill_node`: the branches for strings, numbers and literals,
with the cursor already on the first byte of the value. -/
def fill_scalar (fuel : Nat) (buf : List Nat) (node cur : Nat) (a : json_arena_t) :
    Option (json_value_t × Nat × json_arena_t) :=
  let c := rd buf cur
  if c = 34 then
    match parse_string_text fuel buf cur a with
    | none => none
    | some (val, len, chars, cur1, a1) => some (.string node val len chars, cur1, a1)
  else if isdigit c ∨ c = 45 then
    some (.number node (slice buf cur (strtod_end buf cur)), strtod_end buf cur, a)
  else if strncmp_eq buf cur [116, 114, 117, 101] then some (.bool node 1, cur + 4, a)
  else if strncmp_eq buf cur [102, 97, 108, 115, 101] then some (.bool node 0, cur + 5, a)
  else if strncmp_eq buf cur [110, 117, 108, 108] then some (.null node, cur + 4, a)
  else some (.untouched node, cur, a)

mutual
/-- `fill_node(node, &cursor, end, arena)`: the node left in slot `node`, the cursor
and the arena; `none` when `fuel` runs out.  The slots are handed out by the cursors
alone, as in the code, which never compares them with the sizes of the regions. -/
def fill_node : Nat → List Nat → Nat → Nat → Nat → json_arena_t →
    Option (json_value_t × Nat × json_arena_t)
  | 0, _, _, _, _, _ => none
  | fuel + 1, buf, e, node, cur0, a =>
    let cur := skip_whitespace buf e cur0
    if rd buf cur = 123 then
      match object_count fuel buf e cur with
      | none => none
      | some count =>
        match fill_entries fuel buf e a.entries 0 count (cur + 1)
            { a with entries := a.entries + count } with
        | none => none
        | some (members, cur1, a1) =>
          some (.object node (reserved count a.entries) count members,
            skip_optional buf e cur1 125, a1)
    else if rd buf cur = 91 then
      match fill_items fuel buf e a.nodes 0 (array_count buf e cur) (cur + 1)
          { a with nodes := a.nodes + array_count buf e cur } with
      | none => none
      | some (elems, cur1, a1) =>
        some (.array node (reserved (array_count buf e cur) a.nodes) (array_count buf e cur)
          elems, skip_optional buf e cur1 93, a1)
    else fill_scalar fuel buf node cur a
termination_by structural fuel => fuel
/-- The `for` loop of the object branch (lines 435-451) from index `i` on; `entries`
is the start of the reserved run of entry slots. -/
def fill_entries : Nat → List Nat → Nat → Nat → Nat → Nat → Nat → json_arena_t →
    Option (List json_entry_t × Nat × json_arena_t)
  | 0, _, _, _, _, _, _, _ => none
  | fuel + 1, buf, e, entries, i, count, cur0, a =>
    if i < count then
      match parse_string_text fuel buf (skip_whitespace buf e cur0) a with
      | none => none
      | some (key, klen, kchars, cur1, a1) =>
        match fill_node fuel buf e a1.nodes (skip_whitespace buf e cur1 + 1)
            { a1 with nodes := a1.nodes + 1 } with
        | none => none
        | some (v, cur2, a2) =>
          match fill_entries fuel buf e entries (i + 1) count (skip_optional buf e cur2 44)
              a2 with
          | none => none
          | some (rest, cur4, a3) => some (.mk (entries + i) key klen kchars v :: rest, cur4, a3)
    else some ([], cur0, a)
termination_by structural fuel => fuel
/-- The `for` loop of the array branch (lines 479-485) from index `i` on; `items` is
the start of the reserved run of node slots. -/
def fill_items : Nat → List Nat → Nat → Nat → Nat → Nat → Nat → json_arena_t →
    Option (List json_value_t × Nat × json_arena_t)
  | 0, _, _, _, _, _, _, _ => none
  | fuel + 1, buf, e, items, i, count, cur0, a =>
    if i < count then
      match fill_node fuel buf e (items + i) cur0 a with
      | none => none
      | some (v, cur1, a1) =>
        match fill_items fuel buf e items (i + 1) count (skip_optional buf e cur1 44) a1 with
        | none => none
        | some (rest, cur3, a2) => some (v :: rest, cur3, a2)
    else some ([], cur0, a)
termination_by structural fuel => fuel
end

/-! ## `parse_json` (main.c 510-549) -/

/-- What the caller of `parse_json` gets: the returned pointer (`none` for `NULL`)
and the contents of its `error_buffer` (`none` when it passed `NULL`). -/
structure parse_result where
  root : Option json_value_t
  error_buffer : Option String

/-- Pass 2 as `parse_json` runs it: the arena cursors start at the beginning of
their regions, the root takes node slot `0`, and `fill_node` starts at `input`.  The
regions have `stats.nodes`, `stats.entries` and `stats.string_bytes` places
(`total_size`); the cursors that come back say whether pass 2 stayed inside them. -/
def pass2 (fuel : Nat) (buf : List Nat) (length : Nat) (stats : scan_status_t) :
    Option (json_value_t × Nat × json_arena_t) :=
  fill_node fuel buf length 0 0
    { nodes := 1, entries := 0, strings := 0, nodes_rem := stats.nodes }

/-- `parse_json(input, length, error_buffer)`.  `calloc_ok` says whether the one
`calloc` succeeds; `none` when pass 2 does not return within `fuel`. -/
def parse_json (fuel : Nat) (buf : List Nat) (length : Nat) (error_buffer : Option String)
    (calloc_ok : Bool) : Option parse_result :=
  match pass1_analyze buf length 0 stats_zero with
  | none => none
  | some r =>
    if r.ok = false then
      some ⟨none, error_buffer.map fun _ => "Syntax Error or Unexpected EOF"⟩
    else if calloc_ok = false then
      some ⟨none, error_buffer.map fun _ => "Memory allocation failed"⟩
    else
      match pass2 fuel buf length r.stats with
      | none => none
      | some (root, _, _) => some ⟨some root, error_buffer⟩

/-! ## Notions used in the statements -/

/-- `pass1_analyze`, called with cursor `cur` and counters `st`, returns with `r`. -/
def Returns (buf : List Nat) (e cur : Nat) (st : scan_status_t) (r : scan_result) : Prop :=
  ∃ fuel, pass1 fuel buf e cur st = some r

/-- The object loop of `pass1_analyze`, entered at its head, leaves the function
with `r`. -/
def ObjectReturns (buf : List Nat) (e : Nat) (first : Bool) (cur : Nat) (st : scan_status_t)
    (r : scan_result) : Prop :=
  ∃ fuel, pass1_object fuel buf e first cur st = some r

/-- The array loop of `pass1_analyze`, entered at its head, leaves the function
with `r`. -/
def ArrayReturns (buf : List Nat) (e : Nat) (first : Bool) (cur : Nat) (st : scan_status_t)
    (r : scan_result) : Prop :=
  ∃ fuel, pass1_array fuel buf e first cur st = some r

/-- What the caller of `parse_json` can inspect after a rejected input: the text in
its error buffer, and the fields `err_line`, `err_col`, `err_msg` of the
`scan_status_t` that pass 1 worked on. -/
def error_report (buf : List Nat) (length : Nat) :
    Option (Option String × Int × Int × Option String) :=
  match pass1_analyze buf length 0 stats_zero, parse_json 0 buf length (some "") true with
  | some r, some out => some (out.error_buffer, r.stats.err_line, r.stats.err_col, r.stats.err_msg)
  | _, _ => none

/-! ## Walking the tree -/

mutual
/-- The nodes strictly below a node, in the order in which `fill_node` visits
them: the items of an Array, the values of the entries of an Object, each
followed by the nodes below it. -/
def json_value_t.descendants : json_value_t → List json_value_t
  | .untouched _ => []
  | .null _ => []
  | .bool _ _ => []
  | .number _ _ => []
  | .string _ _ _ _ => []
  | .array _ _ _ xs => elems_descendants xs
  | .object _ _ _ ms => members_descendants ms
/-- The value node of an entry and the nodes below it. -/
def json_entry_t.descendants : json_entry_t → List json_value_t
  | .mk _ _ _ _ v => v :: v.descendants
/-- The nodes at and below the items of an Array. -/
def elems_descendants : List json_value_t → List json_value_t
  | [] => []
  | x :: xs => (x :: x.descendants) ++ elems_descendants xs
/-- The nodes at and below the entry values of an Object. -/
def members_descendants : List json_entry_t → List json_value_t
  | [] => []
  | m :: ms => m.descendants ++ members_descendants ms
end

/-- All nodes of the tree rooted at `v`, the root first. -/
def json_value_t.nodes (v : json_value_t) : List json_value_t := v :: v.descendants

/-- The node slots used by a list of nodes. -/
def slots_of (ns : List json_value_t) : List Nat := ns.map json_value_t.slot

/-- For an Array node: it has `count` items, and when `count > 0` its `items`
pointer is set and item `i` sits in node slot `items + i`. -/
def items_contiguous : json_value_t → Prop
  | .array _ items count elems =>
    elems.length = count ∧
      (0 < count → ∃ base, items = some base ∧ slots_of elems = List.range' base count)
  | _ => True

/-! ## JSON texts

The source-level notions that the statements about `pass1_analyze` talk about: a
JSON value, and the texts that render it. -/

/-- A JSON value as a tree: numbers by their digits, strings and keys by their
bytes. -/
inductive Value where
  | null
  | bool (b : Bool)
  | number (digits : List Nat)
  | string (s : List Nat)
  | array (items : List Value)
  | object (members : List (List Nat × Value))

mutual
/-- Number of values in a tree: every scalar, array and object once. -/
def Value.node_count : Value → Nat
  | .null => 1
  | .bool _ => 1
  | .number _ => 1
  | .string _ => 1
  | .array xs => 1 + items_node_count xs
  | .object ms => 1 + members_node_count ms
/-- Number of values in the items of an array. -/
def items_node_count : List Value → Nat
  | [] => 0
  | x :: xs => x.node_count + items_node_count xs
/-- Number of values in the members of an object. -/
def members_node_count : List (List Nat × Value) → Nat
  | [] => 0
  | (_, v) :: ms => v.node_count + members_node_count ms
end

mutual
/-- Number of key/value pairs over all objects of a tree. -/
def Value.entry_count : Value → Nat
  | .null => 0
  | .bool _ => 0
  | .number _ => 0
  | .string _ => 0
  | .array xs => items_entry_count xs
  | .object ms => members_entry_count ms
/-- Number of key/value pairs inside the items of an array. -/
def items_entry_count : List Value → Nat
  | [] => 0
  | x :: xs => x.entry_count + items_entry_count xs
/-- Number of key/value pairs of an object with these members, nested ones
included. -/
def members_entry_count : List (List Nat × Value) → Nat
  | [] => 0
  | (_, v) :: ms => 1 + v.entry_count + members_entry_count ms
end

/-- A run of white space (bytes for which `isspace` holds), possibly empty. -/
def IsWs (w : List Nat) : Prop := ∀ b ∈ w, isspace b = true

/-- A string body without backslash and without double quote. -/
def Plain (s : List Nat) : Prop := ∀ b ∈ s, b ≠ 34 ∧ b ≠ 92

/-- The string literal with body `s`. -/
def quoted (s : List Nat) : List Nat := 34 :: (s ++ [34])

mutual
/-- `Token v t`: the text `t` renders the value `v`, from the first byte of its
first token to the last byte of its last token, with any white space between its
tokens.  Numbers are non-empty digit runs; strings and keys are `Plain`. -/
def Token : Value → List Nat → Prop
  | .null, t => t = [110, 117, 108, 108]
  | .bool true, t => t = [116, 114, 117, 101]
  | .bool false, t => t = [102, 97, 108, 115, 101]
  | .number ds, t => ds ≠ [] ∧ (∀ d ∈ ds, isdigit d = true) ∧ t = ds
  | .string s, t => Plain s ∧ t = quoted s
  | .array xs, t => ∃ body w, Items true xs body ∧ IsWs w ∧ t = 91 :: (body ++ (w ++ [93]))
  | .object ms, t =>
    ∃ body w, Members true ms body ∧ IsWs w ∧ t = 123 :: (body ++ (w ++ [125]))
/-- The text between the opening bracket of an array and the white space before
its closing bracket, from the item `x :: xs` on: every item but the first one of the
array is preceded by white space and a comma, and every item by white space. -/
def Items : Bool → List Value → List Nat → Prop
  | _, [], t => t = []
  | first, x :: xs, t =>
    ∃ w0 w tok rest, IsWs w0 ∧ IsWs w ∧ Token x tok ∧ Items false xs rest ∧
      t = (if first then [] else w0 ++ [44]) ++ (w ++ (tok ++ rest))
/-- The same for the members of an object: white space, key, white space, colon,
white space, value. -/
def Members : Bool → List (List Nat × Value) → List Nat → Prop
  | _, [], t => t = []
  | first, (k, v) :: ms, t =>
    ∃ w0 w1 w2 w tok rest, IsWs w0 ∧ IsWs w1 ∧ IsWs w2 ∧ IsWs w ∧ Plain k ∧ Token v tok ∧
      Members false ms rest ∧
      t = (if first then [] else w0 ++ [44]) ++
        (w1 ++ (quoted k ++ (w2 ++ (58 :: (w ++ (tok ++ rest))))))
end

/-- `Renders v t`: `t` is a rendering of `v` with arbitrary white space before its
first token and between its tokens. -/
def Renders (v : Value) (t : List Nat) : Prop :=
  ∃ w tok, IsWs w ∧ Token v tok ∧ t = w ++ tok

/-- The bytes `t` stand at offset `p` of the memory `buf`. -/
def At (buf : List Nat) : Nat → List Nat → Prop
  | _, [] => True
  | p, b :: t => rd buf p = b ∧ At buf (p + 1) t

/-- The number loop of `pass1_analyze` cannot run on at offset `q`: `q` is `end`, or
the byte there is not a number byte. -/
def Delim (buf : List Nat) (e q : Nat) : Prop := q < e → is_number_char (rd buf q) = false

/-- `skip_whitespace` stays at offset `q`: `q` is at or after `end`, or the byte
there is neither white space nor `/`. -/
def TokenStart (buf : List Nat) (e q : Nat) : Prop :=
  e ≤ q ∨ (isspace (rd buf q) = false ∧ rd buf q ≠ 47)

/-! ## The walk of `pass1_analyze`

Statements about "a position that `pass1_analyze` reaches" are made with the
following notions: a frame is a call of the function or the head of one of its two
loops, and a step leads from a frame to the next frame that the code enters inside
it. -/

/-- A call of `pass1_analyze` (`value`), or the head of the loop of its `'{'` branch
(`object`) or of its `'['` branch (`array`), with the cursor and the counters at that
point. -/
inductive frame where
  | value (cur : Nat) (st : scan_status_t)
  | object (first : Bool) (cur : Nat) (st : scan_status_t)
  | array (first : Bool) (cur : Nat) (st : scan_status_t)

/-- The function returns with `r` when run from the frame. -/
def frame.Returns (buf : List Nat) (e : Nat) : frame → scan_result → Prop
  | .value cur st, r => CJson.Returns buf e cur st r
  | .object first cur st, r => ObjectReturns buf e first cur st r
  | .array first cur st, r => ArrayReturns buf e first cur st r

/-- Every run from the frame returns `false`. -/
def frame.Fails (buf : List Nat) (e : Nat) (fr : frame) : Prop :=
  ∀ r, fr.Returns buf e r → r.ok = false

/-- One step of the walk: a call enters a loop; a loop head goes to the recursive
call for the next value; a loop head whose value was accepted goes to the loop head
after that value. -/
inductive Step (buf : List Nat) (e : Nat) : frame → frame → Prop
  | enter_object {cur c : Nat} {st s : scan_status_t} :
      value_head buf e cur st = .object c s → Step buf e (.value cur st) (.object true c s)
  | enter_array {cur c : Nat} {st s : scan_status_t} :
      value_head buf e cur st = .array c s → Step buf e (.value cur st) (.array true c s)
  | object_value {first : Bool} {cur c : Nat} {st s : scan_status_t} :
      object_step buf e first cur st = .value c s →
      Step buf e (.object first cur st) (.value c s)
  | object_next {first : Bool} {cur c : Nat} {st s : scan_status_t} {r : scan_result} :
      object_step buf e first cur st = .value c s → Returns buf e c s r → r.ok = true →
      Step buf e (.object first cur st) (.object false r.cursor r.stats)
  | array_value {first : Bool} {cur c : Nat} {st s : scan_status_t} :
      array_step buf e first cur st = .value c s →
      Step buf e (.array first cur st) (.value c s)
  | array_next {first : Bool} {cur c : Nat} {st s : scan_status_t} {r : scan_result} :
      array_step buf e first cur st = .value c s → Returns buf e c s r → r.ok = true →
      Step buf e (.array first cur st) (.array false r.cursor r.stats)

/-- The walk of `pass1_analyze` from frame `a` gets to frame `b`. -/
def Reaches (buf : List Nat) (e : Nat) (a b : frame) : Prop :=
  Relation.ReflTransGen (Step buf e) a b

/-- `Boundary buf e fr p`: the code of frame `fr` calls `skip_whitespace` with the
cursor at offset `p` (lines 127, 138, 150, 160, 177). -/
inductive Boundary (buf : List Nat) (e : Nat) : frame → Nat → Prop
  | value {cur : Nat} {st : scan_status_t} : Boundary buf e (.value cur st) cur
  | array {first : Bool} {cur : Nat} {st : scan_status_t} :
      Boundary buf e (.array first cur st) cur
  | object {first : Bool} {cur : Nat} {st : scan_status_t} :
      Boundary buf e (.object first cur st) cur
  | after_comma {cur : Nat} {st : scan_status_t} :
      skip_whitespace buf e cur < e → rd buf (skip_whitespace buf e cur) = 44 →
      Boundary buf e (.object false cur st) (skip_whitespace buf e cur + 1)
  | after_first_key {cur c2 sb : Nat} {st : scan_status_t} :
      skip_whitespace buf e cur < e → rd buf (skip_whitespace buf e cur) = 34 →
      scan_string buf e (skip_whitespace buf e cur) st.string_bytes = (true, c2, sb) →
      Boundary buf e (.object true cur st) c2
  | after_next_key {cur c2 sb : Nat} {st : scan_status_t} :
      skip_whitespace buf e cur < e → rd buf (skip_whitespace buf e cur) = 44 →
      rd buf (skip_whitespace buf e (skip_whitespace buf e cur + 1)) = 34 →
      scan_string buf e (skip_whitespace buf e (skip_whitespace buf e cur + 1))
        st.string_bytes = (true, c2, sb) →
      Boundary buf e (.object false cur st) c2

/-- `Blank buf e p q`: from offset `p`, `skip_whitespace` gets to offset `q` over
white space, `//` comments and terminated `/* */` comments. -/
inductive Blank (buf : List Nat) (e : Nat) : Nat → Nat → Prop
  | refl (p : Nat) : Blank buf e p p
  | space {p q : Nat} : p < e → isspace (rd buf p) = true → Blank buf e (p + 1) q →
      Blank buf e p q
  | line {p q : Nat} : p + 1 < e → rd buf p = 47 → rd buf (p + 1) = 47 →
      Blank buf e (line_comment_end (e - (p + 2)) buf e (p + 2)) q → Blank buf e p q
  | block {p q : Nat} : p + 1 < e → rd buf p = 47 → rd buf (p + 1) = 42 →
      block_comment_scan (e - (p + 2)) buf e (p + 2) + 1 < e →
      Blank buf e (block_comment_scan (e - (p + 2)) buf e (p + 2) + 2) q → Blank buf e p q

/-- A `/*` at offset `q` inside the input with no `*/` after it. -/
def UnterminatedComment (buf : List Nat) (e q : Nat) : Prop :=
  q + 1 < e ∧ rd buf q = 47 ∧ rd buf (q + 1) = 42 ∧
    ∀ i, q + 2 ≤ i → i + 1 < e → ¬ (rd buf i = 42 ∧ rd buf (i + 1) = 47)

/-- What a call `fill_node(node, ...)` that starts with the arena `a` guarantees
about the node `v` it leaves and the arena `a1` it ends with. -/
def fill_inv (a : json_arena_t) (node : Nat) (v : json_value_t) (a1 : json_arena_t) : Prop :=
  v.slot = node ∧ a.nodes ≤ a1.nodes ∧
    (slots_of v.descendants).Perm (List.range' a.nodes (a1.nodes - a.nodes)) ∧
    ∀ n ∈ v.nodes, items_contiguous n

/-! ## Equality tests, for evaluating the parser on concrete inputs -/

mutual
/-- Structural equality test on nodes. -/
def json_value_t.same : json_value_t → json_value_t → Bool
  | .untouched s, .untouched s' => s == s'
  | .null s, .null s' => s == s'
  | .bool s b, .bool s' b' => s == s' && b == b'
  | .number s t, .number s' t' => s == s' && t == t'
  | .string s v l c, .string s' v' l' c' => s == s' && v == v' && l == l' && c == c'
  | .array s i n xs, .array s' i' n' xs' => s == s' && i == i' && n == n' && same_elems xs xs'
  | .object s i n ms, .object s' i' n' ms' =>
    s == s' && i == i' && n == n' && same_members ms ms'
  | _, _ => false
/-- Structural equality test on entries. -/
def json_entry_t.same : json_entry_t → json_entry_t → Bool
  | .mk i k l c v, .mk i' k' l' c' v' => i == i' && k == k' && l == l' && c == c' && v.same v'
/-- Structural equality test on item lists. -/
def same_elems : List json_value_t → List json_value_t → Bool
  | [], [] => true
  | x :: xs, y :: ys => x.same y && same_elems xs ys
  | _, _ => false
/-- Structural equality test on member lists. -/
def same_members : List json_entry_t → List json_entry_t → Bool
  | [], [] => true
  | x :: xs, y :: ys => x.same y && same_members xs ys
  | _, _ => false
end

/-- Equality test on what `fill_node` returns. -/
def same_build : Option (json_value_t × Nat × json_arena_t) →
    Option (json_value_t × Nat × json_arena_t) → Bool
  | some (v, c, a), some (v', c', a') => v.same v' && c == c' && a == a'
  | none, none => true
  | _, _ => false

/-- Equality test on what `parse_json` returns. -/
def same_parse : Option parse_result → Option parse_result → Bool
  | some ⟨some v, b⟩, some ⟨some v', b'⟩ => v.same v' && b == b'
  | some ⟨none, b⟩, some ⟨none, b'⟩ => b == b'
  | none, none => true
  | _, _ => false

end CJson

namespace CJson

/-! ## Where the child-count lookahead of `fill_node` stops -/

/-- Lines 465-470: the value of `saved` when the item-counting loop ends.  Every
byte that the loop reads is read through `saved`, which only moves forward. -/
def count_items_stop : Nat → List Nat → Nat → Int → Nat
  | 0, _, saved, _ => saved
  | fuel + 1, buf, saved, d =>
    let c := rd buf saved
    if c ≠ 0 ∧ (d > 0 ∨ c ≠ 93) then
      let d1 := if c = 123 ∨ c = 91 then d + 1 else d
      let d2 := if c = 125 ∨ c = 93 then d1 - 1 else d1
      count_items_stop fuel buf (saved + 1) d2
    else saved

/-- Lines 457-471: the value of `saved` when the lookahead from the `'['` at `cur`
ends. -/
def array_lookahead_stop (buf : List Nat) (e cur : Nat) : Nat :=
  let saved := skip_whitespace buf e (cur + 1)
  if rd buf saved ≠ 93 then count_items_stop (buf.length - saved) buf saved 0 else saved

/-- Lines 415-427: the value of `saved` at the `break` of the key-counting loop. -/
def count_keys_stop : Nat → List Nat → Nat → Option Nat
  | 0, _, _ => none
  | fuel + 1, buf, saved =>
    let s1 := find_colon (buf.length - saved) buf saved
    let s2 := if rd buf s1 ≠ 0 then s1 + 1 else s1
    let s3 := skip_member_value (buf.length - s2) buf s2 0
    if rd buf s3 = 125 then some s3 else count_keys_stop fuel buf (s3 + 1)

/-- Lines 409-428: the value of `saved` when the lookahead from the `'{'` at `cur`
ends; `none` when its `while(1)` loop does not end within `fuel`. -/
def object_lookahead_stop (fuel : Nat) (buf : List Nat) (e cur : Nat) : Option Nat :=
  let saved := skip_whitespace buf e (cur + 1)
  if rd buf saved ≠ 125 then count_keys_stop fuel buf saved else some saved

/-! ## White space and comments, as text -/

/-- The body of a `/* */` comment: no `*` in it is followed by `/`, where the last
byte of the body is followed by the `*` of the terminator. -/
def NoClose : List Nat → Prop
  | [] => True
  | b :: body => ¬ (b = 42 ∧ (body ++ [42]).head? = some 47) ∧ NoClose body

/-- Text between two tokens: white space, `//` comments ended by a newline and
terminated `/* */` comments, in any number and order. -/
inductive Gap : List Nat → Prop
  | nil : Gap []
  | space (b : Nat) (g : List Nat) : isspace b = true → Gap g → Gap (b :: g)
  | line (body g : List Nat) : (∀ b ∈ body, b ≠ 10) → Gap g →
      Gap (47 :: 47 :: (body ++ 10 :: g))
  | block (body g : List Nat) : NoClose body → Gap g →
      Gap (47 :: 42 :: (body ++ 42 :: 47 :: g))

end CJson

namespace CJson

/-! ## String literals, as text -/

/-- One element of the body of a string literal: a byte other than `"` and `\`, the
escape `\t`, the escape `\n`, or an escape `\uXXXX` with its four hexadecimal
digits. -/
inductive str_item where
  | byte (b : Nat)
  | tab
  | newline
  | unicode (x1 x2 x3 x4 : Nat)

/-- The element is well formed. -/
def str_item.valid : str_item → Prop
  | .byte b => b ≠ 34 ∧ b ≠ 92
  | .tab => True
  | .newline => True
  | .unicode x1 x2 x3 x4 =>
    isxdigit x1 = true ∧ isxdigit x2 = true ∧ isxdigit x3 = true ∧ isxdigit x4 = true

/-- The element is a `\uXXXX` escape. -/
def str_item.is_unicode : str_item → Bool
  | .unicode _ _ _ _ => true
  | _ => false

/-- The bytes of the element in the input text. -/
def str_item.source : str_item → List Nat
  | .byte b => [b]
  | .tab => [92, 116]
  | .newline => [92, 110]
  | .unicode x1 x2 x3 x4 => [92, 117, x1, x2, x3, x4]

/-- The bytes that the tree holds for the element: the byte itself, TAB for `\t`, LF
for `\n`, and for `\uXXXX` the letter `u` and the four digits as they stand (the
escape is not decoded). -/
def str_item.stored : str_item → List Nat
  | .byte b => [b]
  | .tab => [9]
  | .newline => [10]
  | .unicode x1 x2 x3 x4 => [117, x1, x2, x3, x4]

/-- The input text of a string body. -/
def body_source : List str_item → List Nat
  | [] => []
  | it :: items => it.source ++ body_source items

/-- The bytes that the tree holds for a string body. -/
def body_stored : List str_item → List Nat
  | [] => []
  | it :: items => it.stored ++ body_stored items

/-- Number of `\uXXXX` escapes in a string body. -/
def unicode_count : List str_item → Nat
  | [] => 0
  | it :: items => (if it.is_unicode then 1 else 0) + unicode_count items

/-- The string literal with the given body. -/
def literal (items : List str_item) : List Nat := quoted (body_source items)

end CJson

namespace CJson

/-! ## Separators -/

/-- `KeyAt buf e fr k`: at the head `fr` of the object loop a member is due, and its
key is expected at offset `k`: at the first byte after the white space that follows
the opening brace when that byte is not `}`, or after the comma and the white space
that follow an accepted member. -/
inductive KeyAt (buf : List Nat) (e : Nat) : frame → Nat → Prop
  | first {cur : Nat} {st : scan_status_t} :
      skip_whitespace buf e cur < e → rd buf (skip_whitespace buf e cur) ≠ 125 →
      KeyAt buf e (.object true cur st) (skip_whitespace buf e cur)
  | next {cur : Nat} {st : scan_status_t} :
      skip_whitespace buf e cur < e → rd buf (skip_whitespace buf e cur) = 44 →
      KeyAt buf e (.object false cur st)
        (skip_whitespace buf e (skip_whitespace buf e cur + 1))

/-- The input breaks the separator rules of JSON at the loop head `fr`.  A loop
head with `first = true` stands right after the opening bracket, one with
`first = false` right after a member that was accepted; the bytes looked at are the
first bytes after white space and comments. -/
inductive SeparatorViolation (buf : List Nat) (e : Nat) : frame → Prop
  | array_leading_comma {cur : Nat} {st : scan_status_t} :
      skip_whitespace buf e cur < e → rd buf (skip_whitespace buf e cur) = 44 →
      SeparatorViolation buf e (.array true cur st)
  | array_trailing_comma {cur : Nat} {st : scan_status_t} :
      skip_whitespace buf e cur < e → rd buf (skip_whitespace buf e cur) = 44 →
      rd buf (skip_whitespace buf e (skip_whitespace buf e cur + 1)) = 93 →
      SeparatorViolation buf e (.array false cur st)
  | array_double_comma {cur : Nat} {st : scan_status_t} :
      skip_whitespace buf e cur < e → rd buf (skip_whitespace buf e cur) = 44 →
      rd buf (skip_whitespace buf e (skip_whitespace buf e cur + 1)) = 44 →
      SeparatorViolation buf e (.array false cur st)
  | array_missing_comma {cur : Nat} {st : scan_status_t} :
      skip_whitespace buf e cur < e → rd buf (skip_whitespace buf e cur) ≠ 44 →
      rd buf (skip_whitespace buf e cur) ≠ 93 →
      SeparatorViolation buf e (.array false cur st)
  | object_leading_comma {cur : Nat} {st : scan_status_t} :
      skip_whitespace buf e cur < e → rd buf (skip_whitespace buf e cur) = 44 →
      SeparatorViolation buf e (.object true cur st)
  | object_trailing_comma {cur : Nat} {st : scan_status_t} :
      skip_whitespace buf e cur < e → rd buf (skip_whitespace buf e cur) = 44 →
      rd buf (skip_whitespace buf e (skip_whitespace buf e cur + 1)) = 125 →
      SeparatorViolation buf e (.object false cur st)
  | object_double_comma {cur : Nat} {st : scan_status_t} :
      skip_whitespace buf e cur < e → rd buf (skip_whitespace buf e cur) = 44 →
      rd buf (skip_whitespace buf e (skip_whitespace buf e cur + 1)) = 44 →
      SeparatorViolation buf e (.object false cur st)
  | object_missing_comma {cur : Nat} {st : scan_status_t} :
      skip_whitespace buf e cur < e → rd buf (skip_whitespace buf e cur) ≠ 44 →
      rd buf (skip_whitespace buf e cur) ≠ 125 →
      SeparatorViolation buf e (.object false cur st)
  | key_not_string {fr : frame} {k : Nat} :
      KeyAt buf e fr k → rd buf k ≠ 34 → SeparatorViolation buf e fr
  | key_unterminated {fr : frame} {k : Nat} :
      KeyAt buf e fr k → rd buf k = 34 → (scan_string buf e k 0).1 = false →
      SeparatorViolation buf e fr
  | key_without_colon {fr : frame} {k : Nat} :
      KeyAt buf e fr k → rd buf k = 34 → (scan_string buf e k 0).1 = true →
      rd buf (skip_whitespace buf e (scan_string buf e k 0).2.1) ≠ 58 →
      SeparatorViolation buf e fr

end CJson

namespace CJson

/-! ## The layout of an Object node -/

/-- The entry slot of an entry record. -/
def json_entry_t.index : json_entry_t → Nat
  | .mk i _ _ _ _ => i

/-- The node that the `value` pointer of an entry record points to. -/
def json_entry_t.value : json_entry_t → json_value_t
  | .mk _ _ _ _ v => v

/-- The value nodes of the entries `ms` are taken from the node cursor one by one,
the cursor being at `n` before the first entry and at `n'` after the last: each
value sits in the slot the cursor is at, the nodes below it take the slots that
follow, and the next value comes after those. -/
def values_follow : Nat → List json_entry_t → Nat → Prop
  | n, [], n' => n' = n
  | n, m :: ms, n' =>
    m.value.slot = n ∧
      (∀ d ∈ m.value.descendants, n < d.slot ∧ d.slot < n + 1 + m.value.descendants.length) ∧
      values_follow (n + 1 + m.value.descendants.length) ms n'

/-- The entry records of the node, when it is an Object, sit in entry slots from
`lo` on. -/
def entries_from (lo : Nat) : json_value_t → Prop
  | .object _ _ _ members => ∀ m ∈ members, lo ≤ m.index
  | _ => True

/-- For an Object node: it has `count` entry records; when `count > 0` its `entries`
pointer is set, record `i` sits in entry slot `entries + i`, and the records of the
Objects below the node sit after that run; and for two records in a row, the value
node of the second sits right after the value node of the first and all the nodes
below it, which lie in between, so that the two value nodes are adjacent exactly
when the first has no node below it. -/
def object_layout : json_value_t → Prop
  | .object _ entries count members =>
    members.length = count ∧
      (0 < count → ∃ base, entries = some base ∧
        members.map json_entry_t.index = List.range' base count ∧
        ∀ d ∈ members_descendants members, entries_from (base + count) d) ∧
      ∀ i mi mj, members[i]? = some mi → members[i + 1]? = some mj →
        mj.value.slot = mi.value.slot + 1 + mi.value.descendants.length ∧
          (∀ d ∈ mi.value.descendants, mi.value.slot < d.slot ∧ d.slot < mj.value.slot) ∧
          (mj.value.slot = mi.value.slot + 1 ↔ mi.value.descendants = [])
  | _ => True

end CJson

namespace CJson

/-! ## The tree of a JSON text

The tree that pass 2 is expected to build for a JSON value, and the conditions under
which the byte-wise lookahead of `fill_node` sees the structure of its text. -/

/-- A string body or key without `"` and `\`, without NUL, and without the bytes
`,` `:` `[` `]` `{` `}` that the lookahead of `fill_node` takes for structure. -/
def Benign (s : List Nat) : Prop :=
  ∀ b ∈ s, b ≠ 0 ∧ b ≠ 34 ∧ b ≠ 92 ∧ b ≠ 44 ∧ b ≠ 58 ∧ b ≠ 91 ∧ b ≠ 93 ∧ b ≠ 123 ∧ b ≠ 125

mutual
/-- All strings and keys of the value are `Benign`. -/
def Value.benign : Value → Prop
  | .null => True
  | .bool _ => True
  | .number _ => True
  | .string s => Benign s
  | .array xs => items_benign xs
  | .object ms => members_benign ms
/-- All strings and keys of the items are `Benign`. -/
def items_benign : List Value → Prop
  | [] => True
  | x :: xs => x.benign ∧ items_benign xs
/-- All strings and keys of the members are `Benign`. -/
def members_benign : List (List Nat × Value) → Prop
  | [] => True
  | (k, v) :: ms => Benign k ∧ v.benign ∧ members_benign ms
end

mutual
/-- The node that stands for the value in node slot `node` when the cursors of the
arena are at `a`, together with the cursors after the value: scalars take nothing
from the node region, an Array reserves one slot per item before its items are laid
out, an Object reserves one entry record per member, and each member takes its key
bytes and then one node slot for its value. -/
def Value.layout : Value → Nat → json_arena_t → json_value_t × json_arena_t
  | .null, node, a => (.null node, a)
  | .bool b, node, a => (.bool node (if b then 1 else 0), a)
  | .number ds, node, a => (.number node ds, a)
  | .string s, node, a =>
    (.string node a.strings s.length (s ++ [0]),
      { a with strings := a.strings + (s.length + 1) })
  | .array xs, node, a =>
    ((.array node (reserved xs.length a.nodes) xs.length
        (items_layout xs a.nodes 0 { a with nodes := a.nodes + xs.length }).1),
      (items_layout xs a.nodes 0 { a with nodes := a.nodes + xs.length }).2)
  | .object ms, node, a =>
    ((.object node (reserved ms.length a.entries) ms.length
        (members_layout ms a.entries 0 { a with entries := a.entries + ms.length }).1),
      (members_layout ms a.entries 0 { a with entries := a.entries + ms.length }).2)
/-- The nodes of the items from index `i` on, in the slots `items + i`, ... -/
def items_layout : List Value → Nat → Nat → json_arena_t → List json_value_t × json_arena_t
  | [], _, _, a => ([], a)
  | x :: xs, items, i, a =>
    ((x.layout (items + i) a).1 :: (items_layout xs items (i + 1) (x.layout (items + i) a).2).1,
      (items_layout xs items (i + 1) (x.layout (items + i) a).2).2)
/-- The entry records of the members from index `i` on, in the entry slots
`entries + i`, ... -/
def members_layout : List (List Nat × Value) → Nat → Nat → json_arena_t →
    List json_entry_t × json_arena_t
  | [], _, _, a => ([], a)
  | (k, v) :: ms, entries, i, a =>
    (.mk (entries + i) a.strings k.length (k ++ [0])
        (v.layout a.nodes
          { a with strings := a.strings + (k.length + 1), nodes := a.nodes + 1 }).1 ::
      (members_layout ms entries (i + 1)
        (v.layout a.nodes
          { a with strings := a.strings + (k.length + 1), nodes := a.nodes + 1 }).2).1,
      (members_layout ms entries (i + 1)
        (v.layout a.nodes
          { a with strings := a.strings + (k.length + 1), nodes := a.nodes + 1 }).2).2)
end

/-- The depth counter `d` of the lookahead loops after the byte `c` (lines 421-422
and 467-468). -/
def depth_step (d : Int) (c : Nat) : Int :=
  if c = 125 ∨ c = 93 then (if c = 123 ∨ c = 91 then d + 1 else d) - 1
  else if c = 123 ∨ c = 91 then d + 1 else d

/-- The depth counter after the bytes of `t`. -/
def depth_after : Int → List Nat → Int
  | d, [] => d
  | d, c :: t => depth_after (depth_step d c) t

/-- Both lookahead loops run through the text `t` when they come to it with depth
`d`: no byte of it is NUL, and `,`, `]` and `}` only stand at a depth above 0. -/
def Passable : Int → List Nat → Prop
  | _, [] => True
  | d, c :: t =>
    c ≠ 0 ∧ (0 < d ∨ (c ≠ 44 ∧ c ≠ 93 ∧ c ≠ 125)) ∧ Passable (depth_step d c) t

/-- Text without NUL and without `,` `[` `]` `{` `}`. -/
def Flat (t : List Nat) : Prop :=
  ∀ b ∈ t, b ≠ 0 ∧ b ≠ 44 ∧ b ≠ 91 ∧ b ≠ 93 ∧ b ≠ 123 ∧ b ≠ 125

/-- Both lookahead loops run through the text `t` when they come to it with depth
`d`, and leave it with the same depth. -/
def Through (d : Int) (t : List Nat) : Prop := Passable d t ∧ depth_after d t = d

/-- The item-counting loop (lines 465-470) from `saved`, run to its end. -/
def items_scan (buf : List Nat) (saved : Nat) (d : Int) (count : Nat) : Nat :=
  count_items (buf.length - saved) buf saved d count

/-- The value-skipping loop (lines 420-424) from `saved`, run to its end. -/
def value_scan (buf : List Nat) (saved : Nat) (d : Int) : Nat :=
  skip_member_value (buf.length - saved) buf saved d

/-- The colon-finding loop (line 417) from `saved`, run to its end. -/
def colon_scan (buf : List Nat) (saved : Nat) : Nat :=
  find_colon (buf.length - saved) buf saved

/-- A byte that ends a number for `pass1_analyze` and for `strtod` alike: none of
the digits, `.`, `-`, `+`, `e`, `E`, `x`, `X`. -/
def number_stop (c : Nat) : Bool := !(is_number_char c || c == 120 || c == 88)

/-- Bytes appended after a JSON text that cannot continue a number at its end: no
bytes at all, or bytes whose first one is a `number_stop`. -/
def StopHead : List Nat → Prop
  | [] => True
  | c :: _ => number_stop c = true

end CJson

namespace CJson

/-! ## Escapes of a string body, and memories that agree below an offset -/

/-- The bytes of a string body, read from left to right, hold an escape `\u`: a
backslash that is not itself the second byte of an escape, followed by `u`.  `esc`
says that the byte before the first one is such a backslash. -/
def has_unicode_escape : Bool → List Nat → Bool
  | _, [] => false
  | true, c :: t => c == 117 || has_unicode_escape false t
  | false, c :: t => has_unicode_escape (c == 92) t

/-- The memories `buf` and `buf2` hold the same byte at every offset below `e`. -/
def AgreeBelow (buf buf2 : List Nat) (e : Nat) : Prop := ∀ i, i < e → rd buf i = rd buf2 i

end CJson

namespace CJson

/-! ## The block that `parse_json` allocates (main.c 523-538)

The three regions of the arena are cut from one `calloc` block.  `sn` and `se` stand
for `sizeof(struct json_value_t)` and `sizeof(struct json_entry_t)`. -/

/-- Lines 523-525: `total_size`, the number of bytes of the block. -/
def total_size (sn se : Nat) (stats : scan_status_t) : Nat :=
  sn * stats.nodes + se * stats.entries + stats.string_bytes

/-- Byte offset in the block of node slot `i` (line 536: `arena.nodes = memory`). -/
def node_offset (sn i : Nat) : Nat := sn * i

/-- Byte offset in the block of entry slot `i` (line 537: `arena.entries` starts
after `stats.nodes` node slots). -/
def entry_offset (sn se : Nat) (stats : scan_status_t) (i : Nat) : Nat :=
  sn * stats.nodes + se * i

/-- Byte offset in the block of byte `i` of the string region (line 538:
`arena.strings` starts after `stats.entries` entry slots). -/
def string_offset (sn se : Nat) (stats : scan_status_t) (i : Nat) : Nat :=
  sn * stats.nodes + se * stats.entries + i

/-- The pointer to the byte at offset `off` of a block that `calloc` placed at address
`base`. -/
def block_address (base off : Nat) : Nat := base + off

/-- Little-endian value of a run of bytes. -/
def le_value : List Nat → Nat
  | [] => 0
  | b :: bs => b + 256 * le_value bs

/-- What 24 bytes read as when they are taken for a `struct json_value_t`, on a
little-endian target with a 4-byte `enum` and 8-byte, 8-aligned pointers and `size_t`
(so that `sizeof(struct json_value_t)` is 24): `type` from bytes 0-3, the pointer of
the union (`val`, `items`, `entries`) from bytes 8-15, and `len` or `count` from bytes
16-23. -/
def read_node (bs : List Nat) : Nat × Nat × Nat :=
  (le_value (bs.take 4), le_value ((bs.drop 8).take 8), le_value ((bs.drop 16).take 8))

/-- The 24 bytes of a string body, without `"` and `\`, that read as a node of type
`tag` with a null pointer and `count` 2: `tag 00 00 00`, `AAAA`, eight NUL, `02`,
seven NUL. -/
def node_image (tag : Nat) : List Nat :=
  [tag, 0, 0, 0, 65, 65, 65, 65] ++ List.replicate 8 0 ++ [2] ++ List.replicate 7 0

/-- The 35 bytes `[1/*,*/,"` `node_image tag` `"]`: an array of the Number 1, a comment
that holds a comma, and a String. -/
def overrun_array_input (tag : Nat) : List Nat :=
  bytes "[1/*,*/,\"" ++ node_image tag ++ bytes "\"]"

end CJson

namespace CJson

/-! ## Basic facts about the scanners -/

theorem line_comment_end_ge (buf : List Nat) (e : Nat) :
    ∀ fuel cur, cur ≤ line_comment_end fuel buf e cur := by
  intro fuel
  induction fuel with
  | zero => intro cur; simp [line_comment_end]
  | succ n ih =>
    intro cur
    simp only [line_comment_end]
    split_ifs
    · exact Nat.le_trans (Nat.le_succ cur) (ih (cur + 1))
    · exact Nat.le_refl cur

theorem block_comment_scan_ge (buf : List Nat) (e : Nat) :
    ∀ fuel cur, cur ≤ block_comment_scan fuel buf e cur := by
  intro fuel
  induction fuel with
  | zero => intro cur; simp [block_comment_scan]
  | succ n ih =>
    intro cur
    simp only [block_comment_scan]
    split_ifs
    · exact Nat.le_trans (Nat.le_succ cur) (ih (cur + 1))
    · exact Nat.le_refl cur

theorem skip_whitespace_loop_ge (buf : List Nat) (e : Nat) :
    ∀ fuel cur, cur ≤ skip_whitespace_loop fuel buf e cur := by
  intro fuel
  induction fuel with
  | zero => intro cur; simp [skip_whitespace_loop]
  | succ n ih =>
    intro cur
    simp only [skip_whitespace_loop]
    split_ifs
    · exact Nat.le_trans (Nat.le_succ cur) (ih (cur + 1))
    · have h1 := line_comment_end_ge buf e (e - (cur + 2)) (cur + 2)
      have h2 := ih (line_comment_end (e - (cur + 2)) buf e (cur + 2))
      omega
    · have h1 := block_comment_scan_ge buf e (e - (cur + 2)) (cur + 2)
      have h2 := ih (block_comment_scan (e - (cur + 2)) buf e (cur + 2) + 2)
      omega
    · have h1 := block_comment_scan_ge buf e (e - (cur + 2)) (cur + 2)
      have h2 := ih (block_comment_scan (e - (cur + 2)) buf e (cur + 2))
      omega
    all_goals exact Nat.le_refl cur

/-- The cursor never moves backwards in `skip_whitespace`. -/
theorem skip_whitespace_ge (buf : List Nat) (e cur : Nat) : cur ≤ skip_whitespace buf e cur :=
  skip_whitespace_loop_ge buf e _ cur

theorem scan_string_loop_ge (buf : List Nat) (e : Nat) :
    ∀ fuel cur n, cur ≤ (scan_string_loop fuel buf e cur n).2.1 := by
  intro fuel
  induction fuel with
  | zero => intro cur n; simp [scan_string_loop]
  | succ k ih =>
    intro cur n
    simp only [scan_string_loop]
    split_ifs
    all_goals first
      | simp
      | (have h := ih (cur + 1 + 4 + 1) (n + 1); omega)
      | (have h := ih (cur + 1 + 1) (n + 1); omega)
      | (have h := ih (cur + 1) (n + 1); omega)

/-- The cursor after `scan_string` is past the opening quote. -/
theorem scan_string_gt (buf : List Nat) (e cur out : Nat) :
    cur < (scan_string buf e cur out).2.1 := by
  have h := scan_string_loop_ge buf e (e - cur) (cur + 1) 0
  unfold scan_string
  split <;> rename_i heq <;> rw [heq] at h <;> simp at h ⊢ <;> omega

theorem number_run_ge (buf : List Nat) (e : Nat) :
    ∀ fuel cur, cur ≤ number_run fuel buf e cur := by
  intro fuel
  induction fuel with
  | zero => intro cur; simp [number_run]
  | succ n ih =>
    intro cur
    simp only [number_run]
    split_ifs
    · exact Nat.le_trans (Nat.le_succ cur) (ih (cur + 1))
    · exact Nat.le_refl cur

theorem scan_string_gt_of_eq {buf : List Nat} {e cur out : Nat} {b : Bool} {c sb : Nat}
    (h : scan_string buf e cur out = (b, c, sb)) : cur < c := by
  have hg := scan_string_gt buf e cur out
  rw [h] at hg
  exact hg

/-- The number branch consumes the byte that selected it. -/
theorem number_run_gt (buf : List Nat) (e cur : Nat) (h : cur < e)
    (hc : rd buf cur = 45 ∨ (48 ≤ rd buf cur ∧ rd buf cur ≤ 57)) :
    cur < number_run (e - cur) buf e cur := by
  obtain ⟨k, hk⟩ : ∃ k, e - cur = k + 1 := ⟨e - cur - 1, by omega⟩
  rw [hk]
  simp only [number_run]
  have hn : is_number_char (rd buf cur) = true := by
    simp only [is_number_char, isdigit, Bool.or_eq_true, Bool.and_eq_true, decide_eq_true_eq,
      beq_iff_eq]
    omega
  rw [if_pos ⟨h, hn⟩]
  exact Nat.lt_of_lt_of_le (Nat.lt_succ_self cur) (number_run_ge buf e k (cur + 1))

end CJson

namespace CJson

/-! ## The loop counters are large enough

Each bounded loop gives the same result for every counter that is at least the
distance to its bound, so the value `0` of the counter is reached only where the loop
condition is false. -/

theorem line_comment_end_fuel (buf : List Nat) (e : Nat) : ∀ (f g cur : Nat),
    e - cur ≤ f → e - cur ≤ g → line_comment_end f buf e cur = line_comment_end g buf e cur := by
  intro f
  induction f with
  | zero =>
    intro g cur hf _
    cases g with
    | zero => rfl
    | succ g => simp [line_comment_end, show ¬ cur < e by omega]
  | succ f ih =>
    intro g cur hf hg
    cases g with
    | zero => simp [line_comment_end, show ¬ cur < e by omega]
    | succ g =>
      simp only [line_comment_end]
      split_ifs
      · exact ih g (cur + 1) (by omega) (by omega)
      · rfl

theorem block_comment_scan_fuel (buf : List Nat) (e : Nat) : ∀ (f g cur : Nat),
    e - cur ≤ f → e - cur ≤ g →
      block_comment_scan f buf e cur = block_comment_scan g buf e cur := by
  intro f
  induction f with
  | zero =>
    intro g cur hf _
    cases g with
    | zero => rfl
    | succ g => simp [block_comment_scan, show ¬ cur + 1 < e by omega]
  | succ f ih =>
    intro g cur hf hg
    cases g with
    | zero => simp [block_comment_scan, show ¬ cur + 1 < e by omega]
    | succ g =>
      simp only [block_comment_scan]
      split_ifs
      · exact ih g (cur + 1) (by omega) (by omega)
      · rfl

theorem scan_string_loop_fuel (buf : List Nat) (e : Nat) : ∀ (f g cur n : Nat),
    e - cur ≤ f → e - cur ≤ g →
      scan_string_loop f buf e cur n = scan_string_loop g buf e cur n := by
  intro f
  induction f with
  | zero =>
    intro g cur n hf _
    cases g with
    | zero => rfl
    | succ g => simp [scan_string_loop, show ¬ cur < e by omega]
  | succ f ih =>
    intro g cur n hf hg
    cases g with
    | zero => simp [scan_string_loop, show ¬ cur < e by omega]
    | succ g =>
      simp only [scan_string_loop]
      split_ifs
      any_goals rfl
      all_goals exact ih g _ _ (by omega) (by omega)

theorem number_run_fuel (buf : List Nat) (e : Nat) : ∀ (f g cur : Nat),
    e - cur ≤ f → e - cur ≤ g → number_run f buf e cur = number_run g buf e cur := by
  intro f
  induction f with
  | zero =>
    intro g cur hf _
    cases g with
    | zero => rfl
    | succ g => simp [number_run, show ¬ cur < e by omega]
  | succ f ih =>
    intro g cur hf hg
    cases g with
    | zero => simp [number_run, show ¬ cur < e by omega]
    | succ g =>
      simp only [number_run]
      split_ifs
      · exact ih g (cur + 1) (by omega) (by omega)
      · rfl

theorem rd_of_length_le {buf : List Nat} {i : Nat} (h : buf.length ≤ i) : rd buf i = 0 := by
  simp [rd, List.getD_eq_getElem?_getD, List.getElem?_eq_none h]

theorem span_end_fuel (p : Nat → Bool) (hp : p 0 = false) (buf : List Nat) : ∀ (f g cur : Nat),
    buf.length - cur ≤ f → buf.length - cur ≤ g → span_end p f buf cur = span_end p g buf cur := by
  intro f
  induction f with
  | zero =>
    intro g cur hf _
    cases g with
    | zero => rfl
    | succ g => simp [span_end, rd_of_length_le (show buf.length ≤ cur by omega), hp]
  | succ f ih =>
    intro g cur hf hg
    cases g with
    | zero => simp [span_end, rd_of_length_le (show buf.length ≤ cur by omega), hp]
    | succ g =>
      simp only [span_end]
      split_ifs
      · exact ih g (cur + 1) (by omega) (by omega)
      · rfl

theorem find_colon_fuel (buf : List Nat) : ∀ (f g saved : Nat),
    buf.length - saved ≤ f → buf.length - saved ≤ g →
      find_colon f buf saved = find_colon g buf saved := by
  intro f
  induction f with
  | zero =>
    intro g saved hf _
    cases g with
    | zero => rfl
    | succ g => simp [find_colon, rd_of_length_le (show buf.length ≤ saved by omega)]
  | succ f ih =>
    intro g saved hf hg
    cases g with
    | zero => simp [find_colon, rd_of_length_le (show buf.length ≤ saved by omega)]
    | succ g =>
      simp only [find_colon]
      split_ifs
      · exact ih g (saved + 1) (by omega) (by omega)
      · rfl

theorem skip_member_value_fuel (buf : List Nat) : ∀ (f g saved : Nat) (d : Int),
    buf.length - saved ≤ f → buf.length - saved ≤ g →
      skip_member_value f buf saved d = skip_member_value g buf saved d := by
  intro f
  induction f with
  | zero =>
    intro g saved d hf _
    cases g with
    | zero => rfl
    | succ g => simp [skip_member_value, rd_of_length_le (show buf.length ≤ saved by omega)]
  | succ f ih =>
    intro g saved d hf hg
    cases g with
    | zero => simp [skip_member_value, rd_of_length_le (show buf.length ≤ saved by omega)]
    | succ g =>
      simp only [skip_member_value]
      split_ifs
      any_goals rfl
      all_goals exact ih g _ _ (by omega) (by omega)

theorem count_items_fuel (buf : List Nat) : ∀ (f g saved : Nat) (d : Int) (count : Nat),
    buf.length - saved ≤ f → buf.length - saved ≤ g →
      count_items f buf saved d count = count_items g buf saved d count := by
  intro f
  induction f with
  | zero =>
    intro g saved d count hf _
    cases g with
    | zero => rfl
    | succ g => simp [count_items, rd_of_length_le (show buf.length ≤ saved by omega)]
  | succ f ih =>
    intro g saved d count hf hg
    cases g with
    | zero => simp [count_items, rd_of_length_le (show buf.length ≤ saved by omega)]
    | succ g =>
      simp only [count_items]
      split_ifs
      any_goals rfl
      all_goals exact ih g _ _ _ (by omega) (by omega)

end CJson

namespace CJson

/-! ## Progress of one step of `pass1_analyze` -/

theorem value_head_ret_gt {buf : List Nat} {e cur0 : Nat} {st0 : scan_status_t}
    {r : scan_result} (h : value_head buf e cur0 st0 = .ret r) (hok : r.ok = true) :
    cur0 < r.cursor := by
  have hs := skip_whitespace_ge buf e cur0
  simp only [value_head] at h
  split_ifs at h with h1 h2 h3 h4 h5 h6 h7 h8
  · cases h; simp at hok
  · have hg := scan_string_gt buf e (skip_whitespace buf e cur0) (st0.string_bytes)
    cases h
    exact Nat.lt_of_le_of_lt hs hg
  · cases h
    have := number_run_gt buf e (skip_whitespace buf e cur0) (by omega) h5
    simp only
    omega
  · cases h; simp only; omega
  · cases h; simp only; omega
  · cases h; simp only; omega
  · cases h; simp at hok

theorem value_head_object {buf : List Nat} {e cur0 : Nat} {st0 : scan_status_t}
    {c : Nat} {s : scan_status_t} (h : value_head buf e cur0 st0 = .object c s) :
    cur0 < c ∧ c ≤ e ∧ rd buf (c - 1) = 123 ∧ c = skip_whitespace buf e cur0 + 1 ∧
      s = { st0 with nodes := st0.nodes + 1 } := by
  have hs := skip_whitespace_ge buf e cur0
  simp only [value_head] at h
  split_ifs at h with h1 h2 h3 h4 h5 h6 h7 h8
  cases h
  refine ⟨by omega, by omega, by simpa using h2, rfl, rfl⟩

theorem value_head_array {buf : List Nat} {e cur0 : Nat} {st0 : scan_status_t}
    {c : Nat} {s : scan_status_t} (h : value_head buf e cur0 st0 = .array c s) :
    cur0 < c ∧ c ≤ e ∧ rd buf (c - 1) = 91 ∧ c = skip_whitespace buf e cur0 + 1 ∧
      s = { st0 with nodes := st0.nodes + 1 } := by
  have hs := skip_whitespace_ge buf e cur0
  simp only [value_head] at h
  split_ifs at h with h1 h2 h3 h4 h5 h6 h7 h8
  cases h
  refine ⟨by omega, by omega, by simpa using h3, rfl, rfl⟩

theorem object_step_ret_gt {buf : List Nat} {e : Nat} {first : Bool} {cur0 : Nat}
    {st : scan_status_t} {r : scan_result} (h : object_step buf e first cur0 st = .ret r)
    (hok : r.ok = true) : cur0 < r.cursor := by
  have hs := skip_whitespace_ge buf e cur0
  cases first <;> simp only [object_step, Bool.false_eq_true, ↓reduceIte] at h
  all_goals
    split_ifs at h with h1 h2 h3 h4
    · cases h; simp at hok
    · cases h; simp only; omega
    · cases h; simp at hok
    all_goals first
      | (cases h; simp at hok)
      | (split at h
         · cases h; simp at hok
         · split_ifs at h
           cases h; simp at hok)

theorem object_step_value {buf : List Nat} {e : Nat} {first : Bool} {cur0 : Nat}
    {st : scan_status_t} {c : Nat} {s : scan_status_t}
    (h : object_step buf e first cur0 st = .value c s) : cur0 < c ∧ cur0 < e := by
  have hs := skip_whitespace_ge buf e cur0
  have h6 := skip_whitespace_ge buf e (skip_whitespace buf e cur0 + 1)
  cases first <;> simp only [object_step, Bool.false_eq_true, ↓reduceIte] at h
  all_goals
    split_ifs at h with h1 h2 h3 h4
    split at h
    · cases h
    · rename_i cur2 sb heq
      split_ifs at h
      cases h
      have hg := scan_string_gt_of_eq heq
      have h5 := skip_whitespace_ge buf e cur2
      constructor <;> omega

theorem array_step_ret_gt {buf : List Nat} {e : Nat} {first : Bool} {cur0 : Nat}
    {st : scan_status_t} {r : scan_result} (h : array_step buf e first cur0 st = .ret r)
    (hok : r.ok = true) : cur0 < r.cursor := by
  have hs := skip_whitespace_ge buf e cur0
  simp only [array_step] at h
  split_ifs at h with h1 h2 h3
  · cases h; simp at hok
  · cases h; simp only; omega
  · cases h; simp at hok

theorem array_step_value {buf : List Nat} {e : Nat} {first : Bool} {cur0 : Nat}
    {st : scan_status_t} {c : Nat} {s : scan_status_t}
    (h : array_step buf e first cur0 st = .value c s) : cur0 ≤ c ∧ cur0 < e ∧ s = st := by
  have hs := skip_whitespace_ge buf e cur0
  simp only [array_step] at h
  split_ifs at h <;> cases h <;> exact ⟨by omega, by omega, rfl⟩

/-! ## Termination of `pass1_analyze` -/

theorem pass1_total_aux (buf : List Nat) (e : Nat) : ∀ fuel,
    (∀ cur st, 2 * (e - cur) + 1 ≤ fuel →
      ∃ r, pass1 fuel buf e cur st = some r ∧ (r.ok = true → cur < r.cursor)) ∧
    (∀ first cur st, 2 * (e - cur) + 2 ≤ fuel →
      ∃ r, pass1_object fuel buf e first cur st = some r ∧ (r.ok = true → cur < r.cursor)) ∧
    (∀ first cur st, 2 * (e - cur) + 2 ≤ fuel →
      ∃ r, pass1_array fuel buf e first cur st = some r ∧ (r.ok = true → cur < r.cursor)) := by
  intro fuel
  induction fuel with
  | zero =>
    refine ⟨?_, ?_, ?_⟩ <;> intros <;> omega
  | succ n ih =>
    obtain ⟨ihv, iho, iha⟩ := ih
    refine ⟨?_, ?_, ?_⟩
    · intro cur st hf
      simp only [pass1]
      split
      · rename_i r heq
        exact ⟨r, rfl, value_head_ret_gt heq⟩
      · rename_i c s heq
        obtain ⟨h1, h2, -⟩ := value_head_object heq
        obtain ⟨r, hr, hp⟩ := iho true c s (by omega)
        exact ⟨r, hr, fun hk => by have := hp hk; omega⟩
      · rename_i c s heq
        obtain ⟨h1, h2, -⟩ := value_head_array heq
        obtain ⟨r, hr, hp⟩ := iha true c s (by omega)
        exact ⟨r, hr, fun hk => by have := hp hk; omega⟩
    · intro first cur st hf
      simp only [pass1_object]
      split
      · rename_i r heq
        exact ⟨r, rfl, object_step_ret_gt heq⟩
      · rename_i c s heq
        obtain ⟨h1, h2⟩ := object_step_value heq
        obtain ⟨r1, hr1, hp1⟩ := ihv c s (by omega)
        rw [hr1]
        simp only
        by_cases hk : r1.ok = true
        · rw [if_pos hk]
          have hq := hp1 hk
          obtain ⟨r, hr, hp⟩ := iho false r1.cursor r1.stats (by omega)
          exact ⟨r, hr, fun hk2 => by have := hp hk2; omega⟩
        · rw [if_neg hk]
          exact ⟨r1, rfl, fun hk2 => absurd hk2 hk⟩
    · intro first cur st hf
      simp only [pass1_array]
      split
      · rename_i r heq
        exact ⟨r, rfl, array_step_ret_gt heq⟩
      · rename_i c s heq
        obtain ⟨h1, h2, -⟩ := array_step_value heq
        obtain ⟨r1, hr1, hp1⟩ := ihv c s (by omega)
        rw [hr1]
        simp only
        by_cases hk : r1.ok = true
        · rw [if_pos hk]
          have hq := hp1 hk
          obtain ⟨r, hr, hp⟩ := iha false r1.cursor r1.stats (by omega)
          exact ⟨r, hr, fun hk2 => by have := hp hk2; omega⟩
        · rw [if_neg hk]
          exact ⟨r1, rfl, fun hk2 => absurd hk2 hk⟩

/-- `pass1_analyze` returns on every input, and a successful call has moved the
cursor forward. -/
theorem pass1_total (buf : List Nat) (e cur : Nat) (st : scan_status_t) :
    ∃ r, pass1_analyze buf e cur st = some r ∧ (r.ok = true → cur < r.cursor) :=
  (pass1_total_aux buf e _).1 cur st (Nat.le_refl _)

/-! ## More fuel does not change a result -/

theorem pass1_fuel_succ (buf : List Nat) (e : Nat) : ∀ fuel,
    (∀ cur st r, pass1 fuel buf e cur st = some r → pass1 (fuel + 1) buf e cur st = some r) ∧
    (∀ first cur st r, pass1_object fuel buf e first cur st = some r →
      pass1_object (fuel + 1) buf e first cur st = some r) ∧
    (∀ first cur st r, pass1_array fuel buf e first cur st = some r →
      pass1_array (fuel + 1) buf e first cur st = some r) := by
  intro fuel
  induction fuel with
  | zero => simp [pass1, pass1_object, pass1_array]
  | succ n ih =>
    obtain ⟨ihv, iho, iha⟩ := ih
    refine ⟨?_, ?_, ?_⟩
    · intro cur st r h
      rw [pass1] at h ⊢
      split at h
      · exact h
      · exact iho _ _ _ _ h
      · exact iha _ _ _ _ h
    · intro first cur st r h
      rw [pass1_object] at h ⊢
      split at h
      · exact h
      · split at h
        · cases h
        · rename_i r1 hr1
          simp only [ihv _ _ _ hr1]
          split_ifs at h ⊢
          · exact iho _ _ _ _ h
          · exact h
    · intro first cur st r h
      rw [pass1_array] at h ⊢
      split at h
      · exact h
      · split at h
        · cases h
        · rename_i r1 hr1
          simp only [ihv _ _ _ hr1]
          split_ifs at h ⊢
          · exact iha _ _ _ _ h
          · exact h

theorem pass1_fuel_mono {buf : List Nat} {e : Nat} {f f' : Nat} (hle : f ≤ f') :
    (∀ cur st r, pass1 f buf e cur st = some r → pass1 f' buf e cur st = some r) ∧
    (∀ first cur st r, pass1_object f buf e first cur st = some r →
      pass1_object f' buf e first cur st = some r) ∧
    (∀ first cur st r, pass1_array f buf e first cur st = some r →
      pass1_array f' buf e first cur st = some r) := by
  induction hle with
  | refl => exact ⟨fun _ _ _ h => h, fun _ _ _ _ h => h, fun _ _ _ _ h => h⟩
  | step _ ih =>
    obtain ⟨h1, h2, h3⟩ := pass1_fuel_succ buf e _
    exact ⟨fun c s r h => h1 c s r (ih.1 c s r h), fun b c s r h => h2 b c s r (ih.2.1 b c s r h),
      fun b c s r h => h3 b c s r (ih.2.2 b c s r h)⟩

end CJson

namespace CJson

/-! ## `pass1_analyze` as a relation -/

theorem returns_unique {buf : List Nat} {e cur : Nat} {st : scan_status_t} {r r' : scan_result}
    (h : Returns buf e cur st r) (h' : Returns buf e cur st r') : r = r' := by
  obtain ⟨f, hf⟩ := h
  obtain ⟨f', hf'⟩ := h'
  have h1 := (pass1_fuel_mono (Nat.le_max_left f f')).1 _ _ _ hf
  have h2 := (pass1_fuel_mono (Nat.le_max_right f f')).1 _ _ _ hf'
  rw [h1] at h2
  exact Option.some.inj h2

theorem object_returns_unique {buf : List Nat} {e : Nat} {first : Bool} {cur : Nat}
    {st : scan_status_t} {r r' : scan_result}
    (h : ObjectReturns buf e first cur st r) (h' : ObjectReturns buf e first cur st r') :
    r = r' := by
  obtain ⟨f, hf⟩ := h
  obtain ⟨f', hf'⟩ := h'
  have h1 := (pass1_fuel_mono (Nat.le_max_left f f')).2.1 _ _ _ _ hf
  have h2 := (pass1_fuel_mono (Nat.le_max_right f f')).2.1 _ _ _ _ hf'
  rw [h1] at h2
  exact Option.some.inj h2

theorem array_returns_unique {buf : List Nat} {e : Nat} {first : Bool} {cur : Nat}
    {st : scan_status_t} {r r' : scan_result}
    (h : ArrayReturns buf e first cur st r) (h' : ArrayReturns buf e first cur st r') :
    r = r' := by
  obtain ⟨f, hf⟩ := h
  obtain ⟨f', hf'⟩ := h'
  have h1 := (pass1_fuel_mono (Nat.le_max_left f f')).2.2 _ _ _ _ hf
  have h2 := (pass1_fuel_mono (Nat.le_max_right f f')).2.2 _ _ _ _ hf'
  rw [h1] at h2
  exact Option.some.inj h2

/-- The budget of `pass1_analyze` is enough: it returns `r` exactly when the
unbounded recursion does. -/
theorem pass1_analyze_eq_some_iff {buf : List Nat} {e cur : Nat} {st : scan_status_t}
    {r : scan_result} : pass1_analyze buf e cur st = some r ↔ Returns buf e cur st r := by
  constructor
  · intro h
    exact ⟨_, h⟩
  · intro h
    obtain ⟨r', hr', -⟩ := pass1_total buf e cur st
    have : r = r' := returns_unique h ⟨_, hr'⟩
    rw [this]
    exact hr'

theorem returns_of_ret {buf : List Nat} {e cur : Nat} {st : scan_status_t} {r : scan_result}
    (h : value_head buf e cur st = .ret r) : Returns buf e cur st r :=
  ⟨1, by simp [pass1, h]⟩

theorem returns_of_object {buf : List Nat} {e cur : Nat} {st : scan_status_t} {c : Nat}
    {s : scan_status_t} {r : scan_result} (h : value_head buf e cur st = .object c s)
    (hr : ObjectReturns buf e true c s r) : Returns buf e cur st r := by
  obtain ⟨f, hf⟩ := hr
  exact ⟨f + 1, by simp [pass1, h, hf]⟩

theorem returns_of_array {buf : List Nat} {e cur : Nat} {st : scan_status_t} {c : Nat}
    {s : scan_status_t} {r : scan_result} (h : value_head buf e cur st = .array c s)
    (hr : ArrayReturns buf e true c s r) : Returns buf e cur st r := by
  obtain ⟨f, hf⟩ := hr
  exact ⟨f + 1, by simp [pass1, h, hf]⟩

theorem object_returns_of_ret {buf : List Nat} {e : Nat} {first : Bool} {cur : Nat}
    {st : scan_status_t} {r : scan_result} (h : object_step buf e first cur st = .ret r) :
    ObjectReturns buf e first cur st r :=
  ⟨1, by simp [pass1_object, h]⟩

theorem object_returns_of_fail {buf : List Nat} {e : Nat} {first : Bool} {cur : Nat}
    {st : scan_status_t} {c : Nat} {s : scan_status_t} {r : scan_result}
    (h : object_step buf e first cur st = .value c s) (hv : Returns buf e c s r)
    (hok : r.ok = false) : ObjectReturns buf e first cur st r := by
  obtain ⟨f, hf⟩ := hv
  exact ⟨f + 1, by simp [pass1_object, h, hf, hok]⟩

theorem object_returns_of_next {buf : List Nat} {e : Nat} {first : Bool} {cur : Nat}
    {st : scan_status_t} {c : Nat} {s : scan_status_t} {r1 r : scan_result}
    (h : object_step buf e first cur st = .value c s) (hv : Returns buf e c s r1)
    (hok : r1.ok = true) (hn : ObjectReturns buf e false r1.cursor r1.stats r) :
    ObjectReturns buf e first cur st r := by
  obtain ⟨f, hf⟩ := hv
  obtain ⟨g, hg⟩ := hn
  have h1 := (pass1_fuel_mono (Nat.le_max_left f g)).1 _ _ _ hf
  have h2 := (pass1_fuel_mono (Nat.le_max_right f g)).2.1 _ _ _ _ hg
  exact ⟨max f g + 1, by simp [pass1_object, h, h1, hok, h2]⟩

theorem array_returns_of_ret {buf : List Nat} {e : Nat} {first : Bool} {cur : Nat}
    {st : scan_status_t} {r : scan_result} (h : array_step buf e first cur st = .ret r) :
    ArrayReturns buf e first cur st r :=
  ⟨1, by simp [pass1_array, h]⟩

theorem array_returns_of_fail {buf : List Nat} {e : Nat} {first : Bool} {cur : Nat}
    {st : scan_status_t} {c : Nat} {s : scan_status_t} {r : scan_result}
    (h : array_step buf e first cur st = .value c s) (hv : Returns buf e c s r)
    (hok : r.ok = false) : ArrayReturns buf e first cur st r := by
  obtain ⟨f, hf⟩ := hv
  exact ⟨f + 1, by simp [pass1_array, h, hf, hok]⟩

theorem array_returns_of_next {buf : List Nat} {e : Nat} {first : Bool} {cur : Nat}
    {st : scan_status_t} {c : Nat} {s : scan_status_t} {r1 r : scan_result}
    (h : array_step buf e first cur st = .value c s) (hv : Returns buf e c s r1)
    (hok : r1.ok = true) (hn : ArrayReturns buf e false r1.cursor r1.stats r) :
    ArrayReturns buf e first cur st r := by
  obtain ⟨f, hf⟩ := hv
  obtain ⟨g, hg⟩ := hn
  have h1 := (pass1_fuel_mono (Nat.le_max_left f g)).1 _ _ _ hf
  have h2 := (pass1_fuel_mono (Nat.le_max_right f g)).2.2 _ _ _ _ hg
  exact ⟨max f g + 1, by simp [pass1_array, h, h1, hok, h2]⟩

/-! ## The error fields are never written -/

theorem value_head_err {buf : List Nat} {e cur : Nat} {st : scan_status_t} :
    ∀ {v : value_step}, value_head buf e cur st = v →
      match v with
      | .ret r => r.stats.err_line = st.err_line ∧ r.stats.err_col = st.err_col ∧
          r.stats.err_msg = st.err_msg
      | .object _ s => s.err_line = st.err_line ∧ s.err_col = st.err_col ∧
          s.err_msg = st.err_msg
      | .array _ s => s.err_line = st.err_line ∧ s.err_col = st.err_col ∧
          s.err_msg = st.err_msg := by
  intro v h
  simp only [value_head] at h
  split_ifs at h <;> subst h <;> exact ⟨rfl, rfl, rfl⟩

theorem object_step_err {buf : List Nat} {e : Nat} {first : Bool} {cur : Nat}
    {st : scan_status_t} :
    ∀ {v : loop_step}, object_step buf e first cur st = v →
      match v with
      | .ret r => r.stats.err_line = st.err_line ∧ r.stats.err_col = st.err_col ∧
          r.stats.err_msg = st.err_msg
      | .value _ s => s.err_line = st.err_line ∧ s.err_col = st.err_col ∧
          s.err_msg = st.err_msg := by
  intro v h
  simp only [object_step] at h
  split_ifs at h
  all_goals first
    | (split at h
       · subst h; exact ⟨rfl, rfl, rfl⟩
       · split_ifs at h <;> subst h <;> exact ⟨rfl, rfl, rfl⟩)
    | (subst h; exact ⟨rfl, rfl, rfl⟩)

theorem array_step_err {buf : List Nat} {e : Nat} {first : Bool} {cur : Nat}
    {st : scan_status_t} :
    ∀ {v : loop_step}, array_step buf e first cur st = v →
      match v with
      | .ret r => r.stats.err_line = st.err_line ∧ r.stats.err_col = st.err_col ∧
          r.stats.err_msg = st.err_msg
      | .value _ s => s.err_line = st.err_line ∧ s.err_col = st.err_col ∧
          s.err_msg = st.err_msg := by
  intro v h
  simp only [array_step] at h
  split_ifs at h <;> subst h <;> exact ⟨rfl, rfl, rfl⟩

theorem pass1_err_fields_aux (buf : List Nat) (e : Nat) : ∀ fuel,
    (∀ cur st r, pass1 fuel buf e cur st = some r →
      r.stats.err_line = st.err_line ∧ r.stats.err_col = st.err_col ∧
        r.stats.err_msg = st.err_msg) ∧
    (∀ first cur st r, pass1_object fuel buf e first cur st = some r →
      r.stats.err_line = st.err_line ∧ r.stats.err_col = st.err_col ∧
        r.stats.err_msg = st.err_msg) ∧
    (∀ first cur st r, pass1_array fuel buf e first cur st = some r →
      r.stats.err_line = st.err_line ∧ r.stats.err_col = st.err_col ∧
        r.stats.err_msg = st.err_msg) := by
  intro fuel
  induction fuel with
  | zero => simp [pass1, pass1_object, pass1_array]
  | succ n ih =>
    obtain ⟨ihv, iho, iha⟩ := ih
    refine ⟨?_, ?_, ?_⟩
    · intro cur st r h
      rw [pass1] at h
      split at h
      · rename_i heq
        cases h
        exact value_head_err heq
      · rename_i heq
        have h1 := value_head_err heq
        have h2 := iho _ _ _ _ h
        simp only at h1
        exact ⟨h2.1.trans h1.1, h2.2.1.trans h1.2.1, h2.2.2.trans h1.2.2⟩
      · rename_i heq
        have h1 := value_head_err heq
        have h2 := iha _ _ _ _ h
        simp only at h1
        exact ⟨h2.1.trans h1.1, h2.2.1.trans h1.2.1, h2.2.2.trans h1.2.2⟩
    · intro first cur st r h
      rw [pass1_object] at h
      split at h
      · rename_i heq
        cases h
        exact object_step_err heq
      · rename_i heq
        have h1 := object_step_err heq
        simp only at h1
        split at h
        · cases h
        · rename_i r1 hr1
          have h2 := ihv _ _ _ hr1
          split_ifs at h
          · have h3 := iho _ _ _ _ h
            exact ⟨h3.1.trans (h2.1.trans h1.1), h3.2.1.trans (h2.2.1.trans h1.2.1),
              h3.2.2.trans (h2.2.2.trans h1.2.2)⟩
          · cases h
            exact ⟨h2.1.trans h1.1, h2.2.1.trans h1.2.1, h2.2.2.trans h1.2.2⟩
    · intro first cur st r h
      rw [pass1_array] at h
      split at h
      · rename_i heq
        cases h
        exact array_step_err heq
      · rename_i heq
        have h1 := array_step_err heq
        simp only at h1
        split at h
        · cases h
        · rename_i r1 hr1
          have h2 := ihv _ _ _ hr1
          split_ifs at h
          · have h3 := iha _ _ _ _ h
            exact ⟨h3.1.trans (h2.1.trans h1.1), h3.2.1.trans (h2.2.1.trans h1.2.1),
              h3.2.2.trans (h2.2.2.trans h1.2.2)⟩
          · cases h
            exact ⟨h2.1.trans h1.1, h2.2.1.trans h1.2.1, h2.2.2.trans h1.2.2⟩

/-! ## `parse_json` in terms of the two passes -/

/-- With a successful `calloc`, `parse_json` is pass 1 followed, on acceptance only,
by pass 2. -/
theorem parse_json_unfold (buf : List Nat) (len : Nat) (eb : Option String) (fuel : Nat) :
    ∃ r, pass1_analyze buf len 0 stats_zero = some r ∧
      parse_json fuel buf len eb true =
        if r.ok = false then some ⟨none, eb.map fun _ => "Syntax Error or Unexpected EOF"⟩
        else (pass2 fuel buf len r.stats).map fun t => ⟨some t.1, eb⟩ := by
  obtain ⟨r, hr, -⟩ := pass1_total buf len 0 stats_zero
  refine ⟨r, hr, ?_⟩
  simp only [parse_json, hr]
  by_cases h1 : r.ok = false
  · simp [h1]
  · simp only [h1, if_false, Bool.true_eq_false]
    cases hp : pass2 fuel buf len r.stats with
    | none => simp
    | some t => obtain ⟨v, c, a⟩ := t; simp

/-- A tree returned by `parse_json` is the one that pass 2 built. -/
theorem parse_json_root {buf : List Nat} {len : Nat} {eb : Option String} {fuel : Nat}
    {out : parse_result} {root : json_value_t}
    (h : parse_json fuel buf len eb true = some out) (hroot : out.root = some root) :
    ∃ st cur a, pass2 fuel buf len st = some (root, cur, a) := by
  obtain ⟨r, -, hkey⟩ := parse_json_unfold buf len eb fuel
  rw [hkey] at h
  split_ifs at h with hrej
  · cases h; simp at hroot
  · cases hp : pass2 fuel buf len r.stats with
    | none => rw [hp] at h; simp at h
    | some t =>
      obtain ⟨v, c, a⟩ := t
      rw [hp] at h
      simp only [Option.map_some', Option.some.injEq] at h
      rw [← h] at hroot
      simp only [Option.some.injEq] at hroot
      subst hroot
      exact ⟨r.stats, c, a, hp⟩

end CJson

namespace CJson

/-! ## Soundness of the equality tests -/

mutual
theorem value_same_iff : ∀ a b : json_value_t, a.same b = true ↔ a = b
  | .untouched s, b => by cases b <;> simp [json_value_t.same]
  | .null s, b => by cases b <;> simp [json_value_t.same]
  | .bool s x, b => by cases b <;> simp [json_value_t.same]
  | .number s x, b => by cases b <;> simp [json_value_t.same]
  | .string s v l c, b => by cases b <;> simp [json_value_t.same, and_assoc]
  | .array s i n xs, b => by
    cases b <;> simp [json_value_t.same, and_assoc, same_elems_iff xs]
  | .object s i n ms, b => by
    cases b <;> simp [json_value_t.same, and_assoc, same_members_iff ms]
theorem entry_same_iff : ∀ a b : json_entry_t, a.same b = true ↔ a = b
  | .mk i k l c v, .mk i' k' l' c' v' => by
    simp [json_entry_t.same, and_assoc, value_same_iff v]
theorem same_elems_iff : ∀ xs ys : List json_value_t, same_elems xs ys = true ↔ xs = ys
  | [], ys => by cases ys <;> simp [same_elems]
  | x :: xs, ys => by
    cases ys <;> simp [same_elems, value_same_iff x, same_elems_iff xs]
theorem same_members_iff : ∀ xs ys : List json_entry_t, same_members xs ys = true ↔ xs = ys
  | [], ys => by cases ys <;> simp [same_members]
  | x :: xs, ys => by
    cases ys <;> simp [same_members, entry_same_iff x, same_members_iff xs]
end

theorem eq_of_same_build {x y : Option (json_value_t × Nat × json_arena_t)}
    (h : same_build x y = true) : x = y := by
  match x, y with
  | some (v, c, a), some (v', c', a') =>
    simp only [same_build, Bool.and_eq_true, beq_iff_eq, value_same_iff] at h
    obtain ⟨⟨h1, h2⟩, h3⟩ := h
    rw [h1, h2, h3]
  | none, none => rfl
  | some _, none => simp [same_build] at h
  | none, some _ => simp [same_build] at h

theorem eq_of_same_parse {x y : Option parse_result} (h : same_parse x y = true) : x = y := by
  match x, y with
  | some ⟨some v, b⟩, some ⟨some v', b'⟩ =>
    simp only [same_parse, Bool.and_eq_true, beq_iff_eq, value_same_iff] at h
    rw [h.1, h.2]
  | some ⟨none, b⟩, some ⟨none, b'⟩ =>
    simp only [same_parse, beq_iff_eq] at h
    rw [h]
  | none, none => rfl
  | some ⟨some _, _⟩, some ⟨none, _⟩ => simp [same_parse] at h
  | some ⟨none, _⟩, some ⟨some _, _⟩ => simp [same_parse] at h
  | some _, none => simp [same_parse] at h
  | none, some _ => simp [same_parse] at h

end CJson

namespace CJson

/-! ## Slot bookkeeping of `fill_node` -/

theorem range_split {a b c : Nat} (h1 : a ≤ b) (h2 : b ≤ c) :
    List.range' a (b - a) ++ List.range' b (c - b) = List.range' a (c - a) := by
  have h := List.range'_append_1 a (b - a) (c - b)
  have e1 : a + (b - a) = b := by omega
  have e2 : c - b + (b - a) = c - a := by omega
  rw [e1, e2] at h
  exact h

theorem range_cons (a n : Nat) (h : 0 < n) :
    a :: List.range' (a + 1) (n - 1) = List.range' a n := by
  obtain ⟨k, rfl⟩ : ∃ k, n = k + 1 := ⟨n - 1, by omega⟩
  simp [List.range'_succ]

theorem perm_value_slots {n m k : Nat} {p1 p2 : List Nat}
    (hp1 : p1.Perm (List.range' (n + 1) (m - (n + 1)))) (hp2 : p2.Perm (List.range' m (k - m)))
    (h1 : n + 1 ≤ m) (h2 : m ≤ k) : (n :: (p1 ++ p2)).Perm (List.range' n (k - n)) := by
  have e1 : n :: (List.range' (n + 1) (m - (n + 1)) ++ List.range' m (k - m)) =
      List.range' n (k - n) := by
    rw [range_split h1 h2]
    have := range_cons n (k - n) (by omega)
    rw [← this]
    congr 2
  rw [← e1]
  exact List.Perm.cons _ (List.Perm.append hp1 hp2)

theorem perm_item_slots {x n m k : Nat} {p1 p2 r : List Nat}
    (hp1 : p1.Perm (List.range' n (m - n))) (hp2 : p2.Perm (r ++ List.range' m (k - m)))
    (h1 : n ≤ m) (h2 : m ≤ k) :
    (x :: (p1 ++ p2)).Perm ((x :: r) ++ List.range' n (k - n)) := by
  rw [← range_split h1 h2, List.cons_append]
  refine List.Perm.cons _ ?_
  refine (List.Perm.append hp1 hp2).trans ?_
  rw [← List.append_assoc, ← List.append_assoc]
  exact List.Perm.append_right _ List.perm_append_comm

theorem slots_of_append (xs ys : List json_value_t) :
    slots_of (xs ++ ys) = slots_of xs ++ slots_of ys := by
  simp [slots_of]

theorem slots_of_cons (x : json_value_t) (xs : List json_value_t) :
    slots_of (x :: xs) = x.slot :: slots_of xs := rfl

theorem parse_string_text_nodes {fuel : Nat} {buf : List Nat} {cur : Nat} {a : json_arena_t}
    {val len : Nat} {chars : List Nat} {cur1 : Nat} {a1 : json_arena_t}
    (h : parse_string_text fuel buf cur a = some (val, len, chars, cur1, a1)) :
    a1.nodes = a.nodes ∧ a1.entries = a.entries := by
  unfold parse_string_text at h
  split at h
  · cases h
  · cases h; exact ⟨rfl, rfl⟩

theorem fill_inv_leaf {a : json_arena_t} {node : Nat} {v : json_value_t}
    (hs : v.slot = node) (hd : v.descendants = []) (hc : items_contiguous v) :
    fill_inv a node v a := by
  refine ⟨hs, Nat.le_refl _, ?_, ?_⟩
  · simp [hd, slots_of]
  · intro n hn
    simp only [json_value_t.nodes, hd, List.mem_singleton] at hn
    rw [hn]; exact hc

theorem fill_slots_aux (buf : List Nat) (e : Nat) : ∀ fuel,
    (∀ node cur a v cur1 a1, fill_node fuel buf e node cur a = some (v, cur1, a1) →
      fill_inv a node v a1) ∧
    (∀ entries i count cur a ms cur1 a1,
      fill_entries fuel buf e entries i count cur a = some (ms, cur1, a1) →
      a.nodes ≤ a1.nodes ∧
        (slots_of (members_descendants ms)).Perm (List.range' a.nodes (a1.nodes - a.nodes)) ∧
        ∀ n ∈ members_descendants ms, items_contiguous n) ∧
    (∀ items i count cur a xs cur1 a1,
      fill_items fuel buf e items i count cur a = some (xs, cur1, a1) →
      a.nodes ≤ a1.nodes ∧ xs.length = count - i ∧
        slots_of xs = List.range' (items + i) (count - i) ∧
        (slots_of (elems_descendants xs)).Perm
          (List.range' (items + i) (count - i) ++ List.range' a.nodes (a1.nodes - a.nodes)) ∧
        ∀ n ∈ elems_descendants xs, items_contiguous n) := by
  intro fuel
  induction fuel with
  | zero => simp [fill_node, fill_entries, fill_items]
  | succ k ih =>
    obtain ⟨ihn, ihe, ihi⟩ := ih
    refine ⟨?_, ?_, ?_⟩
    · intro node cur a v cur1 a1 h
      rw [fill_node] at h
      split_ifs at h with h1 h2
      · -- object
        split at h
        · cases h
        · rename_i count hcount
          split at h
          · cases h
          · rename_i ms c1 a2 hfill
            cases h
            obtain ⟨hle, hperm, hall⟩ := ihe _ _ _ _ _ _ _ _ hfill
            refine ⟨rfl, hle, hperm, ?_⟩
            intro n hn
            simp only [json_value_t.nodes, json_value_t.descendants, List.mem_cons] at hn
            rcases hn with rfl | hn
            · trivial
            · exact hall n hn
      · -- array
        split at h
        · cases h
        · rename_i xs c1 a2 hfill
          cases h
          obtain ⟨hle, hlen, hrun, hperm, hall⟩ := ihi _ _ _ _ _ _ _ _ hfill
          simp only [Nat.add_zero, Nat.sub_zero] at hlen hrun hperm hle
          refine ⟨rfl, by omega, ?_, ?_⟩
          · simp only [json_value_t.descendants]
            have := range_split (Nat.le_add_right a.nodes (array_count buf e _)) hle
            rw [Nat.add_sub_cancel_left] at this
            rw [← this]
            exact hperm
          · intro n hn
            simp only [json_value_t.nodes, json_value_t.descendants, List.mem_cons] at hn
            rcases hn with rfl | hn
            · exact ⟨hlen, fun hpos => ⟨a.nodes, by simp [reserved, hpos], hrun⟩⟩
            · exact hall n hn
      · -- scalars
        unfold fill_scalar at h
        simp only at h
        split_ifs at h
        · split at h
          · cases h
          · rename_i val len chars c1 a2 hstr
            cases h
            have hn := (parse_string_text_nodes hstr).1
            refine ⟨rfl, by omega, ?_, ?_⟩
            · simp [json_value_t.descendants, slots_of, hn]
            · intro n hn'
              simp only [json_value_t.nodes, json_value_t.descendants,
                List.mem_singleton] at hn'
              rw [hn']; trivial
        all_goals
          cases h
          exact fill_inv_leaf rfl rfl trivial
    · intro entries i count cur a ms cur1 a1 h
      rw [fill_entries] at h
      split_ifs at h with hi
      · split at h
        · cases h
        · rename_i key klen kchars c1 a2 hstr
          split at h
          · cases h
          · rename_i v c2 a3 hv
            split at h
            · cases h
            · rename_i rest c4 a4 hrest
              cases h
              obtain ⟨hs, hle1, hp1, hall1⟩ := ihn _ _ _ _ _ _ hv
              obtain ⟨hle2, hp2, hall2⟩ := ihe _ _ _ _ _ _ _ _ hrest
              have hn := (parse_string_text_nodes hstr).1
              simp only at hle1 hp1
              refine ⟨by omega, ?_, ?_⟩
              · simp only [members_descendants, json_entry_t.descendants, List.cons_append,
                  slots_of_cons, slots_of_append, hs]
                rw [hn] at hp1 hle1 ⊢
                exact perm_value_slots hp1 hp2 hle1 hle2
              · intro n hn'
                simp only [members_descendants, json_entry_t.descendants, List.cons_append,
                  List.mem_cons, List.mem_append] at hn'
                rcases hn' with rfl | hn' | hn'
                · exact hall1 _ (List.mem_cons_self _ _)
                · exact hall1 _ (List.mem_cons_of_mem _ hn')
                · exact hall2 _ hn'
      · cases h
        simp [members_descendants, slots_of]
    · intro items i count cur a xs cur1 a1 h
      rw [fill_items] at h
      split_ifs at h with hi
      · split at h
        · cases h
        · rename_i v c1 a2 hv
          split at h
          · cases h
          · rename_i rest c3 a3 hrest
            cases h
            obtain ⟨hs, hle1, hp1, hall1⟩ := ihn _ _ _ _ _ _ hv
            obtain ⟨hle2, hlen, hrun, hp2, hall2⟩ := ihi _ _ _ _ _ _ _ _ hrest
            have hrc : (items + i) :: List.range' (items + (i + 1)) (count - (i + 1)) =
                List.range' (items + i) (count - i) := by
              have := range_cons (items + i) (count - i) (by omega)
              rw [← this]
              congr 2
            refine ⟨by omega, by simp only [List.length_cons, hlen]; omega, ?_, ?_, ?_⟩
            · rw [slots_of_cons, hs, hrun, hrc]
            · simp only [elems_descendants, List.cons_append, slots_of_cons, slots_of_append, hs]
              rw [← hrc]
              exact perm_item_slots hp1 hp2 hle1 hle2
            · intro n hn'
              simp only [elems_descendants, List.cons_append, List.mem_cons,
                List.mem_append] at hn'
              rcases hn' with rfl | hn' | hn'
              · exact hall1 _ (List.mem_cons_self _ _)
              · exact hall1 _ (List.mem_cons_of_mem _ hn')
              · exact hall2 _ hn'
      · cases h
        have : count - i = 0 := by omega
        simp [elems_descendants, slots_of, this]

end CJson

namespace CJson

/-! ## Texts in memory -/

theorem at_append {buf : List Nat} : ∀ (s t : List Nat) (p : Nat),
    At buf p (s ++ t) ↔ At buf p s ∧ At buf (p + s.length) t
  | [], t, p => by simp [At]
  | b :: s, t, p => by
    show (rd buf p = b ∧ At buf (p + 1) (s ++ t)) ↔
      (rd buf p = b ∧ At buf (p + 1) s) ∧ At buf (p + (s.length + 1)) t
    have e : p + (s.length + 1) = p + 1 + s.length := by omega
    rw [at_append s t (p + 1), e, and_assoc]

theorem at_cons {buf : List Nat} {b : Nat} {t : List Nat} {p : Nat} :
    At buf p (b :: t) ↔ rd buf p = b ∧ At buf (p + 1) t := Iff.rfl

theorem rd_append_right (pre t : List Nat) (i : Nat) :
    rd (pre ++ t) (pre.length + i) = rd t i := by
  simp [rd, List.getD_eq_getElem?_getD, List.getElem?_append_right]

/-- A text stands at the offset where it was put. -/
theorem at_of_append : ∀ (t pre post : List Nat), At (pre ++ (t ++ post)) pre.length t
  | [], _, _ => trivial
  | b :: t, pre, post => by
    refine ⟨?_, ?_⟩
    · have := rd_append_right pre (b :: t ++ post) 0
      simpa [rd] using this
    · have h := at_of_append t (pre ++ [b]) post
      simpa using h

theorem at_zero (t post : List Nat) : At (t ++ post) 0 t := by
  have h := at_of_append t [] post
  simpa using h

/-! ## White space -/

theorem isspace_not_number {b : Nat} (h : isspace b = true) : is_number_char b = false := by
  simp only [isspace, Bool.or_eq_true, beq_iff_eq, Bool.and_eq_true, decide_eq_true_eq] at h
  simp only [is_number_char, isdigit, Bool.or_eq_false_iff, Bool.and_eq_false_iff,
    decide_eq_false_iff_not, beq_eq_false_iff_ne]
  omega

theorem isspace_not_slash {b : Nat} (h : isspace b = true) : b ≠ 47 := by
  simp only [isspace, Bool.or_eq_true, beq_iff_eq, Bool.and_eq_true, decide_eq_true_eq] at h
  omega

theorem skip_whitespace_space {buf : List Nat} {e p : Nat} (hp : p < e)
    (hs : isspace (rd buf p) = true) :
    skip_whitespace buf e p = skip_whitespace buf e (p + 1) := by
  unfold skip_whitespace
  obtain ⟨k, hk⟩ : ∃ k, e - p = k + 1 := ⟨e - p - 1, by omega⟩
  have hk' : e - (p + 1) = k := by omega
  rw [hk, hk', skip_whitespace_loop]
  simp [hp, hs]

theorem skip_whitespace_stop {buf : List Nat} {e p : Nat} (h : TokenStart buf e p) :
    skip_whitespace buf e p = p := by
  unfold skip_whitespace
  rcases h with h | ⟨h1, h2⟩
  · have : e - p = 0 := by omega
    rw [this, skip_whitespace_loop]
  · cases hk : e - p with
    | zero => rw [skip_whitespace_loop]
    | succ k =>
      rw [skip_whitespace_loop]
      simp [h1, h2]

/-- `skip_whitespace` runs over a run of white space that ends where a token
starts. -/
theorem skip_whitespace_run {buf : List Nat} {e : Nat} : ∀ (w : List Nat) (p : Nat),
    IsWs w → At buf p w → p + w.length ≤ e → TokenStart buf e (p + w.length) →
      skip_whitespace buf e p = p + w.length
  | [], p, _, _, _, hstop => by simpa using skip_whitespace_stop hstop
  | b :: w, p, hw, hat, hle, hstop => by
    obtain ⟨hb, hat'⟩ := hat
    simp only [List.length_cons] at hle hstop ⊢
    have hsp : isspace (rd buf p) = true := by rw [hb]; exact hw b (List.mem_cons_self _ _)
    rw [skip_whitespace_space (by omega) hsp]
    have e1 : p + (w.length + 1) = p + 1 + w.length := by omega
    rw [e1] at hstop ⊢
    exact skip_whitespace_run w (p + 1) (fun x hx => hw x (List.mem_cons_of_mem _ hx)) hat'
      (by omega) hstop

/-! ## Strings, numbers, literals -/

theorem scan_string_loop_plain {buf : List Nat} {e : Nat} : ∀ (s : List Nat) (fuel cur n : Nat),
    Plain s → At buf cur (s ++ [34]) → cur + s.length + 1 ≤ e → s.length + 1 ≤ fuel →
      scan_string_loop fuel buf e cur n = (true, cur + s.length + 1, n + s.length)
  | [], fuel, cur, n, _, hat, hle, hf => by
    simp only [List.length_nil, Nat.add_zero, Nat.zero_add] at hle hf ⊢
    obtain ⟨k, rfl⟩ : ∃ k, fuel = k + 1 := ⟨fuel - 1, by omega⟩
    simp only [List.nil_append, At] at hat
    rw [scan_string_loop]
    simp [hat.1, show cur < e by omega]
  | b :: s, fuel, cur, n, hp, hat, hle, hf => by
    simp only [List.length_cons] at hle hf ⊢
    obtain ⟨k, rfl⟩ : ∃ k, fuel = k + 1 := ⟨fuel - 1, by omega⟩
    obtain ⟨hb, hat'⟩ := hat
    have hb' := hp b (List.mem_cons_self _ _)
    rw [scan_string_loop]
    have h1 : cur < e := by omega
    have ih : scan_string_loop k buf e (cur + 1) (n + 1) =
        (true, cur + 1 + s.length + 1, n + 1 + s.length) :=
      scan_string_loop_plain s k (cur + 1) (n + 1)
        (fun x hx => hp x (List.mem_cons_of_mem _ hx)) hat' (by omega) (by omega)
    simp only [h1, if_true, hb, hb'.1, hb'.2, if_false, ih]
    simp only [Prod.mk.injEq, true_and]
    constructor <;> omega

/-- `scan_string` on a literal without escapes: it ends after the closing quote and
adds the length of the body plus one. -/
theorem scan_string_plain {buf : List Nat} {e p out : Nat} {s : List Nat} (hp : Plain s)
    (hat : At buf p (quoted s)) (hle : p + (quoted s).length ≤ e) :
    scan_string buf e p out = (true, p + (quoted s).length, out + (s.length + 1)) := by
  simp only [quoted, List.length_cons, List.length_append, List.length_singleton,
    List.length_nil] at hle ⊢
  have hat' : rd buf p = 34 ∧ At buf (p + 1) (s ++ [34]) := hat
  have h : scan_string_loop (e - p) buf e (p + 1) 0 = (true, p + 1 + s.length + 1, 0 + s.length) :=
    scan_string_loop_plain s (e - p) (p + 1) 0 hp hat'.2 (by omega) (by omega)
  unfold scan_string
  rw [h]
  simp only [Prod.mk.injEq, true_and]
  constructor <;> omega

theorem number_run_digits {buf : List Nat} {e : Nat} : ∀ (ds : List Nat) (fuel cur : Nat),
    (∀ d ∈ ds, isdigit d = true) → At buf cur ds → cur + ds.length ≤ e →
      Delim buf e (cur + ds.length) → e ≤ fuel + cur →
      number_run fuel buf e cur = cur + ds.length
  | [], fuel, cur, _, _, _, hd, _ => by
    simp only [List.length_nil, Nat.add_zero] at hd ⊢
    cases fuel with
    | zero => rw [number_run]
    | succ k =>
      rw [number_run]
      by_cases hlt : cur < e
      · simp [hd hlt]
      · simp [hlt]
  | d :: ds, fuel, cur, hdig, hat, hle, hd, hf => by
    simp only [List.length_cons] at hle hd ⊢
    obtain ⟨k, rfl⟩ : ∃ k, fuel = k + 1 := ⟨fuel - 1, by omega⟩
    obtain ⟨hb, hat'⟩ := hat
    have hdd := hdig d (List.mem_cons_self _ _)
    have hn : is_number_char (rd buf cur) = true := by
      rw [hb]; simp [is_number_char, hdd]
    rw [number_run]
    have e1 : cur + (ds.length + 1) = cur + 1 + ds.length := by omega
    rw [e1] at hd ⊢
    simp only [show cur < e by omega, hn, and_self, if_true]
    exact number_run_digits ds k (cur + 1) (fun x hx => hdig x (List.mem_cons_of_mem _ hx)) hat'
      (by omega) hd (by omega)

theorem strncmp_eq_of_at {buf : List Nat} : ∀ (lit : List Nat) (p : Nat),
    At buf p lit → strncmp_eq buf p lit = true
  | [], _, _ => rfl
  | b :: lit, p, h => by
    simp only [strncmp_eq, h.1, beq_self_eq_true, Bool.true_and]
    exact strncmp_eq_of_at lit (p + 1) h.2

end CJson

namespace CJson

/-! ## One step of `pass1_analyze` on a rendered text -/

/-- The first byte of a token: `n`, `t`, `f`, a digit, `"`, `[` or `{`. -/
theorem token_first : ∀ (v : Value) (tok : List Nat), Token v tok →
    ∃ b tl, tok = b :: tl ∧
      (b = 110 ∨ b = 116 ∨ b = 102 ∨ isdigit b = true ∨ b = 34 ∨ b = 91 ∨ b = 123)
  | .null, tok, h => by simp only [Token] at h; exact ⟨110, _, h, by simp⟩
  | .bool true, tok, h => by simp only [Token] at h; exact ⟨116, _, h, by simp⟩
  | .bool false, tok, h => by simp only [Token] at h; exact ⟨102, _, h, by simp⟩
  | .number ds, tok, h => by
    simp only [Token] at h
    obtain ⟨hne, hdig, rfl⟩ := h
    cases tok with
    | nil => exact absurd rfl hne
    | cons d tl => exact ⟨d, tl, rfl, by simp [hdig d (List.mem_cons_self _ _)]⟩
  | .string s, tok, h => by simp only [Token] at h; exact ⟨34, _, h.2, by simp⟩
  | .array xs, tok, h => by
    simp only [Token] at h
    obtain ⟨body, w, -, -, rfl⟩ := h
    exact ⟨91, _, rfl, by simp⟩
  | .object ms, tok, h => by
    simp only [Token] at h
    obtain ⟨body, w, -, -, rfl⟩ := h
    exact ⟨123, _, rfl, by simp⟩

theorem start_byte_facts {b : Nat}
    (h : b = 110 ∨ b = 116 ∨ b = 102 ∨ isdigit b = true ∨ b = 34 ∨ b = 91 ∨ b = 123) :
    isspace b = false ∧ b ≠ 47 ∧ b ≠ 93 ∧ b ≠ 125 ∧ b ≠ 44 := by
  simp only [isdigit, Bool.and_eq_true, decide_eq_true_eq] at h
  simp only [isspace, Bool.or_eq_false_iff, beq_eq_false_iff_ne, Bool.and_eq_false_iff,
    decide_eq_false_iff_not]
  omega

/-- Where a token stands, `skip_whitespace` stays, and the token is inside the
input. -/
theorem token_start {buf : List Nat} (e : Nat) {q : Nat} {v : Value} {tok : List Nat}
    (h : Token v tok) (hat : At buf q tok) (hle : q + tok.length ≤ e) :
    TokenStart buf e q ∧ q < e ∧ rd buf q ≠ 93 ∧ rd buf q ≠ 125 ∧ rd buf q ≠ 44 := by
  obtain ⟨b, tl, rfl, hb⟩ := token_first v tok h
  obtain ⟨h1, h2, h3, h4, h5⟩ := start_byte_facts hb
  have hr : rd buf q = b := hat.1
  simp only [List.length_cons] at hle
  rw [hr]
  exact ⟨Or.inr ⟨by rw [hr]; exact h1, by rw [hr]; exact h2⟩, by omega, h3, h4, h5⟩

theorem value_head_skip {buf : List Nat} {e p q : Nat} (st : scan_status_t)
    (h1 : skip_whitespace buf e p = q) (h2 : skip_whitespace buf e q = q) :
    value_head buf e p st = value_head buf e q st := by
  simp only [value_head, h1, h2]

/-- A call that starts in white space before a token returns what the call at the
token returns. -/
theorem returns_skip {buf : List Nat} {e p q : Nat} {st : scan_status_t} {r : scan_result}
    (h1 : skip_whitespace buf e p = q) (h2 : skip_whitespace buf e q = q)
    (h : Returns buf e q st r) : Returns buf e p st r := by
  obtain ⟨f, hf⟩ := h
  cases f with
  | zero => simp [pass1] at hf
  | succ k =>
    refine ⟨k + 1, ?_⟩
    rw [pass1] at hf ⊢
    rw [value_head_skip st h1 h2]
    exact hf

theorem delim_of_head {buf : List Nat} {e q b : Nat} {tl : List Nat} (hat : At buf q (b :: tl))
    (hb : is_number_char b = false) : Delim buf e q := by
  intro _
  rw [hat.1]; exact hb

/-- White space followed by a byte that is no number byte stops the number loop. -/
theorem delim_ws_then {buf : List Nat} {e q c : Nat} {w tl : List Nat} (hw : IsWs w)
    (hc : is_number_char c = false) (hat : At buf q (w ++ (c :: tl))) : Delim buf e q := by
  cases w with
  | nil => exact delim_of_head hat hc
  | cons b w => exact delim_of_head hat (isspace_not_number (hw b (List.mem_cons_self _ _)))

/-- `skip_whitespace` over white space that is followed by a byte `c` that is
neither white space nor `/`. -/
theorem skip_whitespace_to {buf : List Nat} (e : Nat) {p c : Nat} {w tl : List Nat}
    (hw : IsWs w)
    (hat : At buf p (w ++ (c :: tl))) (hle : p + w.length < e) (hc : isspace c = false)
    (hc' : c ≠ 47) : skip_whitespace buf e p = p + w.length ∧ rd buf (p + w.length) = c := by
  obtain ⟨h1, h2⟩ := (at_append w (c :: tl) p).mp hat
  have hr : rd buf (p + w.length) = c := h2.1
  refine ⟨skip_whitespace_run w p hw h1 (by omega) (Or.inr ?_), hr⟩
  rw [hr]; exact ⟨hc, hc'⟩

theorem array_step_close {buf : List Nat} (e : Nat) {p : Nat} {w : List Nat} (first : Bool)
    (st : scan_status_t) (hw : IsWs w) (hat : At buf p (w ++ [93]))
    (hle : p + w.length + 1 ≤ e) :
    array_step buf e first p st = .ret ⟨true, p + w.length + 1, st⟩ := by
  obtain ⟨h1, h2⟩ := skip_whitespace_to e hw hat (by omega) (by decide) (by decide)
  simp only [array_step, h1, h2]
  simp [show ¬ (e ≤ p + w.length) by omega]

theorem object_step_close {buf : List Nat} (e : Nat) {p : Nat} {w : List Nat} (first : Bool)
    (st : scan_status_t) (hw : IsWs w) (hat : At buf p (w ++ [125]))
    (hle : p + w.length + 1 ≤ e) :
    object_step buf e first p st = .ret ⟨true, p + w.length + 1, st⟩ := by
  obtain ⟨h1, h2⟩ := skip_whitespace_to e hw hat (by omega) (by decide) (by decide)
  simp only [object_step, h1, h2]
  simp [show ¬ (e ≤ p + w.length) by omega]

/-- The array loop at an item: it goes on to the recursive call at the first byte
after the comma (or, for the first item, at the token). -/
theorem array_step_item {buf : List Nat} {e p : Nat} {first : Bool} {w0 w tok rest : List Nat}
    {v : Value} (st : scan_status_t) (hw0 : IsWs w0) (hw : IsWs w) (ht : Token v tok)
    (hat : At buf p ((if first then [] else w0 ++ [44]) ++ (w ++ (tok ++ rest))))
    (hle : p + ((if first then [] else w0 ++ [44]) ++ (w ++ (tok ++ rest))).length ≤ e) :
    ∃ c, array_step buf e first p st = .value c st ∧
      skip_whitespace buf e c = p + (if first then [] else w0 ++ [44]).length + w.length ∧
      skip_whitespace buf e (p + (if first then [] else w0 ++ [44]).length + w.length) =
        p + (if first then [] else w0 ++ [44]).length + w.length := by
  cases first with
  | true =>
    simp only [if_true, List.nil_append, List.length_nil, Nat.add_zero] at hat hle ⊢
    obtain ⟨h1, h2⟩ := (at_append w (tok ++ rest) p).mp hat
    obtain ⟨h3, -⟩ := (at_append tok rest (p + w.length)).mp h2
    simp only [List.length_append] at hle
    obtain ⟨hts, hlt, hn93, -, -⟩ := token_start e ht h3 (by omega)
    have hsk := skip_whitespace_run w p hw h1 (by omega) hts
    have hsk2 := skip_whitespace_stop hts
    refine ⟨p + w.length, ?_, hsk2, hsk2⟩
    simp only [array_step, hsk]
    simp [show ¬ (e ≤ p + w.length) by omega, hn93]
  | false =>
    simp only [Bool.false_eq_true, if_false, List.length_append, List.length_singleton,
      List.append_assoc, List.singleton_append, List.length_cons] at hat hle ⊢
    obtain ⟨h1, h2⟩ := skip_whitespace_to e hw0 hat (by omega) (by decide) (by decide)
    obtain ⟨-, h3⟩ := (at_append w0 (44 :: (w ++ (tok ++ rest))) p).mp hat
    have h4 : At buf (p + w0.length + 1) (w ++ (tok ++ rest)) := h3.2
    obtain ⟨h5, h6⟩ := (at_append w (tok ++ rest) (p + w0.length + 1)).mp h4
    obtain ⟨h7, -⟩ := (at_append tok rest (p + w0.length + 1 + w.length)).mp h6
    obtain ⟨hts, hlt, -⟩ := token_start e ht h7 (by omega)
    have hsk := skip_whitespace_run w (p + w0.length + 1) hw h5 (by omega) hts
    refine ⟨p + w0.length + 1, ?_, hsk, skip_whitespace_stop hts⟩
    simp only [array_step, h1, h2]
    simp [show ¬ (e ≤ p + w0.length) by omega]

end CJson

namespace CJson

/-- The object loop at a member: the key is scanned, the entry is counted, and the
loop goes on to the recursive call at the first byte after the colon. -/
theorem object_step_member {buf : List Nat} {e p : Nat} {first : Bool}
    {w0 w1 w2 k tl : List Nat} (st : scan_status_t) (hw0 : IsWs w0) (hw1 : IsWs w1)
    (hw2 : IsWs w2) (hk : Plain k)
    (hat : At buf p ((if first then [] else w0 ++ [44]) ++
      (w1 ++ (quoted k ++ (w2 ++ (58 :: tl))))))
    (hle : p + ((if first then [] else w0 ++ [44]) ++
      (w1 ++ (quoted k ++ (w2 ++ (58 :: tl))))).length ≤ e) :
    ∃ s, object_step buf e first p st =
        .value (p + (if first then [] else w0 ++ [44]).length + w1.length + (quoted k).length +
          w2.length + 1) s ∧
      s.nodes = st.nodes ∧ s.entries = st.entries + 1 := by
  have key : ∀ p1, At buf p1 (w1 ++ (quoted k ++ (w2 ++ (58 :: tl)))) →
      p1 + w1.length + (quoted k).length + w2.length + 1 ≤ e →
      skip_whitespace buf e p1 = p1 + w1.length ∧ rd buf (p1 + w1.length) = 34 ∧
        scan_string buf e (p1 + w1.length) st.string_bytes =
          (true, p1 + w1.length + (quoted k).length, st.string_bytes + (k.length + 1)) ∧
        skip_whitespace buf e (p1 + w1.length + (quoted k).length) =
          p1 + w1.length + (quoted k).length + w2.length ∧
        rd buf (p1 + w1.length + (quoted k).length + w2.length) = 58 := by
    intro p1 hat1 hle1
    have hq : (quoted k).length = k.length + 2 := by simp [quoted]
    have hat1' : At buf p1 (w1 ++ (34 :: (k ++ [34] ++ (w2 ++ (58 :: tl))))) := by
      simpa [quoted] using hat1
    obtain ⟨h1, h2⟩ := skip_whitespace_to e hw1 hat1' (by omega) (by decide) (by decide)
    obtain ⟨-, h3⟩ := (at_append w1 _ p1).mp hat1
    obtain ⟨h4, h5⟩ := (at_append (quoted k) _ (p1 + w1.length)).mp h3
    have h6 : scan_string buf e (p1 + w1.length) st.string_bytes = (true,
        p1 + w1.length + (quoted k).length, st.string_bytes + (k.length + 1)) :=
      scan_string_plain hk h4 (by omega)
    obtain ⟨h7, h8⟩ := skip_whitespace_to e hw2 h5 (by omega) (by decide) (by decide)
    exact ⟨h1, h2, h6, h7, h8⟩
  cases first with
  | true =>
    simp only [if_true, List.nil_append, List.length_nil, Nat.add_zero, List.length_append,
      List.length_cons] at hat hle ⊢
    obtain ⟨h1, h2, h3, h4, h5⟩ := key p hat (by omega)
    refine ⟨⟨st.nodes, st.entries + 1, st.string_bytes + (k.length + 1), st.err_line,
      st.err_col, st.err_msg⟩, ?_, rfl, rfl⟩
    simp only [object_step, h1]
    simp [h2, h3, h4, h5, show ¬ (e ≤ p + w1.length) by omega]
  | false =>
    simp only [Bool.false_eq_true, if_false, List.length_append, List.length_singleton,
      List.append_assoc, List.singleton_append, List.length_cons] at hat hle ⊢
    obtain ⟨g1, g2⟩ := skip_whitespace_to e hw0 hat (by omega) (by decide) (by decide)
    obtain ⟨-, g3⟩ := (at_append w0 _ p).mp hat
    have g4 : At buf (p + w0.length + 1) (w1 ++ (quoted k ++ (w2 ++ (58 :: tl)))) := g3.2
    obtain ⟨h1, h2, h3, h4, h5⟩ := key (p + w0.length + 1) g4 (by omega)
    refine ⟨⟨st.nodes, st.entries + 1, st.string_bytes + (k.length + 1), st.err_line,
      st.err_col, st.err_msg⟩, ?_, rfl, rfl⟩
    simp only [object_step, g1]
    simp [g2, h1, h2, h3, h4, h5, show ¬ (e ≤ p + w0.length) by omega]
    omega

theorem items_delim {buf : List Nat} {e q : Nat} : ∀ (xs : List Value) (rest : List Nat),
    Items false xs rest → At buf q rest → Delim buf e (q + rest.length) → Delim buf e q
  | [], rest, h, _, hd => by
    simp only [Items] at h
    subst h
    simpa using hd
  | x :: xs, rest, h, hat, _ => by
    simp only [Items, Bool.false_eq_true, if_false] at h
    obtain ⟨w0, w, tok, rest', hw0, -, -, -, rfl⟩ := h
    rw [List.append_assoc, List.singleton_append] at hat
    exact delim_ws_then hw0 (by decide) hat

theorem members_delim {buf : List Nat} {e q : Nat} :
    ∀ (ms : List (List Nat × Value)) (rest : List Nat),
    Members false ms rest → At buf q rest → Delim buf e (q + rest.length) → Delim buf e q
  | [], rest, h, _, hd => by
    simp only [Members] at h
    subst h
    simpa using hd
  | (k, v) :: ms, rest, h, hat, _ => by
    simp only [Members, Bool.false_eq_true, if_false] at h
    obtain ⟨w0, w1, w2, w, tok, rest', hw0, -, -, -, -, -, -, rfl⟩ := h
    rw [List.append_assoc, List.singleton_append] at hat
    exact delim_ws_then hw0 (by decide) hat

/-- `value_head` at a literal `lit` that none of the earlier branches takes. -/
theorem value_head_literal {buf : List Nat} {e q : Nat} (st : scan_status_t)
    (hts : TokenStart buf e q) (hlt : q < e) :
    (At buf q [110, 117, 108, 108] →
      value_head buf e q st = .ret ⟨true, q + 4, { st with nodes := st.nodes + 1 }⟩) ∧
    (At buf q [116, 114, 117, 101] →
      value_head buf e q st = .ret ⟨true, q + 4, { st with nodes := st.nodes + 1 }⟩) ∧
    (At buf q [102, 97, 108, 115, 101] →
      value_head buf e q st = .ret ⟨true, q + 5, { st with nodes := st.nodes + 1 }⟩) := by
  have hsk := skip_whitespace_stop hts
  refine ⟨?_, ?_, ?_⟩ <;> intro hat
  · have h := strncmp_eq_of_at _ _ hat
    have hc : rd buf q = 110 := hat.1
    have ht : strncmp_eq buf q [116, 114, 117, 101] = false := by simp [strncmp_eq, hc]
    have hf : strncmp_eq buf q [102, 97, 108, 115, 101] = false := by simp [strncmp_eq, hc]
    simp [value_head, hsk, hc, h, ht, hf, show ¬ (e ≤ q) by omega]
  · have h := strncmp_eq_of_at _ _ hat
    have hc : rd buf q = 116 := hat.1
    simp [value_head, hsk, hc, h, show ¬ (e ≤ q) by omega]
  · have h := strncmp_eq_of_at _ _ hat
    have hc : rd buf q = 102 := hat.1
    have ht : strncmp_eq buf q [116, 114, 117, 101] = false := by simp [strncmp_eq, hc]
    simp [value_head, hsk, hc, h, ht, show ¬ (e ≤ q) by omega]

end CJson

namespace CJson

theorem value_head_number {buf : List Nat} {e q : Nat} {ds : List Nat} (st : scan_status_t)
    (hne : ds ≠ []) (hdig : ∀ d ∈ ds, isdigit d = true) (hat : At buf q ds)
    (hle : q + ds.length ≤ e) (hd : Delim buf e (q + ds.length)) :
    value_head buf e q st =
      .ret ⟨true, q + ds.length, { st with nodes := st.nodes + 1 }⟩ := by
  have hrun : number_run (e - q) buf e q = q + ds.length :=
    number_run_digits ds (e - q) q hdig hat hle hd (by omega)
  cases ds with
  | nil => exact absurd rfl hne
  | cons d tl =>
    have hc : rd buf q = d := hat.1
    have hdd := hdig d (List.mem_cons_self _ _)
    simp only [isdigit, Bool.and_eq_true, decide_eq_true_eq] at hdd
    simp only [List.length_cons] at hle
    have hts : TokenStart buf e q := by
      refine Or.inr ?_
      rw [hc]
      simp only [isspace, Bool.or_eq_false_iff, beq_eq_false_iff_ne, Bool.and_eq_false_iff,
        decide_eq_false_iff_not]
      omega
    have hsk := skip_whitespace_stop hts
    simp only [value_head, hsk, hrun, hc]
    rw [if_neg (by omega), if_neg (by omega), if_neg (by omega), if_neg (by omega),
      if_pos (by omega)]

theorem value_head_string {buf : List Nat} {e q : Nat} {s : List Nat} (st : scan_status_t)
    (hp : Plain s) (hat : At buf q (quoted s)) (hle : q + (quoted s).length ≤ e) :
    ∃ s', value_head buf e q st = .ret ⟨true, q + (quoted s).length, s'⟩ ∧
      s'.nodes = st.nodes + 1 ∧ s'.entries = st.entries := by
  have hc : rd buf q = 34 := hat.1
  have hts : TokenStart buf e q := Or.inr (by rw [hc]; exact ⟨by decide, by decide⟩)
  have hsk := skip_whitespace_stop hts
  have hlen : 0 < (quoted s).length := by simp [quoted]
  have hscan : scan_string buf e q st.string_bytes =
      (true, q + (quoted s).length, st.string_bytes + (s.length + 1)) :=
    scan_string_plain hp hat hle
  refine ⟨⟨st.nodes + 1, st.entries, st.string_bytes + (s.length + 1), st.err_line,
    st.err_col, st.err_msg⟩, ?_, rfl, rfl⟩
  simp only [value_head, hsk, hc]
  simp [hscan, show ¬ (e ≤ q) by omega]

theorem value_head_open {buf : List Nat} {e q : Nat} (st : scan_status_t) (hlt : q < e) :
    (rd buf q = 91 → value_head buf e q st = .array (q + 1) { st with nodes := st.nodes + 1 }) ∧
    (rd buf q = 123 →
      value_head buf e q st = .object (q + 1) { st with nodes := st.nodes + 1 }) := by
  constructor <;> intro hc
  · have hts : TokenStart buf e q := Or.inr (by rw [hc]; exact ⟨by decide, by decide⟩)
    simp [value_head, skip_whitespace_stop hts, hc, show ¬ (e ≤ q) by omega]
  · have hts : TokenStart buf e q := Or.inr (by rw [hc]; exact ⟨by decide, by decide⟩)
    simp [value_head, skip_whitespace_stop hts, hc, show ¬ (e ≤ q) by omega]

/-! ## `pass1_analyze` on a rendered value -/

mutual
/-- On the text of a value, standing at `q` inside the input and followed by the end
of the input or by a byte that is no number byte, `pass1_analyze` succeeds, stops
right after the text, and has counted the values and the key/value pairs of the
value. -/
theorem token_returns : ∀ (v : Value) (tok : List Nat), Token v tok →
    ∀ (buf : List Nat) (e q : Nat) (st : scan_status_t),
      At buf q tok → q + tok.length ≤ e → Delim buf e (q + tok.length) →
      ∃ r, Returns buf e q st r ∧ r.ok = true ∧ r.cursor = q + tok.length ∧
        r.stats.nodes = st.nodes + v.node_count ∧
        r.stats.entries = st.entries + v.entry_count
  | .null, tok, h, buf, e, q, st, hat, hle, _ => by
    obtain ⟨hts, hlt, -⟩ := token_start e h hat hle
    simp only [Token] at h
    subst h
    exact ⟨_, returns_of_ret ((value_head_literal st hts hlt).1 hat), rfl, rfl, rfl, rfl⟩
  | .bool true, tok, h, buf, e, q, st, hat, hle, _ => by
    obtain ⟨hts, hlt, -⟩ := token_start e h hat hle
    simp only [Token] at h
    subst h
    exact ⟨_, returns_of_ret ((value_head_literal st hts hlt).2.1 hat), rfl, rfl, rfl, rfl⟩
  | .bool false, tok, h, buf, e, q, st, hat, hle, _ => by
    obtain ⟨hts, hlt, -⟩ := token_start e h hat hle
    simp only [Token] at h
    subst h
    exact ⟨_, returns_of_ret ((value_head_literal st hts hlt).2.2 hat), rfl, rfl, rfl, rfl⟩
  | .number ds, tok, h, buf, e, q, st, hat, hle, hd => by
    simp only [Token] at h
    obtain ⟨hne, hdig, rfl⟩ := h
    exact ⟨_, returns_of_ret (value_head_number st hne hdig hat hle hd), rfl, rfl, rfl, rfl⟩
  | .string s, tok, h, buf, e, q, st, hat, hle, _ => by
    simp only [Token] at h
    obtain ⟨hp, rfl⟩ := h
    obtain ⟨s', hv, hn, he⟩ := value_head_string st hp hat hle
    exact ⟨_, returns_of_ret hv, rfl, rfl, by simp [hn, Value.node_count],
      by simp [he, Value.entry_count]⟩
  | .array xs, tok, h, buf, e, q, st, hat, hle, _ => by
    obtain ⟨-, hlt, -⟩ := token_start e h hat hle
    simp only [Token] at h
    obtain ⟨body, w, hb, hw, rfl⟩ := h
    have hc : rd buf q = 91 := hat.1
    have hat1 : At buf (q + 1) (body ++ (w ++ [93])) := hat.2
    obtain ⟨hat2, hat3⟩ := (at_append body (w ++ [93]) (q + 1)).mp hat1
    simp only [List.length_cons, List.length_append, List.length_singleton,
      List.length_nil] at hle ⊢
    have hd2 : Delim buf e (q + 1 + body.length) := delim_ws_then hw (by decide) hat3
    obtain ⟨st', hn, he, hk⟩ := items_returns xs true body hb buf e (q + 1)
      { st with nodes := st.nodes + 1 } hat2 (by omega) hd2
    have hclose := array_step_close e (true && xs.isEmpty) st' hw hat3 (by omega)
    have hr := hk _ (array_returns_of_ret hclose)
    refine ⟨_, returns_of_array ((value_head_open st hlt).1 hc) hr, rfl, ?_, ?_, ?_⟩
    · simp only; omega
    · simp only [hn, Value.node_count]; omega
    · simp only [he, Value.entry_count]
  | .object ms, tok, h, buf, e, q, st, hat, hle, _ => by
    obtain ⟨-, hlt, -⟩ := token_start e h hat hle
    simp only [Token] at h
    obtain ⟨body, w, hb, hw, rfl⟩ := h
    have hc : rd buf q = 123 := hat.1
    have hat1 : At buf (q + 1) (body ++ (w ++ [125])) := hat.2
    obtain ⟨hat2, hat3⟩ := (at_append body (w ++ [125]) (q + 1)).mp hat1
    simp only [List.length_cons, List.length_append, List.length_singleton,
      List.length_nil] at hle ⊢
    have hd2 : Delim buf e (q + 1 + body.length) := delim_ws_then hw (by decide) hat3
    obtain ⟨st', hn, he, hk⟩ := members_returns ms true body hb buf e (q + 1)
      { st with nodes := st.nodes + 1 } hat2 (by omega) hd2
    have hclose := object_step_close e (true && ms.isEmpty) st' hw hat3 (by omega)
    have hr := hk _ (object_returns_of_ret hclose)
    refine ⟨_, returns_of_object ((value_head_open st hlt).2 hc) hr, rfl, ?_, ?_, ?_⟩
    · simp only; omega
    · simp only [hn, Value.node_count]; omega
    · simp only [he, Value.entry_count]
/-- The array loop of `pass1_analyze` runs over rendered items: entered at their
first byte, it comes back to its head right after them, with their values and
key/value pairs counted. -/
theorem items_returns : ∀ (xs : List Value) (first : Bool) (t : List Nat), Items first xs t →
    ∀ (buf : List Nat) (e p : Nat) (st : scan_status_t),
      At buf p t → p + t.length ≤ e → Delim buf e (p + t.length) →
      ∃ st', st'.nodes = st.nodes + items_node_count xs ∧
        st'.entries = st.entries + items_entry_count xs ∧
        ∀ r, ArrayReturns buf e (first && xs.isEmpty) (p + t.length) st' r →
          ArrayReturns buf e first p st r
  | [], first, t, h, buf, e, p, st, _, _, _ => by
    simp only [Items] at h
    subst h
    exact ⟨st, rfl, rfl, fun r hr => by simpa using hr⟩
  | x :: xs, first, t, h, buf, e, p, st, hat, hle, hd => by
    simp only [Items] at h
    obtain ⟨w0, w, tok, rest, hw0, hw, ht, hrest, rfl⟩ := h
    obtain ⟨c, hstep, hsk1, hsk2⟩ := array_step_item st hw0 hw ht hat hle
    obtain ⟨-, hat1⟩ := (at_append _ _ p).mp hat
    obtain ⟨-, hat2⟩ := (at_append w _ _).mp hat1
    obtain ⟨hat3, hat4⟩ := (at_append tok rest _).mp hat2
    simp only [List.length_append] at hle hd hat4 ⊢
    have hd1 : Delim buf e (p + (if first = true then [] else w0 ++ [44]).length + w.length +
        tok.length) := by
      refine items_delim xs rest hrest hat4 ?_
      have e1 : p + (if first = true then [] else w0 ++ [44]).length + w.length + tok.length +
          rest.length = p + ((if first = true then [] else w0 ++ [44]).length +
            (w.length + (tok.length + rest.length))) := by omega
      rw [e1]; exact hd
    obtain ⟨r1, hr1, hok, hcur, hn1, he1⟩ := token_returns x tok ht buf e _ st hat3
      (by omega) hd1
    have hr1' : Returns buf e c st r1 := returns_skip hsk1 hsk2 hr1
    obtain ⟨st', hn, he, hk⟩ := items_returns xs false rest hrest buf e r1.cursor r1.stats
      (by rw [hcur]; exact hat4) (by rw [hcur]; omega)
      (by
        rw [hcur]
        have e1 : p + (if first = true then [] else w0 ++ [44]).length + w.length + tok.length +
            rest.length = p + ((if first = true then [] else w0 ++ [44]).length +
              (w.length + (tok.length + rest.length))) := by omega
        rw [e1]; exact hd)
    refine ⟨st', ?_, ?_, ?_⟩
    · simp only [hn, hn1, items_node_count]; omega
    · simp only [he, he1, items_entry_count]; omega
    · intro r hr
      refine array_returns_of_next hstep hr1' hok (hk r ?_)
      have e1 : r1.cursor + rest.length = p + ((if first = true then [] else w0 ++ [44]).length +
          (w.length + (tok.length + rest.length))) := by rw [hcur]; omega
      rw [e1]
      simpa using hr
/-- The same for the object loop and rendered members. -/
theorem members_returns : ∀ (ms : List (List Nat × Value)) (first : Bool) (t : List Nat),
    Members first ms t →
    ∀ (buf : List Nat) (e p : Nat) (st : scan_status_t),
      At buf p t → p + t.length ≤ e → Delim buf e (p + t.length) →
      ∃ st', st'.nodes = st.nodes + members_node_count ms ∧
        st'.entries = st.entries + members_entry_count ms ∧
        ∀ r, ObjectReturns buf e (first && ms.isEmpty) (p + t.length) st' r →
          ObjectReturns buf e first p st r
  | [], first, t, h, buf, e, p, st, _, _, _ => by
    simp only [Members] at h
    subst h
    exact ⟨st, rfl, rfl, fun r hr => by simpa using hr⟩
  | (k, v) :: ms, first, t, h, buf, e, p, st, hat, hle, hd => by
    simp only [Members] at h
    obtain ⟨w0, w1, w2, w, tok, rest, hw0, hw1, hw2, hw, hk, ht, hrest, rfl⟩ := h
    obtain ⟨s, hstep, hsn, hse⟩ := object_step_member st hw0 hw1 hw2 hk hat hle
    obtain ⟨-, hat1⟩ := (at_append _ _ p).mp hat
    obtain ⟨-, hat2⟩ := (at_append w1 _ _).mp hat1
    obtain ⟨-, hat3⟩ := (at_append (quoted k) _ _).mp hat2
    obtain ⟨-, hat4⟩ := (at_append w2 _ _).mp hat3
    have hat5 : At buf (p + (if first = true then [] else w0 ++ [44]).length + w1.length +
        (quoted k).length + w2.length + 1) (w ++ (tok ++ rest)) := hat4.2
    obtain ⟨hat6, hat7⟩ := (at_append w _ _).mp hat5
    obtain ⟨hat8, hat9⟩ := (at_append tok rest _).mp hat7
    simp only [List.length_append, List.length_cons] at hle hd ⊢
    obtain ⟨hts, -⟩ := token_start e ht hat8 (by omega)
    have hsk1 := skip_whitespace_run w _ hw hat6 (by omega) hts
    have hsk2 := skip_whitespace_stop hts
    have hend : p + (if first = true then [] else w0 ++ [44]).length + w1.length +
        (quoted k).length + w2.length + 1 + w.length + tok.length + rest.length =
        p + ((if first = true then [] else w0 ++ [44]).length + (w1.length +
          ((quoted k).length + (w2.length + (w.length + (tok.length + rest.length) + 1))))) := by
      omega
    have hd1 : Delim buf e (p + (if first = true then [] else w0 ++ [44]).length + w1.length +
        (quoted k).length + w2.length + 1 + w.length + tok.length) := by
      refine members_delim ms rest hrest hat9 ?_
      rw [hend]; exact hd
    obtain ⟨r1, hr1, hok, hcur, hn1, he1⟩ := token_returns v tok ht buf e _ s hat8
      (by omega) hd1
    have hr1' := returns_skip hsk1 hsk2 hr1
    obtain ⟨st', hn, he, hkk⟩ := members_returns ms false rest hrest buf e r1.cursor r1.stats
      (by rw [hcur]; exact hat9) (by rw [hcur]; omega) (by rw [hcur, hend]; exact hd)
    refine ⟨st', ?_, ?_, ?_⟩
    · simp only [hn, hn1, hsn, members_node_count]; omega
    · simp only [he, he1, hse, members_entry_count]; omega
    · intro r hr
      refine object_returns_of_next hstep hr1' hok (hkk r ?_)
      rw [hcur, hend]
      simpa using hr
end

end CJson

namespace CJson

/-! ## Failure propagates up the walk -/

theorem returns_inv_ret {buf : List Nat} {e cur : Nat} {st : scan_status_t} {r0 r : scan_result}
    (h : value_head buf e cur st = .ret r0) (hr : Returns buf e cur st r) : r = r0 :=
  returns_unique hr (returns_of_ret h)

theorem returns_inv_object {buf : List Nat} {e cur : Nat} {st : scan_status_t} {c : Nat}
    {s : scan_status_t} {r : scan_result} (h : value_head buf e cur st = .object c s)
    (hr : Returns buf e cur st r) : ObjectReturns buf e true c s r := by
  obtain ⟨f, hf⟩ := hr
  cases f with
  | zero => simp [pass1] at hf
  | succ k =>
    rw [pass1, h] at hf
    exact ⟨k, hf⟩

theorem returns_inv_array {buf : List Nat} {e cur : Nat} {st : scan_status_t} {c : Nat}
    {s : scan_status_t} {r : scan_result} (h : value_head buf e cur st = .array c s)
    (hr : Returns buf e cur st r) : ArrayReturns buf e true c s r := by
  obtain ⟨f, hf⟩ := hr
  cases f with
  | zero => simp [pass1] at hf
  | succ k =>
    rw [pass1, h] at hf
    exact ⟨k, hf⟩

theorem object_returns_inv_ret {buf : List Nat} {e : Nat} {first : Bool} {cur : Nat}
    {st : scan_status_t} {r0 r : scan_result} (h : object_step buf e first cur st = .ret r0)
    (hr : ObjectReturns buf e first cur st r) : r = r0 :=
  object_returns_unique hr (object_returns_of_ret h)

theorem array_returns_inv_ret {buf : List Nat} {e : Nat} {first : Bool} {cur : Nat}
    {st : scan_status_t} {r0 r : scan_result} (h : array_step buf e first cur st = .ret r0)
    (hr : ArrayReturns buf e first cur st r) : r = r0 :=
  array_returns_unique hr (array_returns_of_ret h)

theorem object_returns_inv_value {buf : List Nat} {e : Nat} {first : Bool} {cur : Nat}
    {st : scan_status_t} {c : Nat} {s : scan_status_t} {r : scan_result}
    (h : object_step buf e first cur st = .value c s)
    (hr : ObjectReturns buf e first cur st r) :
    ∃ r1, Returns buf e c s r1 ∧
      (r1.ok = true → ObjectReturns buf e false r1.cursor r1.stats r) ∧
      (r1.ok = false → r = r1) := by
  obtain ⟨f, hf⟩ := hr
  cases f with
  | zero => simp [pass1_object] at hf
  | succ k =>
    rw [pass1_object, h] at hf
    simp only at hf
    cases hv : pass1 k buf e c s with
    | none => rw [hv] at hf; simp at hf
    | some r1 =>
      rw [hv] at hf
      simp only at hf
      refine ⟨r1, ⟨k, hv⟩, ?_, ?_⟩
      · intro hok
        rw [if_pos hok] at hf
        exact ⟨k, hf⟩
      · intro hok
        rw [if_neg (by simp [hok])] at hf
        exact (Option.some.inj hf).symm

theorem array_returns_inv_value {buf : List Nat} {e : Nat} {first : Bool} {cur : Nat}
    {st : scan_status_t} {c : Nat} {s : scan_status_t} {r : scan_result}
    (h : array_step buf e first cur st = .value c s)
    (hr : ArrayReturns buf e first cur st r) :
    ∃ r1, Returns buf e c s r1 ∧
      (r1.ok = true → ArrayReturns buf e false r1.cursor r1.stats r) ∧
      (r1.ok = false → r = r1) := by
  obtain ⟨f, hf⟩ := hr
  cases f with
  | zero => simp [pass1_array] at hf
  | succ k =>
    rw [pass1_array, h] at hf
    simp only at hf
    cases hv : pass1 k buf e c s with
    | none => rw [hv] at hf; simp at hf
    | some r1 =>
      rw [hv] at hf
      simp only at hf
      refine ⟨r1, ⟨k, hv⟩, ?_, ?_⟩
      · intro hok
        rw [if_pos hok] at hf
        exact ⟨k, hf⟩
      · intro hok
        rw [if_neg (by simp [hok])] at hf
        exact (Option.some.inj hf).symm

/-- A frame fails when the frame that the walk enters next inside it fails. -/
theorem fails_of_step {buf : List Nat} {e : Nat} {a b : frame} (h : Step buf e a b)
    (hb : b.Fails buf e) : a.Fails buf e := by
  cases h with
  | enter_object hv => exact fun r hr => hb r (returns_inv_object hv hr)
  | enter_array hv => exact fun r hr => hb r (returns_inv_array hv hr)
  | object_value hs =>
    intro r hr
    obtain ⟨r1, hr1, -, hbad⟩ := object_returns_inv_value hs hr
    have h1 := hb r1 hr1
    rw [hbad h1]; exact h1
  | object_next hs hv hok =>
    intro r hr
    obtain ⟨r1, hr1, hgood, -⟩ := object_returns_inv_value hs hr
    have e1 := returns_unique hr1 hv
    subst e1
    exact hb r (hgood hok)
  | array_value hs =>
    intro r hr
    obtain ⟨r1, hr1, -, hbad⟩ := array_returns_inv_value hs hr
    have h1 := hb r1 hr1
    rw [hbad h1]; exact h1
  | array_next hs hv hok =>
    intro r hr
    obtain ⟨r1, hr1, hgood, -⟩ := array_returns_inv_value hs hr
    have e1 := returns_unique hr1 hv
    subst e1
    exact hb r (hgood hok)

/-- The first violation anywhere aborts the parse: when a frame that the walk
reaches fails, so does the frame the walk started from. -/
theorem fails_of_reaches {buf : List Nat} {e : Nat} {a b : frame} (h : Reaches buf e a b)
    (hb : b.Fails buf e) : a.Fails buf e := by
  induction h with
  | refl => exact hb
  | tail _ hstep ih => exact ih (fails_of_step hstep hb)

/-- When the outermost call fails, `pass1_analyze` rejects the input and
`parse_json` returns `NULL`. -/
theorem rejected_of_fails {buf : List Nat} {len : Nat}
    (h : (frame.value 0 stats_zero).Fails buf len) :
    (∃ r, pass1_analyze buf len 0 stats_zero = some r ∧ r.ok = false) ∧
      ∀ (fuel : Nat) (eb : Option String),
        ∃ out, parse_json fuel buf len eb true = some out ∧ out.root = none := by
  obtain ⟨r, hr, -⟩ := pass1_total buf len 0 stats_zero
  have hok : r.ok = false := h r (pass1_analyze_eq_some_iff.mp hr)
  refine ⟨⟨r, hr, hok⟩, fun fuel eb => ?_⟩
  obtain ⟨r', hr', hkey⟩ := parse_json_unfold buf len eb fuel
  rw [hr] at hr'
  cases hr'
  exact ⟨_, by rw [hkey, if_pos hok], rfl⟩

/-- A call that finds `}` or `,` where a value should start returns `false`. -/
theorem value_fails_at_closer {buf : List Nat} {e cur : Nat} (st : scan_status_t)
    (h : rd buf (skip_whitespace buf e cur) = 125 ∨ rd buf (skip_whitespace buf e cur) = 44) :
    (frame.value cur st).Fails buf e := by
  intro r hr
  have hv : ∃ r0, value_head buf e cur st = .ret r0 ∧ r0.ok = false := by
    simp only [value_head]
    split_ifs with h1 h2 h3 h4 h5 h6 h7 h8
    · exact ⟨_, rfl, rfl⟩
    · omega
    · omega
    · omega
    · omega
    · simp only [strncmp_eq, Bool.and_eq_true, beq_iff_eq] at h6; omega
    · simp only [strncmp_eq, Bool.and_eq_true, beq_iff_eq] at h7; omega
    · simp only [strncmp_eq, Bool.and_eq_true, beq_iff_eq] at h8; omega
    · exact ⟨_, rfl, rfl⟩
  obtain ⟨r0, h0, hok⟩ := hv
  rw [returns_inv_ret h0 hr]; exact hok

/-- A call made at or after the end of the input returns `false`. -/
theorem value_fails_at_end {buf : List Nat} {e cur : Nat} (st : scan_status_t)
    (h : e ≤ skip_whitespace buf e cur) : (frame.value cur st).Fails buf e := by
  intro r hr
  have h0 : value_head buf e cur st = .ret ⟨false, skip_whitespace buf e cur, st⟩ := by
    simp only [value_head]
    rw [if_pos h]
  rw [returns_inv_ret h0 hr]

end CJson

namespace CJson

/-! ## Comments -/

theorem skip_whitespace_loop_fuel (buf : List Nat) (e : Nat) : ∀ (f g p : Nat),
    e - p ≤ f → e - p ≤ g →
      skip_whitespace_loop f buf e p = skip_whitespace_loop g buf e p := by
  intro f
  induction f with
  | zero =>
    intro g p hf _
    cases g with
    | zero => rfl
    | succ g => simp [skip_whitespace_loop, show ¬ p < e by omega]
  | succ f ih =>
    intro g p hf hg
    cases g with
    | zero => simp [skip_whitespace_loop, show ¬ p < e by omega]
    | succ g =>
      have hl := line_comment_end_ge buf e (e - (p + 2)) (p + 2)
      have hb := block_comment_scan_ge buf e (e - (p + 2)) (p + 2)
      simp only [skip_whitespace_loop]
      split_ifs
      · exact ih g (p + 1) (by omega) (by omega)
      · exact ih g _ (by omega) (by omega)
      · exact ih g _ (by omega) (by omega)
      · exact ih g _ (by omega) (by omega)
      all_goals rfl

theorem skip_whitespace_loop_eq {buf : List Nat} {e f p : Nat} (h : e - p ≤ f) :
    skip_whitespace_loop f buf e p = skip_whitespace buf e p :=
  skip_whitespace_loop_fuel buf e f (e - p) p h (Nat.le_refl _)

/-- One iteration of the loop of `skip_whitespace`, the rest of the loop being
`skip_whitespace` again. -/
theorem skip_whitespace_unfold {buf : List Nat} {e p : Nat} (hp : p < e) :
    skip_whitespace buf e p =
      if isspace (rd buf p) then skip_whitespace buf e (p + 1)
      else if rd buf p = 47 ∧ p + 1 < e then
        if rd buf (p + 1) = 47 then
          skip_whitespace buf e (line_comment_end (e - (p + 2)) buf e (p + 2))
        else if rd buf (p + 1) = 42 then
          skip_whitespace buf e
            (if block_comment_scan (e - (p + 2)) buf e (p + 2) + 1 < e then
              block_comment_scan (e - (p + 2)) buf e (p + 2) + 2
            else block_comment_scan (e - (p + 2)) buf e (p + 2))
        else p
      else p := by
  have hl := line_comment_end_ge buf e (e - (p + 2)) (p + 2)
  have hb := block_comment_scan_ge buf e (e - (p + 2)) (p + 2)
  obtain ⟨k, hk⟩ : ∃ k, e - p = k + 1 := ⟨e - p - 1, by omega⟩
  conv_lhs => unfold skip_whitespace
  rw [hk, skip_whitespace_loop]
  simp only [hp, if_true]
  split_ifs
  · exact skip_whitespace_loop_eq (by omega)
  · exact skip_whitespace_loop_eq (by omega)
  · exact skip_whitespace_loop_eq (by omega)
  · exact skip_whitespace_loop_eq (by omega)
  all_goals rfl

/-- White space and terminated comments are skipped. -/
theorem blank_skip {buf : List Nat} {e p q : Nat} (h : Blank buf e p q) :
    skip_whitespace buf e p = skip_whitespace buf e q := by
  induction h with
  | refl => rfl
  | space hp hs _ ih => rw [skip_whitespace_unfold hp, if_pos hs, ih]
  | @line p' q' hp h1 h2 _ ih =>
    have hns : ¬ isspace (rd buf p') = true := by rw [h1]; decide
    rw [skip_whitespace_unfold (by omega), if_neg hns, if_pos ⟨h1, hp⟩, if_pos h2, ih]
  | @block p' q' hp h1 h2 ht _ ih =>
    have hns : ¬ isspace (rd buf p') = true := by rw [h1]; decide
    rw [skip_whitespace_unfold (by omega), if_neg hns, if_pos ⟨h1, hp⟩,
      if_neg (by rw [h2]; decide), if_pos h2, if_pos ht, ih]

theorem block_comment_scan_unterminated {buf : List Nat} {e : Nat} : ∀ (fuel cur : Nat),
    (∀ i, cur ≤ i → i + 1 < e → ¬ (rd buf i = 42 ∧ rd buf (i + 1) = 47)) →
    e - 1 - cur ≤ fuel →
      block_comment_scan fuel buf e cur = if cur + 1 < e then e - 1 else cur := by
  intro fuel
  induction fuel with
  | zero =>
    intro cur _ hf
    rw [block_comment_scan, if_neg (by omega)]
  | succ k ih =>
    intro cur hno hf
    rw [block_comment_scan]
    by_cases hlt : cur + 1 < e
    · rw [if_pos ⟨hlt, hno cur (Nat.le_refl _) hlt⟩, if_pos hlt,
        ih (cur + 1) (fun i hi => hno i (by omega)) (by omega)]
      split_ifs <;> omega
    · rw [if_neg (fun h => hlt h.1), if_neg hlt]

/-- On a `/*` that is never closed `skip_whitespace` goes to the last byte of the
input, and on to the end of the input when that byte is white space or belongs to
the `/*` itself. -/
theorem skip_whitespace_unterminated {buf : List Nat} {e q : Nat}
    (h : UnterminatedComment buf e q) :
    (e = q + 2 ∨ isspace (rd buf (e - 1)) = true → skip_whitespace buf e q = e) ∧
      e - 1 ≤ skip_whitespace buf e q := by
  obtain ⟨hlt, h1, h2, hno⟩ := h
  have hns : ¬ isspace (rd buf q) = true := by rw [h1]; decide
  have hscan := block_comment_scan_unterminated (e - (q + 2)) (q + 2) hno (by omega)
  have hstep : skip_whitespace buf e q =
      skip_whitespace buf e (if q + 2 + 1 < e then e - 1 else q + 2) := by
    rw [skip_whitespace_unfold (by omega), if_neg hns, if_pos ⟨h1, hlt⟩,
      if_neg (by rw [h2]; decide), if_pos h2, hscan]
    congr 1
    split_ifs <;> omega
  by_cases he : e = q + 2
  · have e1 : (if q + 2 + 1 < e then e - 1 else q + 2) = e := by split_ifs <;> omega
    rw [e1] at hstep
    have hend : skip_whitespace buf e e = e := skip_whitespace_stop (Or.inl (Nat.le_refl _))
    rw [hend] at hstep
    exact ⟨fun _ => hstep, by omega⟩
  · have e1 : (if q + 2 + 1 < e then e - 1 else q + 2) = e - 1 := by split_ifs <;> omega
    rw [e1] at hstep
    constructor
    · rintro (h' | hsp)
      · omega
      · rw [hstep, skip_whitespace_unfold (by omega), if_pos hsp]
        have : e - 1 + 1 = e := by omega
        rw [this]
        exact skip_whitespace_stop (Or.inl (Nat.le_refl _))
    · rw [hstep]; exact skip_whitespace_ge buf e (e - 1)

end CJson

namespace CJson

/-! ## Running into the end of the input -/

theorem scan_string_at_end {buf : List Nat} {e cur : Nat} (out : Nat) (h : e ≤ cur) :
    scan_string buf e cur out = (false, cur + 1, out) := by
  have e0 : e - cur = 0 := by omega
  simp [scan_string, e0, scan_string_loop]

theorem object_fails_of_step {buf : List Nat} {e : Nat} {first : Bool} {cur : Nat}
    {st : scan_status_t}
    (h : (∃ r0, object_step buf e first cur st = .ret r0 ∧ r0.ok = false) ∨
      ∃ c s, object_step buf e first cur st = .value c s ∧ e ≤ c) :
    (frame.object first cur st).Fails buf e := by
  rcases h with ⟨r0, h0, hok⟩ | ⟨c, s, h0, hle⟩
  · intro r hr
    rw [object_returns_inv_ret h0 hr]; exact hok
  · exact fails_of_step (Step.object_value h0)
      (value_fails_at_end s (Nat.le_trans hle (skip_whitespace_ge buf e c)))

theorem array_fails_at_end {buf : List Nat} {e : Nat} (first : Bool) (cur : Nat)
    (st : scan_status_t) (hend : e ≤ skip_whitespace buf e cur) :
    (frame.array first cur st).Fails buf e := by
  intro r hr
  have h0 : array_step buf e first cur st = .ret ⟨false, skip_whitespace buf e cur, st⟩ := by
    simp only [array_step]
    rw [if_pos hend]
  rw [array_returns_inv_ret h0 hr]

theorem object_fails_at_end {buf : List Nat} {e : Nat} (first : Bool) (cur : Nat)
    (st : scan_status_t) (hend : e ≤ skip_whitespace buf e cur) :
    (frame.object first cur st).Fails buf e := by
  refine object_fails_of_step (Or.inl ⟨⟨false, skip_whitespace buf e cur, st⟩, ?_, rfl⟩)
  simp only [object_step]
  rw [if_pos hend]

theorem object_fails_after_comma {buf : List Nat} {e : Nat} (cur : Nat) (st : scan_status_t)
    (hc : skip_whitespace buf e cur < e) (h44 : rd buf (skip_whitespace buf e cur) = 44)
    (hend : e ≤ skip_whitespace buf e (skip_whitespace buf e cur + 1)) :
    (frame.object false cur st).Fails buf e := by
  refine object_fails_of_step (Or.inl ?_)
  simp only [object_step, Bool.false_eq_true, if_false]
  rw [if_neg (by omega), if_neg (by omega), if_neg (by simp [h44])]
  by_cases hq : rd buf (skip_whitespace buf e (skip_whitespace buf e cur + 1)) = 34
  · rw [if_neg (by simp [hq]), scan_string_at_end _ hend]
    exact ⟨_, rfl, rfl⟩
  · rw [if_pos hq]
    exact ⟨_, rfl, rfl⟩

theorem object_fails_after_key {buf : List Nat} {e : Nat} (first : Bool) (cur : Nat)
    (st : scan_status_t) (c1 c2 sb : Nat) (hc : skip_whitespace buf e cur < e)
    (h125 : rd buf (skip_whitespace buf e cur) ≠ 125)
    (hsep : first = true ∨ rd buf (skip_whitespace buf e cur) = 44)
    (hc1 : c1 = if first then skip_whitespace buf e cur
      else skip_whitespace buf e (skip_whitespace buf e cur + 1))
    (h34 : rd buf c1 = 34) (hscan : scan_string buf e c1 st.string_bytes = (true, c2, sb))
    (hend : e ≤ skip_whitespace buf e c2) : (frame.object first cur st).Fails buf e := by
  refine object_fails_of_step ?_
  simp only [object_step]
  rw [if_neg (by omega), if_neg h125, if_neg (by rcases hsep with h | h <;> simp [h]), ← hc1,
    if_neg (by simp [h34]), hscan]
  simp only
  by_cases hq : rd buf (skip_whitespace buf e c2) = 58
  · rw [if_neg (by simp [hq])]
    exact Or.inr ⟨_, _, rfl, by omega⟩
  · rw [if_pos hq]
    exact Or.inl ⟨_, rfl, rfl⟩

/-- A frame in which `skip_whitespace` runs to the end of the input fails. -/
theorem fails_of_boundary_at_end {buf : List Nat} {e : Nat} {fr : frame} {p : Nat}
    (hb : Boundary buf e fr p) (hend : e ≤ skip_whitespace buf e p) : fr.Fails buf e := by
  rcases hb with _ | _ | _ | ⟨hc, h44⟩ | ⟨hc, h34, hscan⟩ | ⟨hc, h44, h34, hscan⟩
  · exact value_fails_at_end _ hend
  · exact array_fails_at_end _ _ _ hend
  · exact object_fails_at_end _ _ _ hend
  · exact object_fails_after_comma _ _ hc h44 hend
  · exact object_fails_after_key true _ _ _ _ _ hc (by omega) (Or.inl rfl) rfl h34 hscan hend
  · exact object_fails_after_key false _ _ _ _ _ hc (by omega) (Or.inr h44) rfl h34 hscan hend

end CJson

namespace CJson

/-- C1, the code at two failing inputs.  On `["a,b"]` `pass1_analyze` accepts and
counts 2 nodes, but `fill_node`, started from the root slot as in `parse_json`,
counts the comma inside the string as an item separator and leaves the node cursor
at 3.  On `{"a":",:"} ""` `pass1_analyze` counts 2 nodes and 1 entry, and `fill_node`
leaves the node cursor at 3 and the entry cursor at 2. -/
theorem builder_cursors_exceed_pass1_counts :
    pass1_analyze (bytes "[\"a,b\"]") 7 0 stats_zero =
        some ⟨true, 7, { stats_zero with nodes := 2, string_bytes := 4 }⟩ ∧
      (pass2 20 (bytes "[\"a,b\"]") 7 { stats_zero with nodes := 2, string_bytes := 4 }).map
        (fun t => (t.2.2.nodes, t.2.2.entries)) = some (3, 0) ∧
      pass1_analyze (bytes "\x7b\"a\":\",:\"\x7d \"\"") 13 0 stats_zero =
        some ⟨true, 10, { stats_zero with nodes := 2, entries := 1, string_bytes := 5 }⟩ ∧
      (pass2 20 (bytes "\x7b\"a\":\",:\"\x7d \"\"") 13
          { stats_zero with nodes := 2, entries := 1, string_bytes := 5 }).map
        (fun t => (t.2.2.nodes, t.2.2.entries)) = some (3, 2) := by
  refine ⟨?_, ?_, ?_, ?_⟩ <;> decide!

/-- C2, the code at the failing input `"\u0041"`: `pass1_analyze` accepts it and
reserves 2 string bytes (one for the escape, one for the terminator), while
`fill_node` writes the 6 bytes `u0041` and NUL into the string region. -/
theorem unicode_escape_outgrows_string_region :
    pass1_analyze (bytes "\"\\u0041\"") 8 0 stats_zero =
        some ⟨true, 8, { stats_zero with nodes := 1, string_bytes := 2 }⟩ ∧
      pass2 20 (bytes "\"\\u0041\"") 8 { stats_zero with nodes := 1, string_bytes := 2 } =
        some (.string 0 0 5 [117, 48, 48, 52, 49, 0], 8,
          { nodes := 1, entries := 0, strings := 6, nodes_rem := 1 }) := by
  exact ⟨by decide!, eq_of_same_build (by decide!)⟩

/-- C5, the code at the example of the claim and at a failing input.  For
`{"a":1,"b":[2,3]}` the root is an Object with the entries `a` -> Number `1` and
`b` -> Array of the Numbers `2`, `3`.  For `["a,b"]`, which `pass1_analyze` accepts
and whose array has the single element `"a,b"`, the root Array has count 2: the
String `a,b` and a second slot that is never filled. -/
theorem array_node_lists_a_phantom_element :
    parse_json 20 (bytes "\x7b\"a\":1,\"b\":[2,3]\x7d") 17 none true =
        some ⟨some (.object 0 (some 0) 2
          [.mk 0 0 1 [97, 0] (.number 1 [49]),
           .mk 1 2 1 [98, 0] (.array 2 (some 3) 2 [.number 3 [50], .number 4 [51]])]), none⟩ ∧
      parse_json 20 (bytes "[\"a,b\"]") 7 none true =
        some ⟨some (.array 0 (some 1) 2 [.string 1 0 3 [97, 44, 98, 0], .untouched 2]),
          none⟩ := by
  exact ⟨eq_of_same_parse (by decide!), eq_of_same_parse (by decide!)⟩

/-- C6, the code at the example of the claim and at a failing input.  The line
comment of `// note\n{"x": true}` is skipped.  `[1]` parses to an Array of one
Number, but with the comment `/*,*/` inserted before the closing bracket the input
is still accepted and parses to an Array of count 2 whose second slot is never
filled. -/
theorem comment_with_comma_changes_the_tree :
    parse_json 20 (bytes "// note\n\x7b\"x\": true\x7d") 19 none true =
        some ⟨some (.object 0 (some 0) 1 [.mk 0 0 1 [120, 0] (.bool 1 1)]), none⟩ ∧
      parse_json 20 (bytes "[1]") 3 none true =
        some ⟨some (.array 0 (some 1) 1 [.number 1 [49]]), none⟩ ∧
      parse_json 20 (bytes "[1/*,*/]") 8 none true =
        some ⟨some (.array 0 (some 1) 2 [.number 1 [49], .untouched 2]), none⟩ := by
  exact ⟨eq_of_same_parse (by decide!), eq_of_same_parse (by decide!),
    eq_of_same_parse (by decide!)⟩

end CJson

namespace CJson

/-- C8, counterexample.  No function of what the caller receives (the error-buffer
text and the `err_line`, `err_col`, `err_msg` fields) yields the offset at which
`pass1_analyze` gave up: `{"a": }` is rejected at offset 6 (the `}` in the place of
a value) and `"abc` at offset 4 (end of input inside a string), and both leave the
same text and the same field values. -/
theorem error_report_cannot_locate_the_violation :
    ¬ ∃ locate : Option String × Int × Int × Option String → Nat,
        ∀ (buf : List Nat) (len : Nat) (r : scan_result),
          pass1_analyze buf len 0 stats_zero = some r → r.ok = false →
            (error_report buf len).map locate = some r.cursor := by
  rintro ⟨locate, h⟩
  have h1 := h (bytes "\x7b\"a\": \x7d") 7
    ⟨false, 6, { stats_zero with nodes := 2, entries := 1, string_bytes := 2 }⟩
    (by decide!) rfl
  have h2 := h (bytes "\"abc") 4 ⟨false, 4, { stats_zero with nodes := 1 }⟩ (by decide!) rfl
  have e1 : error_report (bytes "\x7b\"a\": \x7d") 7 =
      some (some "Syntax Error or Unexpected EOF", 0, 0, none) := by decide!
  have e2 : error_report (bytes "\"abc") 4 =
      some (some "Syntax Error or Unexpected EOF", 0, 0, none) := by decide!
  rw [e1] at h1
  rw [e2] at h2
  simp only [Option.map_some'] at h1 h2
  rw [Option.some.inj h1] at h2
  exact absurd (Option.some.inj h2) (by decide)

/-- C8, as amended.  Whenever `pass1_analyze` rejects an input, `parse_json` returns
`NULL` without running pass 2, the error buffer (when one is passed) holds the fixed
text `Syntax Error or Unexpected EOF`, and the fields `err_line`, `err_col` and
`err_msg` still have their initial values 0, 0 and `NULL`. -/
theorem rejected_input_gets_the_fixed_message (buf : List Nat) (len : Nat)
    (eb : Option String) (calloc_ok : Bool) (fuel : Nat) (r : scan_result)
    (h : pass1_analyze buf len 0 stats_zero = some r) (hr : r.ok = false) :
    parse_json fuel buf len eb calloc_ok =
        some ⟨none, eb.map fun _ => "Syntax Error or Unexpected EOF"⟩ ∧
      r.stats.err_line = 0 ∧ r.stats.err_col = 0 ∧ r.stats.err_msg = none := by
  refine ⟨?_, (pass1_err_fields_aux buf len _).1 _ _ _ h⟩
  simp [parse_json, h, hr]

/-- C8, witness: the amended statement at `{"a": }` with a one-byte error buffer. -/
theorem rejected_input_gets_the_fixed_message_witness :
    (pass1_analyze (bytes "\x7b\"a\": \x7d") 7 0 stats_zero =
        some ⟨false, 6, { stats_zero with nodes := 2, entries := 1, string_bytes := 2 }⟩) ∧
      parse_json 5 (bytes "\x7b\"a\": \x7d") 7 (some "") true =
        some ⟨none, some "Syntax Error or Unexpected EOF"⟩ :=
  ⟨by decide!,
    (rejected_input_gets_the_fixed_message (bytes "\x7b\"a\": \x7d") 7 (some "") true 5
      ⟨false, 6, { stats_zero with nodes := 2, entries := 1, string_bytes := 2 }⟩
      (by decide!) rfl).1⟩

end CJson

namespace CJson

/-- C4, the code at a failing input.  The 35 bytes `[1/*,*/,"..."]`, where the string
body is the 24 bytes `04 00 00 00 41 41 41 41`, eight NUL, `02`, seven NUL, are an
array of two elements.  `pass1_analyze` accepts them with 3 nodes, no entry and 25
string bytes, so the node region has the slots 0, 1 and 2.  The lookahead of
`fill_node` counts the comma inside the comment: the root Array gets `count` 3 and
`items` at slot 1, and its third element is slot 3, where no node is ever written.
Slot 3 is not a place of the node region: whatever the sizes of the two structs, it
starts at the byte where the string region starts, which is where the body of the
String is stored (`val` is string offset 0).  With both sizes 24 the block has 97
bytes and slot 3 is its bytes 72-95, the 24 bytes of the string body, which read as a
node of type 4 (`JSON_ARRAY`) with `count` 2 and `items` NULL.  On `[[1,2],[3,4]]`,
where pass 2 uses the 7 slots that pass 1 counted, the elements of each Array are in
adjacent slots of the node region. -/
theorem array_item_slot_lies_in_string_region :
    (overrun_array_input 4).length = 35 ∧
      (pass1_analyze (overrun_array_input 4) 35 0 stats_zero).map
          (fun r => (r.ok, r.cursor, r.stats.nodes, r.stats.entries, r.stats.string_bytes)) =
        some (true, 35, 3, 0, 25) ∧
      parse_json 40 (overrun_array_input 4) 35 none true =
        some ⟨some (.array 0 (some 1) 3
          [.number 1 [49], .string 2 0 24 (node_image 4 ++ [0]), .untouched 3]), none⟩ ∧
      (∀ sn se, node_offset sn (1 + 2) =
          string_offset sn se { stats_zero with nodes := 3, string_bytes := 25 } 0) ∧
      (node_offset 24 (1 + 2) = 72 ∧
        total_size 24 24 { stats_zero with nodes := 3, string_bytes := 25 } = 97) ∧
      read_node (node_image 4) = (4, 0, 2) ∧
      ((pass1_analyze (bytes "[[1,2],[3,4]]") 13 0 stats_zero).map
          (fun r => (r.ok, r.stats.nodes)) = some (true, 7) ∧
        parse_json 20 (bytes "[[1,2],[3,4]]") 13 none true =
          some ⟨some (.array 0 (some 1) 2
            [.array 1 (some 3) 2 [.number 3 [49], .number 4 [50]],
             .array 2 (some 5) 2 [.number 5 [51], .number 6 [52]]]), none⟩) := by
  refine ⟨by decide, by decide!, eq_of_same_parse (by decide!), ?_, ⟨by decide, by decide⟩,
    by decide, by decide!, eq_of_same_parse (by decide!)⟩
  intro sn se
  simp [node_offset, string_offset, stats_zero]

end CJson

namespace CJson

/-! ## Building renderings -/

theorem token_null : Token .null [110, 117, 108, 108] := by simp only [Token]

theorem token_true : Token (.bool true) [116, 114, 117, 101] := by simp only [Token]

theorem token_false : Token (.bool false) [102, 97, 108, 115, 101] := by simp only [Token]

theorem token_number {ds : List Nat} (hne : ds ≠ []) (hdig : ∀ d ∈ ds, isdigit d = true) :
    Token (.number ds) ds := by
  simp only [Token]; exact ⟨hne, hdig, trivial⟩

theorem token_string {s : List Nat} (hp : Plain s) : Token (.string s) (quoted s) := by
  simp only [Token]; exact ⟨hp, trivial⟩

theorem token_array {xs : List Value} {body w : List Nat} (hb : Items true xs body)
    (hw : IsWs w) : Token (.array xs) (91 :: (body ++ (w ++ [93]))) := by
  simp only [Token]; exact ⟨body, w, hb, hw, rfl⟩

theorem token_object {ms : List (List Nat × Value)} {body w : List Nat}
    (hb : Members true ms body) (hw : IsWs w) :
    Token (.object ms) (123 :: (body ++ (w ++ [125]))) := by
  simp only [Token]; exact ⟨body, w, hb, hw, rfl⟩

theorem items_nil (first : Bool) : Items first [] [] := by simp only [Items]

theorem items_cons {x : Value} {xs : List Value} {w0 w tok rest : List Nat} (first : Bool)
    (hw0 : IsWs w0) (hw : IsWs w) (ht : Token x tok) (hr : Items false xs rest) :
    Items first (x :: xs) ((if first then [] else w0 ++ [44]) ++ (w ++ (tok ++ rest))) := by
  rw [Items]; exact ⟨w0, w, tok, rest, hw0, hw, ht, hr, rfl⟩

theorem members_nil (first : Bool) : Members first [] [] := by simp only [Members]

theorem members_cons {k : List Nat} {v : Value} {ms : List (List Nat × Value)}
    {w0 w1 w2 w tok rest : List Nat} (first : Bool) (hw0 : IsWs w0) (hw1 : IsWs w1)
    (hw2 : IsWs w2) (hw : IsWs w) (hk : Plain k) (ht : Token v tok)
    (hr : Members false ms rest) :
    Members first ((k, v) :: ms) ((if first then [] else w0 ++ [44]) ++
      (w1 ++ (quoted k ++ (w2 ++ (58 :: (w ++ (tok ++ rest))))))) := by
  rw [Members]; exact ⟨w0, w1, w2, w, tok, rest, hw0, hw1, hw2, hw, hk, ht, hr, rfl⟩

theorem isWs_nil : IsWs [] := by simp [IsWs]

theorem isWs_space : IsWs [32] := by simp [IsWs, isspace]

theorem isWs_newline : IsWs [10] := by simp [IsWs, isspace]

/-- C3.  Let `t` be any rendering of a JSON value tree `v` (numbers as digit runs,
strings and keys without backslash or double quote) with arbitrary white space
before and between its tokens, let the input be `t` followed by white space `w`, and
let `mem` be whatever follows the input in memory.  Then `pass1_analyze` accepts,
stops right after `t`, and reports exactly the number of values of `v` as
`stats.nodes` and exactly the number of key/value pairs of `v` as `stats.entries`. -/
theorem pass1_counts_rendered_tree (v : Value) (t w mem : List Nat) (h : Renders v t)
    (hw : IsWs w) :
    ∃ r, pass1_analyze (t ++ (w ++ mem)) (t ++ w).length 0 stats_zero = some r ∧
      r.ok = true ∧ r.cursor = t.length ∧ r.stats.nodes = v.node_count ∧
      r.stats.entries = v.entry_count := by
  obtain ⟨w0, tok, hw0, htok, rfl⟩ := h
  have hat : At ((w0 ++ tok) ++ (w ++ mem)) 0 (w0 ++ tok) := at_zero _ _
  obtain ⟨hat0, hat1⟩ := (at_append w0 tok 0).mp hat
  simp only [Nat.zero_add] at hat1
  have hatw : At ((w0 ++ tok) ++ (w ++ mem)) (w0 ++ tok).length w := at_of_append w _ mem
  simp only [List.length_append] at hatw ⊢
  obtain ⟨hts, -⟩ := token_start (w0.length + tok.length + w.length) htok hat1 (by omega)
  have hd : Delim ((w0 ++ tok) ++ (w ++ mem)) (w0.length + tok.length + w.length)
      (w0.length + tok.length) := by
    cases w with
    | nil => intro hlt; simp at hlt
    | cons b w' => exact delim_of_head hatw (isspace_not_number (hw b (List.mem_cons_self _ _)))
  obtain ⟨r, hr, hok, hcur, hn, he⟩ := token_returns v tok htok _ _ _ stats_zero hat1
    (by omega) hd
  have hsk : skip_whitespace ((w0 ++ tok) ++ (w ++ mem)) (w0.length + tok.length + w.length) 0 =
      0 + w0.length := skip_whitespace_run w0 0 hw0 hat0 (by omega) (by simpa using hts)
  simp only [Nat.zero_add] at hsk
  have hr0 := returns_skip hsk (skip_whitespace_stop hts) hr
  refine ⟨r, pass1_analyze_eq_some_iff.mpr hr0, hok, hcur, ?_, ?_⟩
  · simpa [stats_zero] using hn
  · simpa [stats_zero] using he

/-- C3, witness: the tree `{"a": [1, null]}` rendered as ` { "a" :[1 ,null ]}`
followed by a newline: 4 values, 1 key/value pair. -/
theorem pass1_counts_rendered_tree_witness :
    Renders (.object [([97], .array [.number [49], .null])])
        (bytes " \x7b \"a\" :[1 ,null ]\x7d") ∧
      IsWs [10] ∧
      ∃ r, pass1_analyze (bytes " \x7b \"a\" :[1 ,null ]\x7d" ++ ([10] ++ [])) 20 0 stats_zero =
          some r ∧
        r.ok = true ∧ r.cursor = 19 ∧ r.stats.nodes = 4 ∧ r.stats.entries = 1 := by
  have hnull : Items false [.null]
      ((if false = true then [] else [32] ++ [44]) ++ ([] ++ ([110, 117, 108, 108] ++ []))) :=
    items_cons false isWs_space isWs_nil token_null (items_nil false)
  have hitems : Items true [.number [49], .null]
      ((if true = true then [] else [] ++ [44]) ++ ([] ++ ([49] ++
        ((if false = true then [] else [32] ++ [44]) ++ ([] ++ ([110, 117, 108, 108] ++ [])))))) :=
    items_cons true isWs_nil isWs_nil (token_number (by simp) (by simp [isdigit])) hnull
  have hmem : Members true [([97], .array [.number [49], .null])]
      ((if true = true then [] else [] ++ [44]) ++ ([32] ++ (quoted [97] ++ ([32] ++ (58 :: ([] ++
        ((91 :: (_ ++ ([32] ++ [93]))) ++ []))))))) :=
    members_cons true isWs_nil isWs_space isWs_space isWs_nil (by simp [Plain])
      (token_array hitems isWs_space) (members_nil false)
  have htok := token_object hmem isWs_nil
  have hr : Renders (.object [([97], .array [.number [49], .null])])
      (bytes " \x7b \"a\" :[1 ,null ]\x7d") := ⟨[32], _, isWs_space, htok, by decide!⟩
  obtain ⟨r, h1, h2, h3, h4, h5⟩ := pass1_counts_rendered_tree _ _ [10] [] hr isWs_newline
  have e1 : (bytes " \x7b \"a\" :[1 ,null ]\x7d" ++ [10]).length = 20 := by decide!
  have e2 : (bytes " \x7b \"a\" :[1 ,null ]\x7d").length = 19 := by decide!
  rw [e1] at h1
  rw [e2] at h3
  exact ⟨hr, isWs_newline, r, h1, h2, h3, h4.trans (by decide), h5.trans (by decide)⟩

end CJson

namespace CJson

/-- C9.  Whenever the walk of `pass1_analyze` over the input is at the head of an
object loop where a key and its `:` follow (`object_step` gets to the recursive call
for the member value, `c` being the offset just after the `:`), and the first byte
after the white space and comments that follow the `:` is `}` or `,`, then
`pass1_analyze` rejects the input and `parse_json` returns `NULL`. -/
theorem member_without_value_is_rejected (buf : List Nat) (len : Nat) (first : Bool)
    (cur : Nat) (st : scan_status_t) (c : Nat) (s : scan_status_t)
    (hreach : Reaches buf len (.value 0 stats_zero) (.object first cur st))
    (hkey : object_step buf len first cur st = .value c s)
    (hbad : rd buf (skip_whitespace buf len c) = 125 ∨ rd buf (skip_whitespace buf len c) = 44) :
    (∃ r, pass1_analyze buf len 0 stats_zero = some r ∧ r.ok = false) ∧
      ∀ (fuel : Nat) (eb : Option String),
        ∃ out, parse_json fuel buf len eb true = some out ∧ out.root = none :=
  rejected_of_fails
    (fails_of_reaches hreach (fails_of_step (Step.object_value hkey) (value_fails_at_closer s hbad)))

/-- C9, witness: `{"a": }`.  The object loop is entered at offset 1, the key `"a"`
and the `:` end at offset 5, and after one space comes `}`. -/
theorem member_without_value_is_rejected_witness :
    Reaches (bytes "\x7b\"a\": \x7d") 7 (.value 0 stats_zero)
        (.object true 1 ⟨1, 0, 0, 0, 0, none⟩) ∧
      object_step (bytes "\x7b\"a\": \x7d") 7 true 1 ⟨1, 0, 0, 0, 0, none⟩ =
        .value 5 ⟨1, 1, 2, 0, 0, none⟩ ∧
      rd (bytes "\x7b\"a\": \x7d") (skip_whitespace (bytes "\x7b\"a\": \x7d") 7 5) = 125 ∧
      ((∃ r, pass1_analyze (bytes "\x7b\"a\": \x7d") 7 0 stats_zero = some r ∧ r.ok = false) ∧
        ∀ (fuel : Nat) (eb : Option String),
          ∃ out, parse_json fuel (bytes "\x7b\"a\": \x7d") 7 eb true = some out ∧
            out.root = none) := by
  have h1 : Reaches (bytes "\x7b\"a\": \x7d") 7 (.value 0 stats_zero)
      (.object true 1 ⟨1, 0, 0, 0, 0, none⟩) :=
    Relation.ReflTransGen.single (Step.enter_object (by decide!))
  have h2 : object_step (bytes "\x7b\"a\": \x7d") 7 true 1 ⟨1, 0, 0, 0, 0, none⟩ =
      .value 5 ⟨1, 1, 2, 0, 0, none⟩ := by decide!
  have h3 : rd (bytes "\x7b\"a\": \x7d") (skip_whitespace (bytes "\x7b\"a\": \x7d") 7 5) = 125 := by
    decide!
  exact ⟨h1, h2, h3,
    member_without_value_is_rejected _ 7 true 1 _ 5 _ h1 h2 (Or.inl h3)⟩

end CJson

namespace CJson

/-- C7, counterexample.  In `1 /* x` a `/*` without `*/` opens after the first value
and a space, and in `/* 1` one opens where the first value should start; both inputs
are accepted by `pass1_analyze` and `parse_json` returns the Number `1` for both. -/
theorem unterminated_comment_can_be_accepted :
    (UnterminatedComment (bytes "1 /* x") 6 2 ∧
        pass1_analyze (bytes "1 /* x") 6 0 stats_zero = some ⟨true, 1, ⟨1, 0, 0, 0, 0, none⟩⟩ ∧
        parse_json 5 (bytes "1 /* x") 6 none true = some ⟨some (.number 0 [49]), none⟩) ∧
      (UnterminatedComment (bytes "/* 1") 4 0 ∧
        pass1_analyze (bytes "/* 1") 4 0 stats_zero = some ⟨true, 4, ⟨1, 0, 0, 0, 0, none⟩⟩ ∧
        parse_json 5 (bytes "/* 1") 4 none true = some ⟨some (.number 0 [49]), none⟩) := by
  refine ⟨⟨⟨by decide!, by decide!, by decide!, ?_⟩, by decide!, eq_of_same_parse (by decide!)⟩,
    ⟨⟨by decide!, by decide!, by decide!, ?_⟩, by decide!, eq_of_same_parse (by decide!)⟩⟩
  · intro i h1 h2
    have : i = 4 := by omega
    subst this
    decide!
  · intro i h1 h2
    have : i = 2 := by omega
    subst this
    decide!

/-- C7, as amended.  Let the walk of `pass1_analyze` reach a frame that calls
`skip_whitespace` at offset `p`, let white space and terminated comments lead from
`p` to a `/*` at offset `q` that no `*/` follows, and let the `/*` be the last two
bytes of the input or the last byte of the input be white space.  Then
`skip_whitespace` runs to the end of the input, `pass1_analyze` rejects the input
and `parse_json` returns `NULL`. -/
theorem unterminated_comment_to_end_is_rejected (buf : List Nat) (len : Nat) (fr : frame)
    (p q : Nat) (hreach : Reaches buf len (.value 0 stats_zero) fr)
    (hb : Boundary buf len fr p) (hgap : Blank buf len p q)
    (hopen : UnterminatedComment buf len q)
    (hend : len = q + 2 ∨ isspace (rd buf (len - 1)) = true) :
    skip_whitespace buf len p = len ∧
      (∃ r, pass1_analyze buf len 0 stats_zero = some r ∧ r.ok = false) ∧
      ∀ (fuel : Nat) (eb : Option String),
        ∃ out, parse_json fuel buf len eb true = some out ∧ out.root = none := by
  have hsk : skip_whitespace buf len p = len := by
    rw [blank_skip hgap]
    exact (skip_whitespace_unterminated hopen).1 hend
  exact ⟨hsk, rejected_of_fails
    (fails_of_reaches hreach (fails_of_boundary_at_end hb (by rw [hsk])))⟩

/-- C7, witness: `[1, /* x ` (the last byte is a space).  The walk enters the array
loop at offset 1, accepts `1`, is back at the loop head at offset 2 and calls itself
for the next item at offset 3, where a space leads to the `/*` at offset 4. -/
theorem unterminated_comment_to_end_is_rejected_witness :
    Reaches (bytes "[1, /* x ") 9 (.value 0 stats_zero) (.value 3 ⟨2, 0, 0, 0, 0, none⟩) ∧
      Boundary (bytes "[1, /* x ") 9 (.value 3 ⟨2, 0, 0, 0, 0, none⟩) 3 ∧
      Blank (bytes "[1, /* x ") 9 3 4 ∧ UnterminatedComment (bytes "[1, /* x ") 9 4 ∧
      isspace (rd (bytes "[1, /* x ") (9 - 1)) = true ∧
      (skip_whitespace (bytes "[1, /* x ") 9 3 = 9 ∧
        (∃ r, pass1_analyze (bytes "[1, /* x ") 9 0 stats_zero = some r ∧ r.ok = false) ∧
        ∀ (fuel : Nat) (eb : Option String),
          ∃ out, parse_json fuel (bytes "[1, /* x ") 9 eb true = some out ∧
            out.root = none) := by
  have s1 : Step (bytes "[1, /* x ") 9 (.value 0 stats_zero)
      (.array true 1 ⟨1, 0, 0, 0, 0, none⟩) := Step.enter_array (by decide!)
  have hv : array_step (bytes "[1, /* x ") 9 true 1 ⟨1, 0, 0, 0, 0, none⟩ =
      .value 1 ⟨1, 0, 0, 0, 0, none⟩ := by decide!
  have hr : Returns (bytes "[1, /* x ") 9 1 ⟨1, 0, 0, 0, 0, none⟩
      ⟨true, 2, ⟨2, 0, 0, 0, 0, none⟩⟩ := ⟨1, by decide!⟩
  have s2 : Step (bytes "[1, /* x ") 9 (.array true 1 ⟨1, 0, 0, 0, 0, none⟩)
      (.array false 2 ⟨2, 0, 0, 0, 0, none⟩) := Step.array_next hv hr rfl
  have s3 : Step (bytes "[1, /* x ") 9 (.array false 2 ⟨2, 0, 0, 0, 0, none⟩)
      (.value 3 ⟨2, 0, 0, 0, 0, none⟩) := Step.array_value (by decide!)
  have h1 : Reaches (bytes "[1, /* x ") 9 (.value 0 stats_zero)
      (.value 3 ⟨2, 0, 0, 0, 0, none⟩) :=
    ((Relation.ReflTransGen.single s1).tail s2).tail s3
  have h2 : Blank (bytes "[1, /* x ") 9 3 4 :=
    Blank.space (by decide) (by decide!) (Blank.refl 4)
  have h3 : UnterminatedComment (bytes "[1, /* x ") 9 4 := by
    refine ⟨by decide, by decide!, by decide!, ?_⟩
    intro i h1 h2
    have : i = 6 ∨ i = 7 := by omega
    rcases this with rfl | rfl <;> decide!
  have h4 : isspace (rd (bytes "[1, /* x ") (9 - 1)) = true := by decide!
  exact ⟨h1, Boundary.value, h2, h3, h4,
    unterminated_comment_to_end_is_rejected _ 9 _ 3 4 h1 Boundary.value h2 h3 (Or.inr h4)⟩

end CJson

namespace CJson

/-! ## Gaps are skipped -/

theorem line_comment_end_body {buf : List Nat} {e : Nat} : ∀ (body : List Nat) (fuel p : Nat),
    (∀ b ∈ body, b ≠ 10) → At buf p (body ++ [10]) → p + body.length < e →
    body.length ≤ fuel → line_comment_end fuel buf e p = p + body.length
  | [], fuel, p, _, hat, _, _ => by
    have h10 : rd buf p = 10 := hat.1
    cases fuel with
    | zero => rfl
    | succ k => simp [line_comment_end, h10]
  | b :: body, fuel, p, hb, hat, hle, hf => by
    have hr : rd buf p = b := hat.1
    simp only [List.length_cons] at hle hf ⊢
    obtain ⟨k, rfl⟩ : ∃ k, fuel = k + 1 := ⟨fuel - 1, by omega⟩
    have hne : rd buf p ≠ 10 := by rw [hr]; exact hb b (List.mem_cons_self _ _)
    rw [line_comment_end, if_pos ⟨by omega, hne⟩,
      line_comment_end_body body k (p + 1) (fun x hx => hb x (List.mem_cons_of_mem _ hx))
        hat.2 (by omega) (by omega)]
    omega

theorem block_comment_scan_body {buf : List Nat} {e : Nat} : ∀ (body : List Nat) (fuel p : Nat),
    NoClose body → At buf p (body ++ [42, 47]) → p + body.length + 1 < e →
    body.length ≤ fuel → block_comment_scan fuel buf e p = p + body.length
  | [], fuel, p, _, hat, _, _ => by
    have h1 : rd buf p = 42 := hat.1
    have h2 : rd buf (p + 1) = 47 := hat.2.1
    cases fuel with
    | zero => rfl
    | succ k => simp [block_comment_scan, h1, h2]
  | b :: body, fuel, p, hb, hat, hle, hf => by
    have hr : rd buf p = b := hat.1
    simp only [List.length_cons] at hle hf ⊢
    obtain ⟨k, rfl⟩ : ∃ k, fuel = k + 1 := ⟨fuel - 1, by omega⟩
    have hnc : ¬ (rd buf p = 42 ∧ rd buf (p + 1) = 47) := by
      rintro ⟨h1, h2⟩
      apply hb.1
      refine ⟨by rw [← hr]; exact h1, ?_⟩
      have hat2 : At buf (p + 1) (body ++ [42, 47]) := hat.2
      cases body with
      | nil =>
        have : rd buf (p + 1) = 42 := hat2.1
        omega
      | cons c body =>
        have : rd buf (p + 1) = c := hat2.1
        simp [← this, h2]
    rw [block_comment_scan, if_pos ⟨by omega, hnc⟩,
      block_comment_scan_body body k (p + 1) hb.2 hat.2 (by omega) (by omega)]
    omega

/-- A gap that stands inside the input, before its last byte, is passed over by
`skip_whitespace`. -/
theorem gap_blank {buf : List Nat} {e : Nat} {g : List Nat} (hg : Gap g) :
    ∀ p, At buf p g → p + g.length < e → Blank buf e p (p + g.length) := by
  induction hg with
  | nil => intro p _ _; exact Blank.refl _
  | space b g hb _ ih =>
    intro p hat hle
    simp only [List.length_cons] at hle ⊢
    have h := ih (p + 1) hat.2 (by omega)
    rw [show p + 1 + g.length = p + (g.length + 1) by omega] at h
    exact Blank.space (by omega) (by rw [hat.1]; exact hb) h
  | line body g hb _ ih =>
    intro p hat hle
    have h1 : rd buf p = 47 := hat.1
    have h2 : rd buf (p + 1) = 47 := hat.2.1
    have hat2 : At buf (p + 1 + 1) (body ++ 10 :: g) := hat.2.2
    obtain ⟨hbody, hrest⟩ := (at_append body (10 :: g) (p + 1 + 1)).mp hat2
    have hnl : rd buf (p + 1 + 1 + body.length) = 10 := hrest.1
    simp only [List.length_cons, List.length_append] at hle ⊢
    have hend : line_comment_end (e - (p + 2)) buf e (p + 2) = p + 2 + body.length :=
      line_comment_end_body body _ (p + 2) hb
        ((at_append body [10] (p + 2)).mpr ⟨hbody, hnl, trivial⟩) (by omega) (by omega)
    have h := ih (p + 2 + body.length + 1) hrest.2 (by omega)
    rw [show p + 2 + body.length + 1 + g.length = p + (body.length + (g.length + 1) + 1 + 1) by
      omega] at h
    have hnl' : rd buf (p + 2 + body.length) = 10 := by
      rw [show p + 2 + body.length = p + 1 + 1 + body.length from by omega]
      exact hnl
    refine Blank.line (by omega) h1 h2 ?_
    rw [hend]
    exact Blank.space (by omega) (by rw [hnl']; decide) h
  | block body g hb _ ih =>
    intro p hat hle
    have h1 : rd buf p = 47 := hat.1
    have h2 : rd buf (p + 1) = 42 := hat.2.1
    have hat2 : At buf (p + 1 + 1) (body ++ 42 :: 47 :: g) := hat.2.2
    obtain ⟨hbody, hrest⟩ := (at_append body (42 :: 47 :: g) (p + 1 + 1)).mp hat2
    simp only [List.length_cons, List.length_append] at hle ⊢
    have hend : block_comment_scan (e - (p + 2)) buf e (p + 2) = p + 2 + body.length :=
      block_comment_scan_body body _ (p + 2) hb
        ((at_append body [42, 47] (p + 2)).mpr ⟨hbody, hrest.1, hrest.2.1, trivial⟩)
        (by omega) (by omega)
    have h := ih (p + 2 + body.length + 2) hrest.2.2 (by omega)
    rw [show p + 2 + body.length + 2 + g.length =
      p + (body.length + (g.length + 1 + 1) + 1 + 1) by omega] at h
    refine Blank.block (by omega) h1 h2 (by rw [hend]; omega) ?_
    rw [hend]
    exact h

/-- After a gap, `skip_whitespace` stops on the first byte that is neither white
space nor `/`. -/
theorem skip_whitespace_gap {buf : List Nat} {e p : Nat} {g : List Nat} (hg : Gap g)
    (hat : At buf p g) (hle : p + g.length < e)
    (hs : isspace (rd buf (p + g.length)) = false) (hc : rd buf (p + g.length) ≠ 47) :
    skip_whitespace buf e p = p + g.length := by
  rw [blank_skip (gap_blank hg p hat hle)]
  exact skip_whitespace_stop (Or.inr ⟨hs, hc⟩)

end CJson

namespace CJson

/-! ## Empty containers -/

theorem fill_node_empty_array {buf : List Nat} {e cur q q2 : Nat} (fuel node : Nat)
    (a : json_arena_t) (h1 : skip_whitespace buf e cur = q) (h2 : rd buf q = 91)
    (h3 : skip_whitespace buf e (q + 1) = q2) (h4 : rd buf q2 = 93) :
    fill_node (fuel + 2) buf e node cur a = some (.array node none 0 [], q2 + 1, a) := by
  have hc : array_count buf e q = 0 := by simp [array_count, h3, h4]
  have hne : rd buf q ≠ 123 := by omega
  simp [fill_node, fill_items, h1, h2, hc, reserved, skip_optional, h3, h4]

theorem fill_node_empty_object {buf : List Nat} {e cur q q2 : Nat} (fuel node : Nat)
    (a : json_arena_t) (h1 : skip_whitespace buf e cur = q) (h2 : rd buf q = 123)
    (h3 : skip_whitespace buf e (q + 1) = q2) (h4 : rd buf q2 = 125) :
    fill_node (fuel + 2) buf e node cur a = some (.object node none 0 [], q2 + 1, a) := by
  have hc : object_count (fuel + 1) buf e q = some 0 := by simp [object_count, h3, h4]
  simp [fill_node, fill_entries, h1, h2, hc, reserved, skip_optional, h3, h4]

/-- The memory that holds an opening bracket, a gap, the closing bracket and then
anything. -/
theorem empty_text_facts (o c : Nat) (g rest : List Nat) :
    rd (o :: (g ++ c :: rest)) 0 = o ∧ At (o :: (g ++ c :: rest)) 1 g ∧
      rd (o :: (g ++ c :: rest)) (1 + g.length) = c := by
  refine ⟨rfl, at_of_append g [o] (c :: rest), ?_⟩
  have h := at_of_append [c] (o :: g) rest
  have h' : rd (o :: (g ++ c :: rest)) (g.length + 1) = c := h.1
  rw [Nat.add_comm]
  exact h'

/-- What both passes do on an opening bracket, a gap and the closing bracket:
`skip_whitespace` stays on the opening bracket and goes from the byte after it to the
closing bracket. -/
theorem empty_text_skips (o c : Nat) (g rest : List Nat) (hg : Gap g)
    (ho : isspace o = false) (ho' : o ≠ 47) (hc : isspace c = false) (hc' : c ≠ 47) :
    skip_whitespace (o :: (g ++ c :: rest)) (g.length + 2) 0 = 0 ∧
      skip_whitespace (o :: (g ++ c :: rest)) (g.length + 2) 1 = 1 + g.length := by
  obtain ⟨h0, hat, hcl⟩ := empty_text_facts o c g rest
  refine ⟨skip_whitespace_stop (Or.inr ⟨by rw [h0]; exact ho, by rw [h0]; exact ho'⟩), ?_⟩
  exact skip_whitespace_gap hg hat (by omega) (by rw [hcl]; exact hc) (by rw [hcl]; exact hc')

end CJson

namespace CJson

theorem pass1_empty_array {buf : List Nat} {e q2 : Nat} (st : scan_status_t)
    (h1 : skip_whitespace buf e 0 = 0) (h2 : rd buf 0 = 91) (he : 0 < e)
    (h3 : skip_whitespace buf e 1 = q2) (h4 : rd buf q2 = 93) (hq : q2 < e) :
    pass1_analyze buf e 0 st = some ⟨true, q2 + 1, { st with nodes := st.nodes + 1 }⟩ := by
  apply pass1_analyze_eq_some_iff.mpr
  have hv : value_head buf e 0 st = .array 1 { st with nodes := st.nodes + 1 } := by
    simp [value_head, h1, h2, Nat.not_le.mpr he]
  refine returns_of_array hv (array_returns_of_ret ?_)
  simp [array_step, h3, h4, Nat.not_le.mpr hq]

theorem pass1_empty_object {buf : List Nat} {e q2 : Nat} (st : scan_status_t)
    (h1 : skip_whitespace buf e 0 = 0) (h2 : rd buf 0 = 123) (he : 0 < e)
    (h3 : skip_whitespace buf e 1 = q2) (h4 : rd buf q2 = 125) (hq : q2 < e) :
    pass1_analyze buf e 0 st = some ⟨true, q2 + 1, { st with nodes := st.nodes + 1 }⟩ := by
  apply pass1_analyze_eq_some_iff.mpr
  have hv : value_head buf e 0 st = .object 1 { st with nodes := st.nodes + 1 } := by
    simp [value_head, h1, h2, Nat.not_le.mpr he]
  refine returns_of_object hv (object_returns_of_ret ?_)
  simp [object_step, h3, h4, Nat.not_le.mpr hq]

/-- What `parse_json` returns when pass 1 accepts, `calloc` succeeds and pass 2
returns. -/
theorem parse_json_of_passes {buf : List Nat} {len : Nat} {r : scan_result}
    {fuel : Nat} {t : json_value_t} {c : Nat} {a : json_arena_t} (eb : Option String)
    (h1 : pass1_analyze buf len 0 stats_zero = some r) (hok : r.ok = true)
    (h2 : pass2 fuel buf len r.stats = some (t, c, a)) :
    parse_json fuel buf len eb true = some ⟨some t, eb⟩ := by
  simp [parse_json, h1, hok, h2]

end CJson

namespace CJson

/-- C11.  Let the input be `[`, a gap `g` (white space, `//` comments ended by a
newline, terminated `/* */` comments), and `]`, its length being `g.length + 2`, and
let any bytes `rest` follow it in memory.  Then `pass1_analyze` accepts with
`nodes = 1`, `entries = 0`, `string_bytes = 0`; `parse_json` returns an Array node
with count 0 and no items; and the child-count lookahead of `fill_node` finds 0
children with its pointer `saved` ending on the closing bracket, whatever `rest` is.
The same holds for `{`, a gap and `}`, with an Object node. -/
theorem empty_container_has_count_zero (g rest : List Nat) (hg : Gap g) (fuel : Nat)
    (eb : Option String) :
    (pass1_analyze (91 :: (g ++ 93 :: rest)) (g.length + 2) 0 stats_zero =
          some ⟨true, g.length + 2, ⟨1, 0, 0, 0, 0, none⟩⟩ ∧
        parse_json (fuel + 2) (91 :: (g ++ 93 :: rest)) (g.length + 2) eb true =
          some ⟨some (.array 0 none 0 []), eb⟩ ∧
        array_count (91 :: (g ++ 93 :: rest)) (g.length + 2) 0 = 0 ∧
        array_lookahead_stop (91 :: (g ++ 93 :: rest)) (g.length + 2) 0 = g.length + 1) ∧
      (pass1_analyze (123 :: (g ++ 125 :: rest)) (g.length + 2) 0 stats_zero =
          some ⟨true, g.length + 2, ⟨1, 0, 0, 0, 0, none⟩⟩ ∧
        parse_json (fuel + 2) (123 :: (g ++ 125 :: rest)) (g.length + 2) eb true =
          some ⟨some (.object 0 none 0 []), eb⟩ ∧
        object_count fuel (123 :: (g ++ 125 :: rest)) (g.length + 2) 0 = some 0 ∧
        object_lookahead_stop fuel (123 :: (g ++ 125 :: rest)) (g.length + 2) 0 =
          some (g.length + 1)) := by
  constructor
  · obtain ⟨h0, -, hcl⟩ := empty_text_facts 91 93 g rest
    obtain ⟨hs0, hs1⟩ := empty_text_skips 91 93 g rest hg (by decide) (by decide)
      (by decide) (by decide)
    have hp := pass1_empty_array stats_zero hs0 h0 (by omega) hs1 hcl (by omega)
    rw [show 1 + g.length + 1 = g.length + 2 by omega] at hp
    refine ⟨hp, ?_, ?_, ?_⟩
    · exact parse_json_of_passes eb hp rfl (fill_node_empty_array fuel 0 _ hs0 h0 hs1 hcl)
    · simp [array_count, hs1, hcl]
    · simp [array_lookahead_stop, hs1, hcl]; omega
  · obtain ⟨h0, -, hcl⟩ := empty_text_facts 123 125 g rest
    obtain ⟨hs0, hs1⟩ := empty_text_skips 123 125 g rest hg (by decide)
      (by decide) (by decide) (by decide)
    have hp := pass1_empty_object stats_zero hs0 h0 (by omega) hs1 hcl (by omega)
    rw [show 1 + g.length + 1 = g.length + 2 by omega] at hp
    refine ⟨hp, ?_, ?_, ?_⟩
    · exact parse_json_of_passes eb hp rfl (fill_node_empty_object fuel 0 _ hs0 h0 hs1 hcl)
    · simp [object_count, hs1, hcl]
    · simp [object_lookahead_stop, hs1, hcl]; omega

/-- C11, witness: `[ /* , */ // x` newline `]`, followed in memory by `,1]`. -/
theorem empty_container_has_count_zero_witness :
    Gap (bytes " /* , */ // x\n") ∧
      parse_json 2 (91 :: (bytes " /* , */ // x\n" ++ 93 :: bytes ",1]")) 16 none true =
        some ⟨some (.array 0 none 0 []), none⟩ ∧
      array_lookahead_stop (91 :: (bytes " /* , */ // x\n" ++ 93 :: bytes ",1]")) 16 0 = 15 := by
  have hg : Gap (bytes " /* , */ // x\n") :=
    Gap.space 32 _ (by decide) (Gap.block [32, 44, 32] _ (by simp [NoClose])
      (Gap.space 32 _ (by decide) (Gap.line [32, 120] _ (by decide) Gap.nil)))
  have h := empty_container_has_count_zero (bytes " /* , */ // x\n") (bytes ",1]") hg 0 none
  exact ⟨hg, h.1.2.1, h.1.2.2.2⟩

end CJson

namespace CJson

/-! ## The two string loops on a well-formed body -/

theorem isxdigit_plain {x : Nat} (h : isxdigit x = true) : x ≠ 34 ∧ x ≠ 92 := by
  simp only [isxdigit, isdigit, Bool.or_eq_true, Bool.and_eq_true, decide_eq_true_eq] at h
  omega

/-- One round of the loop of `scan_string` on a byte that is neither `"` nor `\`. -/
theorem scan_string_loop_byte {buf : List Nat} {e p : Nat} (k n : Nat) (hp : p < e)
    (h1 : rd buf p ≠ 34) (h2 : rd buf p ≠ 92) :
    scan_string_loop (k + 1) buf e p n = scan_string_loop k buf e (p + 1) (n + 1) := by
  simp [scan_string_loop, hp, h1, h2]

/-- One round of the loop of `scan_string` on `\` and a byte other than `u`. -/
theorem scan_string_loop_escape {buf : List Nat} {e p : Nat} (k n : Nat) (hp : p + 1 < e)
    (h1 : rd buf p = 92) (h2 : rd buf (p + 1) ≠ 117) :
    scan_string_loop (k + 1) buf e p n = scan_string_loop k buf e (p + 2) (n + 1) := by
  simp [scan_string_loop, show p < e by omega, h1, h2, Nat.not_le.mpr hp]

/-- One round of the loop of `scan_string` on `\u`: the cursor moves six bytes on and
`len` grows by one. -/
theorem scan_string_loop_unicode {buf : List Nat} {e p : Nat} (k n : Nat) (hp : p + 1 < e)
    (h1 : rd buf p = 92) (h2 : rd buf (p + 1) = 117) :
    scan_string_loop (k + 1) buf e p n = scan_string_loop k buf e (p + 6) (n + 1) := by
  simp [scan_string_loop, show p < e by omega, h1, h2, Nat.not_le.mpr hp]

theorem scan_string_loop_items {buf : List Nat} {e : Nat} : ∀ (items : List str_item)
    (fuel p n : Nat), (∀ it ∈ items, it.valid) → At buf p (body_source items ++ [34]) →
    p + (body_source items).length < e → e - p ≤ fuel →
    scan_string_loop fuel buf e p n =
      (true, p + (body_source items).length + 1, n + items.length)
  | [], fuel, p, n, _, hat, hle, hf => by
    have h34 : rd buf p = 34 := hat.1
    simp only [body_source, List.length_nil, Nat.add_zero] at hle ⊢
    obtain ⟨k, rfl⟩ : ∃ k, fuel = k + 1 := ⟨fuel - 1, by omega⟩
    simp [scan_string_loop, hle, h34]
  | it :: items, fuel, p, n, hv, hat, hle, hf => by
    have hv' : ∀ x ∈ items, x.valid := fun x hx => hv x (List.mem_cons_of_mem _ hx)
    have hit := hv it (List.mem_cons_self _ _)
    simp only [body_source, List.length_append, List.append_assoc] at hat hle
    obtain ⟨hsrc, hrest⟩ := (at_append it.source (body_source items ++ [34]) p).mp hat
    have hpos : 0 < it.source.length := by cases it <;> simp [str_item.source]
    obtain ⟨k, rfl⟩ : ∃ k, fuel = k + 1 := ⟨fuel - 1, by omega⟩
    have ih : ∀ q, q = p + it.source.length → scan_string_loop k buf e q (n + 1) =
        (true, q + (body_source items).length + 1, n + 1 + items.length) := by
      intro q hq
      subst hq
      exact scan_string_loop_items items k _ (n + 1) hv' hrest (by omega) (by omega)
    simp only [body_source, List.length_append, List.length_cons]
    cases it with
    | byte b =>
      have hb : rd buf p = b := hsrc.1
      rw [scan_string_loop_byte k n (by omega) (by rw [hb]; exact hit.1)
        (by rw [hb]; exact hit.2), ih (p + 1) rfl]
      simp [str_item.source]; omega
    | tab =>
      have h1 : rd buf p = 92 := hsrc.1
      have h2 : rd buf (p + 1) = 116 := hsrc.2.1
      simp only [str_item.source, List.length_cons, List.length_nil] at hle hpos
      rw [scan_string_loop_escape k n (by omega) h1 (by omega), ih (p + 2) rfl]
      simp [str_item.source]; omega
    | newline =>
      have h1 : rd buf p = 92 := hsrc.1
      have h2 : rd buf (p + 1) = 110 := hsrc.2.1
      simp only [str_item.source, List.length_cons, List.length_nil] at hle hpos
      rw [scan_string_loop_escape k n (by omega) h1 (by omega), ih (p + 2) rfl]
      simp [str_item.source]; omega
    | unicode x1 x2 x3 x4 =>
      have h1 : rd buf p = 92 := hsrc.1
      have h2 : rd buf (p + 1) = 117 := hsrc.2.1
      simp only [str_item.source, List.length_cons, List.length_nil] at hle hpos
      rw [scan_string_loop_unicode k n (by omega) h1 h2, ih (p + 6) rfl]
      simp [str_item.source]; omega

/-- One round of the loop of `parse_string_text` on a byte that is neither `"` nor
`\`: the byte is copied. -/
theorem parse_string_loop_byte {buf : List Nat} {p : Nat} (k : Nat) (out : List Nat)
    (h1 : rd buf p ≠ 34) (h2 : rd buf p ≠ 92) :
    parse_string_loop (k + 1) buf p out = parse_string_loop k buf (p + 1) (out ++ [rd buf p]) := by
  simp [parse_string_loop, h1, h2]

/-- One round of the loop of `parse_string_text` on `\` and the byte `c`. -/
theorem parse_string_loop_escape {buf : List Nat} {p : Nat} (k : Nat) (out : List Nat)
    (h1 : rd buf p = 92) :
    parse_string_loop (k + 1) buf p out = parse_string_loop k buf (p + 2)
      (out ++ [if rd buf (p + 1) = 110 then 10 else if rd buf (p + 1) = 116 then 9
        else rd buf (p + 1)]) := by
  simp [parse_string_loop, h1]

theorem parse_string_loop_items {buf : List Nat} : ∀ (items : List str_item)
    (fuel p : Nat) (out : List Nat), (∀ it ∈ items, it.valid) →
    At buf p (body_source items ++ [34]) → (body_stored items).length < fuel →
    parse_string_loop fuel buf p out =
      some (out ++ body_stored items, p + (body_source items).length)
  | [], fuel, p, out, _, hat, hf => by
    have h34 : rd buf p = 34 := hat.1
    obtain ⟨k, rfl⟩ : ∃ k, fuel = k + 1 := ⟨fuel - 1, by omega⟩
    simp [parse_string_loop, h34, body_stored, body_source]
  | it :: items, fuel, p, out, hv, hat, hf => by
    have hv' : ∀ x ∈ items, x.valid := fun x hx => hv x (List.mem_cons_of_mem _ hx)
    have hit := hv it (List.mem_cons_self _ _)
    simp only [body_source, List.append_assoc] at hat
    simp only [body_stored, List.length_append] at hf
    obtain ⟨hsrc, hrest⟩ := (at_append it.source (body_source items ++ [34]) p).mp hat
    have ih := fun k q o (hq : q = p + it.source.length)
        (hk : (body_stored items).length < k) =>
      parse_string_loop_items items k q o hv' (hq ▸ hrest) hk
    simp only [body_source, body_stored, List.length_append]
    cases it with
    | byte b =>
      have hb : rd buf p = b := hsrc.1
      simp only [str_item.stored, List.length_cons, List.length_nil] at hf
      obtain ⟨k, rfl⟩ : ∃ k, fuel = k + 1 := ⟨fuel - 1, by omega⟩
      rw [parse_string_loop_byte k out (by rw [hb]; exact hit.1) (by rw [hb]; exact hit.2),
        ih k (p + 1) _ rfl (by omega), hb]
      simp [str_item.source, str_item.stored]
      omega
    | tab =>
      have h1 : rd buf p = 92 := hsrc.1
      have h2 : rd buf (p + 1) = 116 := hsrc.2.1
      simp only [str_item.stored, List.length_cons, List.length_nil] at hf
      obtain ⟨k, rfl⟩ : ∃ k, fuel = k + 1 := ⟨fuel - 1, by omega⟩
      rw [parse_string_loop_escape k out h1, ih k (p + 2) _ rfl (by omega), h2]
      simp [str_item.source, str_item.stored]
      omega
    | newline =>
      have h1 : rd buf p = 92 := hsrc.1
      have h2 : rd buf (p + 1) = 110 := hsrc.2.1
      simp only [str_item.stored, List.length_cons, List.length_nil] at hf
      obtain ⟨k, rfl⟩ : ∃ k, fuel = k + 1 := ⟨fuel - 1, by omega⟩
      rw [parse_string_loop_escape k out h1, ih k (p + 2) _ rfl (by omega), h2]
      simp [str_item.source, str_item.stored]
      omega
    | unicode x1 x2 x3 x4 =>
      have h1 : rd buf p = 92 := hsrc.1
      have h2 : rd buf (p + 1) = 117 := hsrc.2.1
      have h3 : rd buf (p + 2) = x1 := hsrc.2.2.1
      have h4 : rd buf (p + 3) = x2 := hsrc.2.2.2.1
      have h5 : rd buf (p + 4) = x3 := hsrc.2.2.2.2.1
      have h6 : rd buf (p + 5) = x4 := hsrc.2.2.2.2.2.1
      obtain ⟨v1, v2, v3, v4⟩ := hit
      simp only [str_item.stored, List.length_cons, List.length_nil] at hf
      obtain ⟨k, rfl⟩ : ∃ k, fuel = k + 5 := ⟨fuel - 5, by omega⟩
      rw [parse_string_loop_escape (k + 4) out h1,
        parse_string_loop_byte (k + 3) _ (by rw [h3]; exact (isxdigit_plain v1).1)
          (by rw [h3]; exact (isxdigit_plain v1).2),
        parse_string_loop_byte (k + 2) _ (by rw [h4]; exact (isxdigit_plain v2).1)
          (by rw [h4]; exact (isxdigit_plain v2).2),
        parse_string_loop_byte (k + 1) _ (by rw [h5]; exact (isxdigit_plain v3).1)
          (by rw [h5]; exact (isxdigit_plain v3).2),
        parse_string_loop_byte k _ (by rw [h6]; exact (isxdigit_plain v4).1)
          (by rw [h6]; exact (isxdigit_plain v4).2),
        ih k (p + 6) _ rfl (by omega), h2, h3, h4, h5, h6]
      simp [str_item.source, str_item.stored]
      omega

end CJson

namespace CJson

/-! ## The two string functions on a whole literal -/

theorem at_self (t : List Nat) : At t 0 t := by
  have h := at_zero t []
  simpa using h

theorem literal_length (items : List str_item) :
    (literal items).length = (body_source items).length + 2 := by
  simp [literal, quoted]

theorem scan_string_literal {buf : List Nat} {e p : Nat} (out : Nat) {items : List str_item}
    (hv : ∀ it ∈ items, it.valid) (hat : At buf p (literal items))
    (hle : p + (literal items).length ≤ e) :
    scan_string buf e p out = (true, p + (literal items).length, out + (items.length + 1)) := by
  rw [literal_length] at hle ⊢
  have hbody : At buf (p + 1) (body_source items ++ [34]) := hat.2
  have h : scan_string_loop (e - p) buf e (p + 1) 0 =
      (true, p + 1 + (body_source items).length + 1, 0 + items.length) :=
    scan_string_loop_items items (e - p) (p + 1) 0 hv hbody (by omega) (by omega)
  simp only [scan_string, h]
  simp
  omega

theorem parse_string_text_literal {buf : List Nat} {p fuel : Nat} (a : json_arena_t)
    {items : List str_item} (hv : ∀ it ∈ items, it.valid) (hat : At buf p (literal items))
    (hf : (body_stored items).length < fuel) :
    parse_string_text fuel buf p a =
      some (a.strings, (body_stored items).length, body_stored items ++ [0],
        p + (literal items).length,
        { a with strings := a.strings + ((body_stored items).length + 1) }) := by
  rw [literal_length]
  have hbody : At buf (p + 1) (body_source items ++ [34]) := hat.2
  have h := parse_string_loop_items items fuel (p + 1) [] hv hbody hf
  simp only [parse_string_text, h]
  simp
  omega

theorem body_stored_length : ∀ (items : List str_item),
    (body_stored items).length = items.length + 4 * unicode_count items
  | [] => rfl
  | it :: items => by
    have ih := body_stored_length items
    cases it <;>
      simp [body_stored, unicode_count, str_item.stored, str_item.is_unicode, ih] <;> omega

/-- The loop of `parse_string_text` on `\uXXXX`: five rounds, which copy `u` and the
four digits. -/
theorem parse_string_loop_unicode {buf : List Nat} {p : Nat} (k : Nat) (out : List Nat)
    {x1 x2 x3 x4 : Nat} (hat : At buf p [92, 117, x1, x2, x3, x4])
    (hv : (str_item.unicode x1 x2 x3 x4).valid) :
    parse_string_loop (k + 5) buf p out =
      parse_string_loop k buf (p + 6) (out ++ [117, x1, x2, x3, x4]) := by
  have h1 : rd buf p = 92 := hat.1
  have h2 : rd buf (p + 1) = 117 := hat.2.1
  have h3 : rd buf (p + 2) = x1 := hat.2.2.1
  have h4 : rd buf (p + 3) = x2 := hat.2.2.2.1
  have h5 : rd buf (p + 4) = x3 := hat.2.2.2.2.1
  have h6 : rd buf (p + 5) = x4 := hat.2.2.2.2.2.1
  obtain ⟨v1, v2, v3, v4⟩ := hv
  rw [parse_string_loop_escape (k + 4) out h1,
    parse_string_loop_byte (k + 3) _ (by rw [h3]; exact (isxdigit_plain v1).1)
      (by rw [h3]; exact (isxdigit_plain v1).2),
    parse_string_loop_byte (k + 2) _ (by rw [h4]; exact (isxdigit_plain v2).1)
      (by rw [h4]; exact (isxdigit_plain v2).2),
    parse_string_loop_byte (k + 1) _ (by rw [h5]; exact (isxdigit_plain v3).1)
      (by rw [h5]; exact (isxdigit_plain v3).2),
    parse_string_loop_byte k _ (by rw [h6]; exact (isxdigit_plain v4).1)
      (by rw [h6]; exact (isxdigit_plain v4).2), h2, h3, h4, h5, h6]
  simp

/-- Pass 1 and pass 2 on an input that is one string literal. -/
theorem parse_json_literal (items : List str_item) (hv : ∀ it ∈ items, it.valid)
    (fuel : Nat) (eb : Option String) :
    parse_json (fuel + (body_stored items).length + 3) (literal items)
        (literal items).length eb true =
      some ⟨some (.string 0 0 (body_stored items).length (body_stored items ++ [0])), eb⟩ := by
  have hat : At (literal items) 0 (literal items) := by
    have h := at_of_append (literal items) [] []
    simpa using h
  have h0 : rd (literal items) 0 = 34 := hat.1
  have hlen := literal_length items
  have hs0 : skip_whitespace (literal items) (literal items).length 0 = 0 :=
    skip_whitespace_stop (Or.inr ⟨by rw [h0]; decide, by rw [h0]; decide⟩)
  have hscan : scan_string (literal items) (literal items).length 0 0 =
      (true, 0 + (literal items).length, 0 + (items.length + 1)) :=
    scan_string_literal 0 hv hat (by omega)
  have hv0 : value_head (literal items) (literal items).length 0 stats_zero =
      .ret ⟨true, 0 + (literal items).length, ⟨1, 0, 0 + (items.length + 1), 0, 0, none⟩⟩ := by
    simp only [value_head, hs0, h0]
    rw [if_neg (by omega)]
    simp [stats_zero, hscan]
  have hp := pass1_analyze_eq_some_iff.mpr (returns_of_ret hv0)
  have hfill : parse_string_text (fuel + (body_stored items).length + 2) (literal items) 0
      { nodes := 1, entries := 0, strings := 0, nodes_rem := 1 } = _ :=
    parse_string_text_literal _ hv hat (by omega)
  have h2 : pass2 (fuel + (body_stored items).length + 3) (literal items)
      (literal items).length ⟨1, 0, 0 + (items.length + 1), 0, 0, none⟩ =
      some (.string 0 0 (body_stored items).length (body_stored items ++ [0]),
        0 + (literal items).length,
        { nodes := 1, entries := 0, strings := 0 + ((body_stored items).length + 1),
          nodes_rem := 1 }) := by
    simp only [pass2, fill_node, hs0, h0, fill_scalar]
    simp [hfill]
  exact parse_json_of_passes eb hp rfl h2

end CJson

namespace CJson

/-- C12.  Let the input be a string literal whose body is made of bytes other than
`"` and `\` and of the escapes `\t` and `\n` (no `\uXXXX` escape), the length being
the length of the literal.  Then `parse_json` returns a String node in the root slot
whose bytes are the body with TAB for each `\t` and LF for each `\n`, followed by
one 0 byte, and whose `len` is the number of those bytes, one for each element of
the body. -/
theorem string_literal_is_decoded (items : List str_item) (hv : ∀ it ∈ items, it.valid)
    (hs : ∀ it ∈ items, it.is_unicode = false) (fuel : Nat) (eb : Option String) :
    parse_json (fuel + (body_stored items).length + 3) (literal items)
        (literal items).length eb true =
      some ⟨some (.string 0 0 (body_stored items).length (body_stored items ++ [0])), eb⟩ ∧
      (body_stored items).length = items.length := by
  refine ⟨parse_json_literal items hv fuel eb, ?_⟩
  have hz : unicode_count items = 0 := by
    induction items with
    | nil => rfl
    | cons it items ih =>
      simp only [unicode_count, hs it (List.mem_cons_self _ _)]
      simpa using ih (fun x hx => hv x (List.mem_cons_of_mem _ hx))
        (fun x hx => hs x (List.mem_cons_of_mem _ hx))
  rw [body_stored_length, hz]
  omega

/-- C12, witness: `"ab\tc"` gives the 4 bytes `a`, `b`, TAB, `c` with `len` 4. -/
theorem string_literal_is_decoded_witness :
    literal [.byte 97, .byte 98, .tab, .byte 99] = bytes "\"ab\\tc\"" ∧
      parse_json 7 (bytes "\"ab\\tc\"") 7 none true =
        some ⟨some (.string 0 0 4 [97, 98, 9, 99, 0]), none⟩ := by
  have h := (string_literal_is_decoded [.byte 97, .byte 98, .tab, .byte 99]
    (by simp [str_item.valid]) (by simp [str_item.is_unicode]) 0 none).1
  exact ⟨by decide, h⟩

end CJson

namespace CJson

/-- C13, the code at two failing inputs.  The string literal made of the eight
escapes `\"` `\\` `\/` `\b` `\f` `\n` `\r` `\t` is accepted, and the String node holds
the bytes 0x22, 0x5C, 0x2F, `b`, `f`, 0x0A, `r`, 0x09: the `switch` of
`parse_string_text` decodes `\n` and `\t` only and copies the letter of `\b`, `\f`
and `\r`.  In `{"\r":1}` the key is stored as the letter `r`. -/
theorem escapes_b_f_r_are_stored_as_letters :
    parse_json 20 (bytes "\"\\\"\\\\\\/\\b\\f\\n\\r\\t\"") 18 none true =
        some ⟨some (.string 0 0 8 [34, 92, 47, 98, 102, 10, 114, 9, 0]), none⟩ ∧
      parse_json 20 (bytes "\x7b\"\\r\":1\x7d") 8 none true =
        some ⟨some (.object 0 (some 0) 1 [.mk 0 0 1 [114, 0] (.number 1 [49])]), none⟩ := by
  exact ⟨eq_of_same_parse (by decide!), eq_of_same_parse (by decide!)⟩

end CJson

namespace CJson

/-- C15.  On `\u` inside the input the loop of `scan_string` moves the cursor six
bytes on and adds one to `len`; on `\uXXXX` the loop of `parse_string_text` appends
the letter `u` and the four digits to the bytes written and is six bytes further on.
So for every string literal made of plain bytes, `\t`, `\n` and `\uXXXX` escapes that
stands at offset `p` inside the input, `scan_string` accepts the literal and adds one
per element plus one for the terminator to the byte count, `parse_string_text` ends
at the same offset and writes the stored bytes and the terminator, and the bytes
written exceed the bytes counted by four for each `\uXXXX` escape. -/
theorem unicode_escape_counted_as_one_written_as_five (buf : List Nat) (e p out fuel : Nat)
    (a : json_arena_t) (items : List str_item) (hv : ∀ it ∈ items, it.valid)
    (hat : At buf p (literal items)) (hle : p + (literal items).length ≤ e) :
    (∀ k q n, q + 1 < e → At buf q [92, 117] →
        scan_string_loop (k + 1) buf e q n = scan_string_loop k buf e (q + 6) (n + 1)) ∧
      (∀ k q w x1 x2 x3 x4, At buf q [92, 117, x1, x2, x3, x4] →
        (str_item.unicode x1 x2 x3 x4).valid →
        parse_string_loop (k + 5) buf q w =
          parse_string_loop k buf (q + 6) (w ++ [117, x1, x2, x3, x4])) ∧
      scan_string buf e p out = (true, p + (literal items).length, out + (items.length + 1)) ∧
      parse_string_text (fuel + (body_stored items).length + 1) buf p a =
        some (a.strings, (body_stored items).length, body_stored items ++ [0],
          p + (literal items).length,
          { a with strings := a.strings + ((body_stored items).length + 1) }) ∧
      (body_stored items).length + 1 = items.length + 1 + 4 * unicode_count items := by
  refine ⟨?_, ?_, scan_string_literal out hv hat hle,
    parse_string_text_literal a hv hat (by omega), ?_⟩
  · intro k q n hq hq'
    exact scan_string_loop_unicode k n hq hq'.1 hq'.2.1
  · intro k q w x1 x2 x3 x4 hq hx
    exact parse_string_loop_unicode k w hq hx
  · rw [body_stored_length]
    omega

/-- C15, witness: `"a\u0041b"`.  `scan_string` counts 4 bytes (three elements and the
terminator), `parse_string_text` writes the 8 bytes `a`, `u`, `0`, `0`, `4`, `1`, `b`
and NUL; both end at offset 10. -/
theorem unicode_escape_counted_as_one_written_as_five_witness :
    literal [.byte 97, .unicode 48 48 52 49, .byte 98] = bytes "\"a\\u0041b\"" ∧
      scan_string (literal [.byte 97, .unicode 48 48 52 49, .byte 98]) 10 0 0 = (true, 10, 4) ∧
      parse_string_text 8 (literal [.byte 97, .unicode 48 48 52 49, .byte 98]) 0 ⟨1, 0, 0, 1⟩ =
        some (0, 7, [97, 117, 48, 48, 52, 49, 98, 0], 10, ⟨1, 0, 8, 1⟩) := by
  have h := unicode_escape_counted_as_one_written_as_five
    (literal [.byte 97, .unicode 48 48 52 49, .byte 98]) 10 0 0 0
    ⟨1, 0, 0, 1⟩ [.byte 97, .unicode 48 48 52 49, .byte 98]
    (by simp [str_item.valid, isxdigit, isdigit]) (at_self _) (by decide)
  exact ⟨by decide, h.2.2.1, h.2.2.2.1⟩

end CJson

namespace CJson

/-! ## More fuel does not change what the builder returns -/

theorem parse_string_loop_succ (buf : List Nat) : ∀ (fuel p : Nat) (out : List Nat)
    (r : List Nat × Nat), parse_string_loop fuel buf p out = some r →
      parse_string_loop (fuel + 1) buf p out = some r := by
  intro fuel
  induction fuel with
  | zero => intro p out r h; simp [parse_string_loop] at h
  | succ n ih =>
    intro p out r h
    rw [parse_string_loop] at h ⊢
    split_ifs at h ⊢
    · exact ih _ _ _ h
    · exact ih _ _ _ h
    · exact h

theorem parse_string_text_succ {buf : List Nat} {fuel cur : Nat} {a : json_arena_t}
    {r : Nat × Nat × List Nat × Nat × json_arena_t}
    (h : parse_string_text fuel buf cur a = some r) :
    parse_string_text (fuel + 1) buf cur a = some r := by
  simp only [parse_string_text] at h ⊢
  cases hl : parse_string_loop fuel buf (cur + 1) [] with
  | none => simp [hl] at h
  | some x =>
    rw [parse_string_loop_succ buf _ _ _ _ hl]
    simpa [hl] using h

theorem count_keys_succ (buf : List Nat) : ∀ (fuel saved count n : Nat),
    count_keys fuel buf saved count = some n → count_keys (fuel + 1) buf saved count = some n := by
  intro fuel
  induction fuel with
  | zero => intro saved count n h; simp [count_keys] at h
  | succ k ih =>
    intro saved count n h
    rw [count_keys] at h ⊢
    split_ifs at h ⊢
    all_goals first | exact h | exact ih _ _ _ h

theorem object_count_succ {buf : List Nat} {fuel e cur n : Nat}
    (h : object_count fuel buf e cur = some n) : object_count (fuel + 1) buf e cur = some n := by
  simp only [object_count] at h ⊢
  split_ifs at h ⊢
  · exact count_keys_succ buf _ _ _ _ h
  · exact h

theorem fill_scalar_succ {buf : List Nat} {fuel node cur : Nat} {a : json_arena_t}
    {r : json_value_t × Nat × json_arena_t} (h : fill_scalar fuel buf node cur a = some r) :
    fill_scalar (fuel + 1) buf node cur a = some r := by
  simp only [fill_scalar] at h ⊢
  split_ifs at h ⊢
  · cases hp : parse_string_text fuel buf cur a with
    | none => simp [hp] at h
    | some x =>
      rw [parse_string_text_succ hp]
      simpa [hp] using h
  all_goals exact h

theorem fill_fuel_succ (buf : List Nat) (e : Nat) : ∀ fuel,
    (∀ node cur a r, fill_node fuel buf e node cur a = some r →
      fill_node (fuel + 1) buf e node cur a = some r) ∧
    (∀ entries i count cur a r, fill_entries fuel buf e entries i count cur a = some r →
      fill_entries (fuel + 1) buf e entries i count cur a = some r) ∧
    (∀ items i count cur a r, fill_items fuel buf e items i count cur a = some r →
      fill_items (fuel + 1) buf e items i count cur a = some r) := by
  intro fuel
  induction fuel with
  | zero => simp [fill_node, fill_entries, fill_items]
  | succ n ih =>
    obtain ⟨ihn, ihe, ihi⟩ := ih
    refine ⟨?_, ?_, ?_⟩
    · intro node cur a r h
      rw [fill_node] at h ⊢
      split_ifs at h ⊢
      · cases hc : object_count n buf e (skip_whitespace buf e cur) with
        | none => simp [hc] at h
        | some count =>
          rw [object_count_succ hc]
          simp only [hc] at h ⊢
          cases hf : fill_entries n buf e a.entries 0 count (skip_whitespace buf e cur + 1)
              { a with entries := a.entries + count } with
          | none => simp [hf] at h
          | some x =>
            rw [ihe _ _ _ _ _ _ hf]
            simpa [hf] using h
      · cases hf : fill_items n buf e a.nodes 0 (array_count buf e (skip_whitespace buf e cur))
            (skip_whitespace buf e cur + 1)
            { a with nodes := a.nodes + array_count buf e (skip_whitespace buf e cur) } with
        | none => simp [hf] at h
        | some x =>
          rw [ihi _ _ _ _ _ _ hf]
          simpa [hf] using h
      · exact fill_scalar_succ h
    · intro entries i count cur a r h
      rw [fill_entries] at h ⊢
      split_ifs at h ⊢
      · cases hp : parse_string_text n buf (skip_whitespace buf e cur) a with
        | none => simp [hp] at h
        | some x =>
          obtain ⟨key, klen, kchars, cur1, a1⟩ := x
          rw [parse_string_text_succ hp]
          simp only [hp] at h ⊢
          cases hv : fill_node n buf e a1.nodes (skip_whitespace buf e cur1 + 1)
              { a1 with nodes := a1.nodes + 1 } with
          | none => simp [hv] at h
          | some y =>
            obtain ⟨v, cur2, a2⟩ := y
            rw [ihn _ _ _ _ hv]
            simp only [hv] at h ⊢
            cases hr : fill_entries n buf e entries (i + 1) count (skip_optional buf e cur2 44)
                a2 with
            | none => simp [hr] at h
            | some z =>
              rw [ihe _ _ _ _ _ _ hr]
              simpa [hr] using h
      · exact h
    · intro items i count cur a r h
      rw [fill_items] at h ⊢
      split_ifs at h ⊢
      · cases hv : fill_node n buf e (items + i) cur a with
        | none => simp [hv] at h
        | some y =>
          obtain ⟨v, cur1, a1⟩ := y
          rw [ihn _ _ _ _ hv]
          simp only [hv] at h ⊢
          cases hr : fill_items n buf e items (i + 1) count (skip_optional buf e cur1 44) a1 with
          | none => simp [hr] at h
          | some z =>
            rw [ihi _ _ _ _ _ _ hr]
            simpa [hr] using h
      · exact h

theorem fill_node_fuel_mono {buf : List Nat} {e : Nat} {f f' : Nat} (hle : f ≤ f')
    {node cur : Nat} {a : json_arena_t} {r : json_value_t × Nat × json_arena_t}
    (h : fill_node f buf e node cur a = some r) : fill_node f' buf e node cur a = some r := by
  induction hle with
  | refl => exact h
  | step _ ih => exact (fill_fuel_succ buf e _).1 _ _ _ _ ih

/-- Two runs of the builder that return, return the same. -/
theorem fill_node_unique {buf : List Nat} {e f f' node cur : Nat} {a : json_arena_t}
    {r r' : json_value_t × Nat × json_arena_t} (h : fill_node f buf e node cur a = some r)
    (h' : fill_node f' buf e node cur a = some r') : r = r' := by
  rcases Nat.le_total f f' with hle | hle
  · have := fill_node_fuel_mono hle h
    rw [this] at h'
    exact Option.some.inj h'
  · have := fill_node_fuel_mono hle h'
    rw [this] at h
    exact (Option.some.inj h).symm

end CJson

namespace CJson

/-- C14, the code at a failing input.  The 13 bytes `{"a":",:"} ""` are accepted by
`pass1_analyze` with 2 nodes, 1 entry and 5 string bytes.  The lookahead of
`fill_node` takes the `,` and `:` inside the string for a second member, so the Object
gets `count` 2 and the loop of line 435 fills entry record 1 from the bytes after the
first value: its key is the text between the `}` and the next `"`, stored at string
offset 5.  The entry region has one record: whatever the sizes of the two structs,
record 1 starts at the byte where the string region starts, and that is where the key
`a` of record 0 was stored (string offset 0).  Line 438 stores into the first field of
record 1 the pointer to string offset 5, a value that changes with the address of the
block; with both sizes 24 it is the address of the block plus 77, whose lowest byte is
77 for a block at an address that ends in `00` and 93 for one that ends in `10`.  So the
bytes that record 0 gives as its key are bytes of that address and not the same for
two blocks. -/
theorem stored_key_bytes_depend_on_block_address :
    (pass1_analyze (bytes "\x7b\"a\":\",:\"\x7d \"\"") 13 0 stats_zero).map
        (fun r => (r.ok, r.cursor, r.stats.nodes, r.stats.entries, r.stats.string_bytes)) =
      some (true, 10, 2, 1, 5) ∧
      parse_json 20 (bytes "\x7b\"a\":\",:\"\x7d \"\"") 13 none true =
        some ⟨some (.object 0 (some 0) 2
          [.mk 0 0 1 [97, 0] (.string 1 2 2 [44, 58, 0]),
           .mk 1 5 1 [32, 0] (.untouched 2)]), none⟩ ∧
      (∀ sn se, entry_offset sn se { stats_zero with nodes := 2, entries := 1, string_bytes := 5 }
          (0 + 1) =
        string_offset sn se { stats_zero with nodes := 2, entries := 1, string_bytes := 5 } 0) ∧
      string_offset 24 24 { stats_zero with nodes := 2, entries := 1, string_bytes := 5 } 5 = 77 ∧
      (∀ base1 base2, base1 ≠ base2 → block_address base1 77 ≠ block_address base2 77) ∧
      block_address 0 77 % 256 = 77 ∧ block_address 16 77 % 256 = 93 := by
  refine ⟨by decide!, eq_of_same_parse (by decide!), ?_, by decide, ?_, by decide, by decide⟩
  · intro sn se
    simp [entry_offset, string_offset, stats_zero]
  · intro base1 base2 h
    simp only [block_address]
    omega

end CJson

namespace CJson

/-- C16, the code at failing inputs, all accepted by `pass1_analyze`.  In `["a,b"]`
the array has one element and the lookahead counts 2, the comma inside the string
being taken for a separator; in `[1/*,*/]` it counts 2 because of the comma inside
the comment.  In `["]"]` the lookahead stops at offset 2, on the `]` inside the
string, and not on the closing bracket at offset 4.  In `{"a":",:"}` the object has
one key/value pair and the lookahead counts 2; in `{"a":"}"}` the lookahead stops at
offset 6, on the `}` inside the string, and not on the closing brace at offset 8. -/
theorem lookahead_reads_strings_and_comments_as_structure :
    ((pass1_analyze (bytes "[\"a,b\"]") 7 0 stats_zero).map
          (fun r => (r.ok, r.cursor, r.stats.nodes, r.stats.entries)) = some (true, 7, 2, 0) ∧
        array_count (bytes "[\"a,b\"]") 7 0 = 2) ∧
      ((pass1_analyze (bytes "[1/*,*/]") 8 0 stats_zero).map
          (fun r => (r.ok, r.cursor, r.stats.nodes, r.stats.entries)) = some (true, 8, 2, 0) ∧
        array_count (bytes "[1/*,*/]") 8 0 = 2) ∧
      ((pass1_analyze (bytes "[\"]\"]") 5 0 stats_zero).map
          (fun r => (r.ok, r.cursor, r.stats.nodes, r.stats.entries)) = some (true, 5, 2, 0) ∧
        array_lookahead_stop (bytes "[\"]\"]") 5 0 = 2) ∧
      ((pass1_analyze (bytes "\x7b\"a\":\",:\"\x7d") 10 0 stats_zero).map
          (fun r => (r.ok, r.cursor, r.stats.nodes, r.stats.entries)) = some (true, 10, 2, 1) ∧
        object_count 20 (bytes "\x7b\"a\":\",:\"\x7d") 10 0 = some 2) ∧
      ((pass1_analyze (bytes "\x7b\"a\":\"\x7d\"\x7d") 9 0 stats_zero).map
          (fun r => (r.ok, r.cursor, r.stats.nodes, r.stats.entries)) = some (true, 9, 2, 1) ∧
        object_lookahead_stop 20 (bytes "\x7b\"a\":\"\x7d\"\x7d") 9 0 = some 6) := by
  refine ⟨⟨?_, ?_⟩, ⟨?_, ?_⟩, ⟨?_, ?_⟩, ⟨?_, ?_⟩, ⟨?_, ?_⟩⟩ <;> decide!

end CJson

namespace CJson

/-! ## The number loop -/

/-- The number loop stops at the end of the maximal run of number bytes inside the
input. -/
theorem number_run_maximal (buf : List Nat) (e : Nat) : ∀ (fuel cur : Nat), e - cur ≤ fuel →
    cur ≤ number_run fuel buf e cur ∧ (cur ≤ e → number_run fuel buf e cur ≤ e) ∧
      (∀ i, cur ≤ i → i < number_run fuel buf e cur → is_number_char (rd buf i) = true) ∧
      (number_run fuel buf e cur < e →
        is_number_char (rd buf (number_run fuel buf e cur)) = false) := by
  intro fuel
  induction fuel with
  | zero =>
    intro cur hf
    simp only [number_run]
    exact ⟨Nat.le_refl _, fun h => h, fun i h1 h2 => by omega, fun h => by omega⟩
  | succ k ih =>
    intro cur hf
    rw [number_run]
    split_ifs with hc
    · obtain ⟨h1, h2, h3, h4⟩ := ih (cur + 1) (by omega)
      refine ⟨by omega, fun _ => h2 (by omega), ?_, h4⟩
      intro i hi1 hi2
      rcases Nat.eq_or_lt_of_le hi1 with rfl | hlt
      · exact hc.2
      · exact h3 i (by omega) hi2
    · refine ⟨Nat.le_refl _, fun h => h, fun i h1 h2 => by omega, fun h => ?_⟩
      cases hn : is_number_char (rd buf cur) with
      | false => rfl
      | true => exact absurd ⟨h, hn⟩ hc

theorem number_run_first {buf : List Nat} {e cur : Nat} (hp : cur < e)
    (hc : is_number_char (rd buf cur) = true) : cur < number_run (e - cur) buf e cur := by
  obtain ⟨k, hk⟩ : ∃ k, e - cur = k + 1 := ⟨e - cur - 1, by omega⟩
  rw [hk, number_run, if_pos ⟨hp, hc⟩]
  have := number_run_ge buf e k (cur + 1)
  omega

end CJson

namespace CJson

/-- C18.  Let `p` be the offset that white space and terminated comments lead to from
the start of the input, inside the input, and let the byte there be `-` or a decimal
digit.  Then `pass1_analyze` returns true, with one node, no entry and no string
byte counted, and with the cursor at `q`, the end of the maximal run of bytes among
the digits, `.`, `-`, `+`, `e`, `E` that starts at `p`: `p < q`, every byte from `p`
up to `q` is such a byte, and `q` is the end of the input or the byte at `q` is not
such a byte.  Nothing else about the run is checked. -/
theorem number_is_accepted_as_maximal_run (buf : List Nat) (e p : Nat)
    (hb : Blank buf e 0 p) (hp : p < e)
    (hc : rd buf p = 45 ∨ isdigit (rd buf p) = true) :
    ∃ q, pass1_analyze buf e 0 stats_zero = some ⟨true, q, ⟨1, 0, 0, 0, 0, none⟩⟩ ∧
      p < q ∧ q ≤ e ∧ (∀ i, p ≤ i → i < q → is_number_char (rd buf i) = true) ∧
      (q < e → is_number_char (rd buf q) = false) := by
  have hfacts : isspace (rd buf p) = false ∧ rd buf p ≠ 47 ∧ rd buf p ≠ 123 ∧ rd buf p ≠ 91 ∧
      rd buf p ≠ 34 ∧ (rd buf p = 45 ∨ (48 ≤ rd buf p ∧ rd buf p ≤ 57)) ∧
      is_number_char (rd buf p) = true := by
    rcases hc with h | h
    · rw [h]; decide
    · simp only [isdigit, Bool.and_eq_true, decide_eq_true_eq] at h
      refine ⟨?_, by omega, by omega, by omega, by omega, Or.inr h, ?_⟩
      · simp only [isspace, Bool.or_eq_false_iff, beq_eq_false_iff_ne, Bool.and_eq_false_iff,
          decide_eq_false_iff_not]
        omega
      · simp [is_number_char, isdigit, h.1, h.2]
  obtain ⟨h1, h2, h3, h4, h5, h6, h7⟩ := hfacts
  have hs : skip_whitespace buf e 0 = p := by
    rw [blank_skip hb]
    exact skip_whitespace_stop (Or.inr ⟨h1, h2⟩)
  obtain ⟨-, m2, m3, m4⟩ := number_run_maximal buf e (e - p) p (Nat.le_refl _)
  refine ⟨number_run (e - p) buf e p, ?_, number_run_first hp h7, m2 (by omega), m3, m4⟩
  apply pass1_analyze_eq_some_iff.mpr
  apply returns_of_ret
  simp only [value_head, hs]
  rw [if_neg (by omega), if_neg h3, if_neg h4, if_neg h5, if_pos h6]
  rfl

/-- C18, witness: ` /*c*/ -e+.5-x`.  The first byte after the white space and the
comment is `-` at offset 7, and the run `-e+.5-`, which is not a number, is accepted
with the cursor left at offset 13. -/
theorem number_is_accepted_as_maximal_run_witness :
    Blank (bytes " /*c*/ -e+.5-x") 14 0 7 ∧ rd (bytes " /*c*/ -e+.5-x") 7 = 45 ∧
      (∃ q, pass1_analyze (bytes " /*c*/ -e+.5-x") 14 0 stats_zero =
          some ⟨true, q, ⟨1, 0, 0, 0, 0, none⟩⟩ ∧
        7 < q ∧ q ≤ 14 ∧
        (∀ i, 7 ≤ i → i < q → is_number_char (rd (bytes " /*c*/ -e+.5-x") i) = true) ∧
        (q < 14 → is_number_char (rd (bytes " /*c*/ -e+.5-x") q) = false)) ∧
      pass1_analyze (bytes " /*c*/ -e+.5-x") 14 0 stats_zero =
        some ⟨true, 13, ⟨1, 0, 0, 0, 0, none⟩⟩ := by
  have hb : Blank (bytes " /*c*/ -e+.5-x") 14 0 7 :=
    gap_blank (Gap.space 32 _ (by decide) (Gap.block [99] _ (by simp [NoClose])
      (Gap.space 32 _ (by decide) Gap.nil))) 0 (at_zero (bytes " /*c*/ ") (bytes "-e+.5-x"))
      (by decide)
  exact ⟨hb, by decide,
    number_is_accepted_as_maximal_run (bytes " /*c*/ -e+.5-x") 14 7 hb (by decide)
      (Or.inl (by decide)), by decide!⟩

end CJson

namespace CJson

/-! ## Separator violations make the loop fail -/

/-- A call that finds `]` where a value should start returns `false`. -/
theorem value_fails_at_bracket {buf : List Nat} {e cur : Nat} (st : scan_status_t)
    (h : rd buf (skip_whitespace buf e cur) = 93) : (frame.value cur st).Fails buf e := by
  intro r hr
  have hv : ∃ r0, value_head buf e cur st = .ret r0 ∧ r0.ok = false := by
    simp only [value_head]
    split_ifs with h1 h2 h3 h4 h5 h6 h7 h8
    · exact ⟨_, rfl, rfl⟩
    · omega
    · omega
    · omega
    · omega
    · simp only [strncmp_eq, Bool.and_eq_true, beq_iff_eq] at h6; omega
    · simp only [strncmp_eq, Bool.and_eq_true, beq_iff_eq] at h7; omega
    · simp only [strncmp_eq, Bool.and_eq_true, beq_iff_eq] at h8; omega
    · exact ⟨_, rfl, rfl⟩
  obtain ⟨r0, h0, hok⟩ := hv
  rw [returns_inv_ret h0 hr]; exact hok

theorem skip_whitespace_at_comma {buf : List Nat} {e p : Nat} (h : rd buf p = 44) :
    skip_whitespace buf e p = p :=
  skip_whitespace_stop (Or.inr ⟨by rw [h]; decide, by rw [h]; decide⟩)

/-- The return value and the cursor of `scan_string` do not depend on the byte count
it starts with. -/
theorem scan_string_out (buf : List Nat) (e k out : Nat) :
    scan_string buf e k out =
      ((scan_string buf e k 0).1, (scan_string buf e k 0).2.1,
        if (scan_string buf e k 0).1 then out + (scan_string buf e k 0).2.2 else out) := by
  simp only [scan_string]
  rcases scan_string_loop (e - k) buf e (k + 1) 0 with ⟨b, c, n⟩
  cases b <;> simp

theorem array_fails_of_ret {buf : List Nat} {e : Nat} {first : Bool} {cur : Nat}
    {st : scan_status_t} {r0 : scan_result} (h : array_step buf e first cur st = .ret r0)
    (hok : r0.ok = false) : (frame.array first cur st).Fails buf e := by
  intro r hr
  rw [array_returns_inv_ret h hr]; exact hok

/-- The object loop fails when the key that is due is not a string literal followed
by `:`. -/
theorem object_fails_of_key {buf : List Nat} {e : Nat} {fr : frame} {k : Nat}
    (hk : KeyAt buf e fr k)
    (hbad : rd buf k ≠ 34 ∨ (scan_string buf e k 0).1 = false ∨
      rd buf (skip_whitespace buf e (scan_string buf e k 0).2.1) ≠ 58) :
    fr.Fails buf e := by
  have key : ∀ (first : Bool) (cur : Nat) (st : scan_status_t),
      skip_whitespace buf e cur < e → rd buf (skip_whitespace buf e cur) ≠ 125 →
      (first = true ∨ rd buf (skip_whitespace buf e cur) = 44) →
      k = (if first then skip_whitespace buf e cur
        else skip_whitespace buf e (skip_whitespace buf e cur + 1)) →
      (frame.object first cur st).Fails buf e := by
    intro first cur st hc h125 hsep hk'
    refine object_fails_of_step (Or.inl ?_)
    simp only [object_step]
    rw [if_neg (by omega), if_neg h125, if_neg (by rcases hsep with h | h <;> simp [h]), ← hk']
    by_cases h34 : rd buf k = 34
    · rw [if_neg (by simp [h34]), scan_string_out]
      cases hs : (scan_string buf e k 0).1 with
      | false => exact ⟨_, rfl, rfl⟩
      | true =>
        have h58 : rd buf (skip_whitespace buf e (scan_string buf e k 0).2.1) ≠ 58 := by
          rcases hbad with h | h | h
          · exact absurd h34 h
          · rw [hs] at h; cases h
          · exact h
        simp only [if_true]
        rw [if_pos h58]
        exact ⟨_, rfl, rfl⟩
    · rw [if_pos h34]
      exact ⟨_, rfl, rfl⟩
  cases hk with
  | first hc h125 => exact key true _ _ hc h125 (Or.inl rfl) rfl
  | next hc h44 => exact key false _ _ hc (by omega) (Or.inr h44) rfl

theorem fails_of_violation {buf : List Nat} {e : Nat} {fr : frame}
    (h : SeparatorViolation buf e fr) : fr.Fails buf e := by
  cases h with
  | @array_leading_comma cur st hc h44 =>
    have hs : array_step buf e true cur st = .value (skip_whitespace buf e cur) st := by
      simp only [array_step]
      rw [if_neg (by omega), if_neg (by omega), if_neg (by simp)]
      rfl
    exact fails_of_step (Step.array_value hs)
      (value_fails_at_closer st (Or.inr (by rw [skip_whitespace_at_comma h44]; exact h44)))
  | @array_trailing_comma cur st hc h44 h93 =>
    have hs : array_step buf e false cur st = .value (skip_whitespace buf e cur + 1) st := by
      simp only [array_step]
      rw [if_neg (by omega), if_neg (by omega), if_neg (by simp [h44])]
      rfl
    exact fails_of_step (Step.array_value hs) (value_fails_at_bracket st h93)
  | @array_double_comma cur st hc h44 h44' =>
    have hs : array_step buf e false cur st = .value (skip_whitespace buf e cur + 1) st := by
      simp only [array_step]
      rw [if_neg (by omega), if_neg (by omega), if_neg (by simp [h44])]
      rfl
    exact fails_of_step (Step.array_value hs) (value_fails_at_closer st (Or.inr h44'))
  | @array_missing_comma cur st hc h44 h93 =>
    have hs : array_step buf e false cur st = .ret ⟨false, skip_whitespace buf e cur, st⟩ := by
      simp only [array_step]
      rw [if_neg (by omega), if_neg h93, if_pos ⟨trivial, h44⟩]
    exact array_fails_of_ret hs rfl
  | @object_leading_comma cur st hc h44 =>
    exact object_fails_of_key (KeyAt.first hc (by omega)) (Or.inl (by omega))
  | @object_trailing_comma cur st hc h44 h125 =>
    exact object_fails_of_key (KeyAt.next hc h44) (Or.inl (by omega))
  | @object_double_comma cur st hc h44 h44' =>
    exact object_fails_of_key (KeyAt.next hc h44) (Or.inl (by omega))
  | @object_missing_comma cur st hc h44 h125 =>
    refine object_fails_of_step (Or.inl ⟨⟨false, skip_whitespace buf e cur, st⟩, ?_, rfl⟩)
    simp only [object_step]
    rw [if_neg (by omega), if_neg h125, if_pos ⟨trivial, h44⟩]
  | key_not_string hk h => exact object_fails_of_key hk (Or.inl h)
  | key_unterminated hk _ h => exact object_fails_of_key hk (Or.inr (Or.inl h))
  | key_without_colon hk _ _ h => exact object_fails_of_key hk (Or.inr (Or.inr h))

end CJson

namespace CJson

/-- C19.  Whenever the walk of `pass1_analyze` over the input gets to a loop head of
an array or object at which the input breaks the separator rules (a comma right
after the opening bracket, a comma right before the closing bracket, two commas in a
row, an accepted member followed by something other than a comma or the closing
bracket, or a member whose key is not a string literal followed by `:`),
`pass1_analyze` rejects the input and `parse_json` returns `NULL`. -/
theorem separator_violation_is_rejected (buf : List Nat) (len : Nat) (fr : frame)
    (hreach : Reaches buf len (.value 0 stats_zero) fr)
    (hbad : SeparatorViolation buf len fr) :
    (∃ r, pass1_analyze buf len 0 stats_zero = some r ∧ r.ok = false) ∧
      ∀ (fuel : Nat) (eb : Option String),
        ∃ out, parse_json fuel buf len eb true = some out ∧ out.root = none :=
  rejected_of_fails (fails_of_reaches hreach (fails_of_violation hbad))

/-- C19, witness: the inputs `[,1]`, `[1,]`, `{"a":1,}`, `[1,,2]`, `[1 2]`, `{a:1}` and
`{"a" 1}` are rejected. -/
theorem separator_violation_is_rejected_witness :
    (∃ r, pass1_analyze (bytes "[,1]") 4 0 stats_zero = some r ∧ r.ok = false) ∧
      (∃ r, pass1_analyze (bytes "[1,]") 4 0 stats_zero = some r ∧ r.ok = false) ∧
      (∃ r, pass1_analyze (bytes "\x7b\"a\":1,\x7d") 8 0 stats_zero = some r ∧ r.ok = false) ∧
      (∃ r, pass1_analyze (bytes "[1,,2]") 6 0 stats_zero = some r ∧ r.ok = false) ∧
      (∃ r, pass1_analyze (bytes "[1 2]") 5 0 stats_zero = some r ∧ r.ok = false) ∧
      (∃ r, pass1_analyze (bytes "\x7ba:1\x7d") 5 0 stats_zero = some r ∧ r.ok = false) ∧
      (∃ r, pass1_analyze (bytes "\x7b\"a\" 1\x7d") 7 0 stats_zero = some r ∧ r.ok = false) := by
  have after_one : ∀ (buf : List Nat) (len : Nat),
      value_head buf len 0 stats_zero = .array 1 ⟨1, 0, 0, 0, 0, none⟩ →
      array_step buf len true 1 ⟨1, 0, 0, 0, 0, none⟩ = .value 1 ⟨1, 0, 0, 0, 0, none⟩ →
      value_head buf len 1 ⟨1, 0, 0, 0, 0, none⟩ = .ret ⟨true, 2, ⟨2, 0, 0, 0, 0, none⟩⟩ →
      Reaches buf len (.value 0 stats_zero) (.array false 2 ⟨2, 0, 0, 0, 0, none⟩) :=
    fun buf len h1 h2 h3 =>
      Relation.ReflTransGen.tail (Relation.ReflTransGen.single (Step.enter_array h1))
        (Step.array_next h2 (returns_of_ret h3) rfl)
  refine ⟨?_, ?_, ?_, ?_, ?_, ?_, ?_⟩
  · exact (separator_violation_is_rejected (bytes "[,1]") 4 (.array true 1 ⟨1, 0, 0, 0, 0, none⟩)
      (Relation.ReflTransGen.single (Step.enter_array (by decide!)))
      (SeparatorViolation.array_leading_comma (by decide!) (by decide!))).1
  · exact (separator_violation_is_rejected (bytes "[1,]") 4 _
      (after_one _ _ (by decide!) (by decide!) (by decide!))
      (SeparatorViolation.array_trailing_comma (by decide!) (by decide!) (by decide!))).1
  · exact (separator_violation_is_rejected (bytes "\x7b\"a\":1,\x7d") 8
      (.object false 6 ⟨2, 1, 2, 0, 0, none⟩)
      (Relation.ReflTransGen.tail (Relation.ReflTransGen.single (Step.enter_object
          (show value_head (bytes "\x7b\"a\":1,\x7d") 8 0 stats_zero =
            .object 1 ⟨1, 0, 0, 0, 0, none⟩ by decide!)))
        (Step.object_next
          (show object_step (bytes "\x7b\"a\":1,\x7d") 8 true 1 ⟨1, 0, 0, 0, 0, none⟩ =
            .value 5 ⟨1, 1, 2, 0, 0, none⟩ by decide!)
          (returns_of_ret
            (show value_head (bytes "\x7b\"a\":1,\x7d") 8 5 ⟨1, 1, 2, 0, 0, none⟩ =
              .ret ⟨true, 6, ⟨2, 1, 2, 0, 0, none⟩⟩ by decide!)) rfl))
      (SeparatorViolation.object_trailing_comma (by decide!) (by decide!) (by decide!))).1
  · exact (separator_violation_is_rejected (bytes "[1,,2]") 6 _
      (after_one _ _ (by decide!) (by decide!) (by decide!))
      (SeparatorViolation.array_double_comma (by decide!) (by decide!) (by decide!))).1
  · exact (separator_violation_is_rejected (bytes "[1 2]") 5 _
      (after_one _ _ (by decide!) (by decide!) (by decide!))
      (SeparatorViolation.array_missing_comma (by decide!) (by decide!) (by decide!))).1
  · exact (separator_violation_is_rejected (bytes "\x7ba:1\x7d") 5
      (.object true 1 ⟨1, 0, 0, 0, 0, none⟩)
      (Relation.ReflTransGen.single (Step.enter_object (by decide!)))
      (SeparatorViolation.key_not_string
        (KeyAt.first (show skip_whitespace (bytes "\x7ba:1\x7d") 5 1 < 5 by decide!)
          (by decide!)) (by decide!))).1
  · exact (separator_violation_is_rejected (bytes "\x7b\"a\" 1\x7d") 7
      (.object true 1 ⟨1, 0, 0, 0, 0, none⟩)
      (Relation.ReflTransGen.single (Step.enter_object (by decide!)))
      (SeparatorViolation.key_without_colon
        (KeyAt.first (show skip_whitespace (bytes "\x7b\"a\" 1\x7d") 7 1 < 7 by decide!)
          (by decide!)) (by decide!) (by decide!) (by decide!))).1

end CJson

namespace CJson

/-! ## Entry records and value nodes of an Object -/

theorem follow_pairs : ∀ (ms : List json_entry_t) (n n' : Nat), values_follow n ms n' →
    ∀ i mi mj, ms[i]? = some mi → ms[i + 1]? = some mj →
      mj.value.slot = mi.value.slot + 1 + mi.value.descendants.length ∧
        (∀ d ∈ mi.value.descendants, mi.value.slot < d.slot ∧ d.slot < mj.value.slot) ∧
        (mj.value.slot = mi.value.slot + 1 ↔ mi.value.descendants = [])
  | [], _, _, _, i, mi, mj, h1, _ => by simp at h1
  | m :: ms, n, n', hf, i, mi, mj, h1, h2 => by
    obtain ⟨hs, hd, hrest⟩ := hf
    cases i with
    | zero =>
      simp only [List.getElem?_cons_zero, Option.some.injEq] at h1
      simp only [Nat.zero_add, List.getElem?_cons_succ] at h2
      subst h1
      cases ms with
      | nil => simp at h2
      | cons m2 ms2 =>
        simp only [List.getElem?_cons_zero, Option.some.injEq] at h2
        subst h2
        have hs2 : m2.value.slot = n + 1 + m.value.descendants.length := hrest.1
        refine ⟨by omega, fun d hd' => ?_, ?_⟩
        · have := hd d hd'
          omega
        · rw [hs2, hs]
          constructor
          · intro h
            exact List.length_eq_zero.mp (by omega)
          · intro h
            rw [h]
            rfl
    | succ k =>
      simp only [List.getElem?_cons_succ] at h1 h2
      exact follow_pairs ms _ n' hrest k mi mj h1 h2

theorem object_layout_scalar {v : json_value_t} (hd : v.descendants = [])
    (hl : object_layout v) : ∀ n ∈ v.nodes, object_layout n := by
  intro n hn
  simp only [json_value_t.nodes, hd, List.mem_singleton] at hn
  rw [hn]; exact hl

/-- The entry records that the loop of the object branch writes from index `i` on
sit in the entry slots `entries + i`, ..., `entries + count - 1`, and the value nodes
are taken from the node cursor one by one. -/
theorem fill_layout_idx (buf : List Nat) (e : Nat) : ∀ fuel entries i count cur a ms cur1 a1,
    fill_entries fuel buf e entries i count cur a = some (ms, cur1, a1) →
    ms.length = count - i ∧
      ms.map json_entry_t.index = List.range' (entries + i) (count - i) ∧
      values_follow a.nodes ms a1.nodes := by
  intro fuel
  induction fuel with
  | zero => simp [fill_entries]
  | succ k ihe =>
    intro entries i count cur a ms cur1 a1 h
    rw [fill_entries] at h
    split_ifs at h with hi
    · split at h
      · cases h
      · rename_i key klen kchars c1 a2 hstr
        split at h
        · cases h
        · rename_i v c2 a3 hv
          split at h
          · cases h
          · rename_i rest c4 a4 hrest
            cases h
            obtain ⟨hlen, hidx, hfol⟩ := ihe _ _ _ _ _ _ _ _ hrest
            obtain ⟨hs, hle1, hp1, -⟩ := (fill_slots_aux buf e k).1 _ _ _ _ _ _ hv
            have hn := (parse_string_text_nodes hstr).1
            simp only at hle1 hp1
            have hdl : v.descendants.length = a3.nodes - (a2.nodes + 1) := by
              have := hp1.length_eq
              simpa [slots_of] using this
            have hrc : (entries + i) :: List.range' (entries + (i + 1)) (count - (i + 1)) =
                List.range' (entries + i) (count - i) := by
              have := range_cons (entries + i) (count - i) (by omega)
              rw [← this]
              congr 2
            refine ⟨by simp only [List.length_cons, hlen]; omega, ?_, ?_, ?_, ?_⟩
            · simp only [List.map_cons, json_entry_t.index, hidx, hrc]
            · simp only [json_entry_t.value, hs, hn]
            · intro d hd
              simp only [json_entry_t.value] at hd ⊢
              have hmem : d.slot ∈ slots_of v.descendants := List.mem_map_of_mem _ hd
              have := (hp1.mem_iff).mp hmem
              simp only [List.mem_range'_1] at this
              omega
            · simp only [json_entry_t.value]
              have e1 : a.nodes + 1 + v.descendants.length = a3.nodes := by omega
              rw [e1]
              exact hfol
    · cases h
      have : count - i = 0 := by omega
      simp [values_follow, this]

theorem entries_from_mono {lo lo' : Nat} (h : lo' ≤ lo) {n : json_value_t}
    (hn : entries_from lo n) : entries_from lo' n := by
  cases n with
  | object s en c ms => exact fun m hm => Nat.le_trans h (hn m hm)
  | _ => trivial

theorem entries_from_scalar {lo : Nat} {v : json_value_t} (hd : v.descendants = [])
    (hl : entries_from lo v) : ∀ n ∈ v.nodes, entries_from lo n := by
  intro n hn
  simp only [json_value_t.nodes, hd, List.mem_singleton] at hn
  rw [hn]; exact hl

/-- The entry cursor only moves forward, and the entry records written by a call sit
at or after the place where the cursor was when the call began. -/
theorem fill_entries_from_aux (buf : List Nat) (e : Nat) : ∀ fuel,
    (∀ node cur a v cur1 a1, fill_node fuel buf e node cur a = some (v, cur1, a1) →
      a.entries ≤ a1.entries ∧ ∀ n ∈ v.nodes, entries_from a.entries n) ∧
    (∀ entries i count cur a ms cur1 a1,
      fill_entries fuel buf e entries i count cur a = some (ms, cur1, a1) →
      a.entries ≤ a1.entries ∧ ∀ n ∈ members_descendants ms, entries_from a.entries n) ∧
    (∀ items i count cur a xs cur1 a1,
      fill_items fuel buf e items i count cur a = some (xs, cur1, a1) →
      a.entries ≤ a1.entries ∧ ∀ n ∈ elems_descendants xs, entries_from a.entries n) := by
  intro fuel
  induction fuel with
  | zero => simp [fill_node, fill_entries, fill_items]
  | succ k ih =>
    obtain ⟨ihn, ihe, ihi⟩ := ih
    refine ⟨?_, ?_, ?_⟩
    · intro node cur a v cur1 a1 h
      rw [fill_node] at h
      split_ifs at h with h1 h2
      · split at h
        · cases h
        · rename_i count hcount
          split at h
          · cases h
          · rename_i ms c1 a2 hfill
            cases h
            obtain ⟨hle, hall⟩ := ihe _ _ _ _ _ _ _ _ hfill
            obtain ⟨-, hidx, -⟩ := (fill_layout_idx buf e k) _ _ _ _ _ _ _ _ hfill
            simp only at hle hall
            simp only [Nat.add_zero, Nat.sub_zero] at hidx
            refine ⟨by omega, ?_⟩
            intro n hn
            simp only [json_value_t.nodes, json_value_t.descendants, List.mem_cons] at hn
            rcases hn with rfl | hn
            · intro m hm
              have : m.index ∈ List.range' a.entries count := by
                rw [← hidx]; exact List.mem_map_of_mem _ hm
              simp only [List.mem_range'_1] at this
              omega
            · exact entries_from_mono (by omega) (hall n hn)
      · split at h
        · cases h
        · rename_i xs c1 a2 hfill
          cases h
          obtain ⟨hle, hall⟩ := ihi _ _ _ _ _ _ _ _ hfill
          simp only at hle hall
          refine ⟨hle, ?_⟩
          intro n hn
          simp only [json_value_t.nodes, json_value_t.descendants, List.mem_cons] at hn
          rcases hn with rfl | hn
          · trivial
          · exact hall n hn
      · unfold fill_scalar at h
        simp only at h
        split_ifs at h
        · split at h
          · cases h
          · rename_i val len chars c1 a2 hstr
            cases h
            have hn := (parse_string_text_nodes hstr).2
            exact ⟨by omega, entries_from_scalar rfl trivial⟩
        all_goals
          cases h
          exact ⟨Nat.le_refl _, entries_from_scalar rfl trivial⟩
    · intro entries i count cur a ms cur1 a1 h
      rw [fill_entries] at h
      split_ifs at h with hi
      · split at h
        · cases h
        · rename_i key klen kchars c1 a2 hstr
          split at h
          · cases h
          · rename_i v c2 a3 hv
            split at h
            · cases h
            · rename_i rest c4 a4 hrest
              cases h
              obtain ⟨hle1, hall1⟩ := ihn _ _ _ _ _ _ hv
              obtain ⟨hle2, hall2⟩ := ihe _ _ _ _ _ _ _ _ hrest
              have hn := (parse_string_text_nodes hstr).2
              simp only at hle1 hall1
              refine ⟨by omega, ?_⟩
              intro n hn'
              simp only [members_descendants, json_entry_t.descendants, List.cons_append,
                List.mem_cons, List.mem_append] at hn'
              rcases hn' with rfl | hn' | hn'
              · exact entries_from_mono (by omega) (hall1 _ (List.mem_cons_self _ _))
              · exact entries_from_mono (by omega) (hall1 _ (List.mem_cons_of_mem _ hn'))
              · exact entries_from_mono (by omega) (hall2 _ hn')
      · cases h
        exact ⟨Nat.le_refl _, by simp [members_descendants]⟩
    · intro items i count cur a xs cur1 a1 h
      rw [fill_items] at h
      split_ifs at h with hi
      · split at h
        · cases h
        · rename_i v c1 a2 hv
          split at h
          · cases h
          · rename_i rest c3 a3 hrest
            cases h
            obtain ⟨hle1, hall1⟩ := ihn _ _ _ _ _ _ hv
            obtain ⟨hle2, hall2⟩ := ihi _ _ _ _ _ _ _ _ hrest
            refine ⟨by omega, ?_⟩
            intro n hn'
            simp only [elems_descendants, List.cons_append, List.mem_cons,
              List.mem_append] at hn'
            rcases hn' with rfl | hn' | hn'
            · exact hall1 _ (List.mem_cons_self _ _)
            · exact hall1 _ (List.mem_cons_of_mem _ hn')
            · exact entries_from_mono (by omega) (hall2 _ hn')
      · cases h
        exact ⟨Nat.le_refl _, by simp [elems_descendants]⟩

theorem fill_layout_aux (buf : List Nat) (e : Nat) : ∀ fuel,
    (∀ node cur a v cur1 a1, fill_node fuel buf e node cur a = some (v, cur1, a1) →
      ∀ n ∈ v.nodes, object_layout n) ∧
    (∀ entries i count cur a ms cur1 a1,
      fill_entries fuel buf e entries i count cur a = some (ms, cur1, a1) →
      ∀ n ∈ members_descendants ms, object_layout n) ∧
    (∀ items i count cur a xs cur1 a1,
      fill_items fuel buf e items i count cur a = some (xs, cur1, a1) →
      ∀ n ∈ elems_descendants xs, object_layout n) := by
  intro fuel
  induction fuel with
  | zero => simp [fill_node, fill_entries, fill_items]
  | succ k ih =>
    obtain ⟨ihn, ihe, ihi⟩ := ih
    refine ⟨?_, ?_, ?_⟩
    · intro node cur a v cur1 a1 h
      rw [fill_node] at h
      split_ifs at h with h1 h2
      · split at h
        · cases h
        · rename_i count hcount
          split at h
          · cases h
          · rename_i ms c1 a2 hfill
            cases h
            have hall := ihe _ _ _ _ _ _ _ _ hfill
            obtain ⟨hlen, hidx, hfol⟩ := fill_layout_idx buf e k _ _ _ _ _ _ _ _ hfill
            obtain ⟨-, hfrom⟩ := (fill_entries_from_aux buf e k).2.1 _ _ _ _ _ _ _ _ hfill
            simp only [Nat.add_zero, Nat.sub_zero] at hlen hidx
            simp only at hfrom
            intro n hn
            simp only [json_value_t.nodes, json_value_t.descendants, List.mem_cons] at hn
            rcases hn with rfl | hn
            · exact ⟨hlen, fun hpos => ⟨a.entries, by simp [reserved, hpos], hidx, hfrom⟩,
                follow_pairs ms _ _ hfol⟩
            · exact hall n hn
      · split at h
        · cases h
        · rename_i xs c1 a2 hfill
          cases h
          have hall := ihi _ _ _ _ _ _ _ _ hfill
          intro n hn
          simp only [json_value_t.nodes, json_value_t.descendants, List.mem_cons] at hn
          rcases hn with rfl | hn
          · trivial
          · exact hall n hn
      · unfold fill_scalar at h
        simp only at h
        split_ifs at h
        · split at h
          · cases h
          · cases h
            exact object_layout_scalar rfl trivial
        all_goals
          cases h
          exact object_layout_scalar rfl trivial
    · intro entries i count cur a ms cur1 a1 h
      rw [fill_entries] at h
      split_ifs at h with hi
      · split at h
        · cases h
        · rename_i key klen kchars c1 a2 hstr
          split at h
          · cases h
          · rename_i v c2 a3 hv
            split at h
            · cases h
            · rename_i rest c4 a4 hrest
              cases h
              have hall1 := ihn _ _ _ _ _ _ hv
              have hall2 := ihe _ _ _ _ _ _ _ _ hrest
              intro n hn'
              simp only [members_descendants, json_entry_t.descendants, List.cons_append,
                List.mem_cons, List.mem_append] at hn'
              rcases hn' with rfl | hn' | hn'
              · exact hall1 _ (List.mem_cons_self _ _)
              · exact hall1 _ (List.mem_cons_of_mem _ hn')
              · exact hall2 _ hn'
      · cases h
        simp [members_descendants]
    · intro items i count cur a xs cur1 a1 h
      rw [fill_items] at h
      split_ifs at h with hi
      · split at h
        · cases h
        · rename_i v c1 a2 hv
          split at h
          · cases h
          · rename_i rest c3 a3 hrest
            cases h
            have hall1 := ihn _ _ _ _ _ _ hv
            have hall2 := ihi _ _ _ _ _ _ _ _ hrest
            intro n hn'
            simp only [elems_descendants, List.cons_append, List.mem_cons,
              List.mem_append] at hn'
            rcases hn' with rfl | hn' | hn'
            · exact hall1 _ (List.mem_cons_self _ _)
            · exact hall1 _ (List.mem_cons_of_mem _ hn')
            · exact hall2 _ hn'
      · cases h
        simp [elems_descendants]

end CJson

namespace CJson

/-- C17, the code at failing inputs.  The 13 bytes `{"a":",:"} ""` are accepted by
`pass1_analyze` with 2 nodes, 1 entry and 5 string bytes, so the entry region has one
record and the node region the slots 0 and 1.  The lookahead of `fill_node` takes the
`,` and `:` inside the string for a second member: the Object gets `count` 2 and
`entries` at record 0, and its second record is record 1, which is not a place of the
entry region: whatever the sizes of the two structs, it starts at the byte where the
string region starts, and with both sizes 24 it is the bytes 72-95 of a block of 77
bytes.  The value node of record 1 is node slot 2, which starts at the byte where
record 0 starts.  In the 35 bytes `[1/*,*/,"..."]` with the string body
`05 00 00 00 41 41 41 41`, eight NUL, `02`, seven NUL, the third element of the root
Array is node slot 3 of a node region of 3 slots, and its bytes, the 24 bytes of the
string body, read as a node of type 5 (`JSON_OBJECT`) with `count` 2 and `entries`
NULL.  On `{"a":[1,2],"b":3,"c":4}`, where pass 2 uses the 6 node slots and 3 records
that pass 1 counted, the records are 0, 1 and 2 and the value nodes are in slots 1, 4
and 5. -/
theorem entry_record_lies_in_string_region :
    ((pass1_analyze (bytes "\x7b\"a\":\",:\"\x7d \"\"") 13 0 stats_zero).map
          (fun r => (r.ok, r.stats.nodes, r.stats.entries, r.stats.string_bytes)) =
        some (true, 2, 1, 5) ∧
      parse_json 20 (bytes "\x7b\"a\":\",:\"\x7d \"\"") 13 none true =
        some ⟨some (.object 0 (some 0) 2
          [.mk 0 0 1 [97, 0] (.string 1 2 2 [44, 58, 0]),
           .mk 1 5 1 [32, 0] (.untouched 2)]), none⟩ ∧
      (∀ sn se,
        entry_offset sn se { stats_zero with nodes := 2, entries := 1, string_bytes := 5 }
            (0 + 1) =
          string_offset sn se { stats_zero with nodes := 2, entries := 1, string_bytes := 5 } 0 ∧
        node_offset sn 2 =
          entry_offset sn se { stats_zero with nodes := 2, entries := 1, string_bytes := 5 } 0) ∧
      entry_offset 24 24 { stats_zero with nodes := 2, entries := 1, string_bytes := 5 }
          (0 + 1) = 72 ∧
      total_size 24 24 { stats_zero with nodes := 2, entries := 1, string_bytes := 5 } = 77) ∧
      ((pass1_analyze (overrun_array_input 5) 35 0 stats_zero).map
          (fun r => (r.ok, r.stats.nodes, r.stats.entries, r.stats.string_bytes)) =
        some (true, 3, 0, 25) ∧
      parse_json 40 (overrun_array_input 5) 35 none true =
        some ⟨some (.array 0 (some 1) 3
          [.number 1 [49], .string 2 0 24 (node_image 5 ++ [0]), .untouched 3]), none⟩ ∧
      (∀ sn se, node_offset sn 3 =
          string_offset sn se { stats_zero with nodes := 3, string_bytes := 25 } 0) ∧
      read_node (node_image 5) = (5, 0, 2)) ∧
      ((pass1_analyze (bytes "\x7b\"a\":[1,2],\"b\":3,\"c\":4\x7d") 23 0 stats_zero).map
          (fun r => (r.ok, r.stats.nodes, r.stats.entries)) = some (true, 6, 3) ∧
        parse_json 20 (bytes "\x7b\"a\":[1,2],\"b\":3,\"c\":4\x7d") 23 none true =
          some ⟨some (.object 0 (some 0) 3
            [.mk 0 0 1 [97, 0] (.array 1 (some 2) 2 [.number 2 [49], .number 3 [50]]),
             .mk 1 2 1 [98, 0] (.number 4 [51]),
             .mk 2 4 1 [99, 0] (.number 5 [52])]), none⟩) := by
  refine ⟨⟨by decide!, eq_of_same_parse (by decide!), ?_, by decide, by decide⟩,
    ⟨by decide!, eq_of_same_parse (by decide!), ?_, by decide⟩,
    by decide!, eq_of_same_parse (by decide!)⟩
  · intro sn se
    simp [entry_offset, string_offset, node_offset, stats_zero]
  · intro sn se
    simp [node_offset, string_offset, stats_zero]

end CJson

namespace CJson

/-! ## The lookahead loops, byte by byte -/

theorem lt_length_of_rd_ne_zero {buf : List Nat} {i : Nat} (h : rd buf i ≠ 0) :
    i < buf.length := by
  by_contra hlt
  exact h (rd_of_length_le (Nat.le_of_not_lt hlt))

theorem depth_step_open {c : Nat} (d : Int) (h : c = 123 ∨ c = 91) : depth_step d c = d + 1 := by
  simp only [depth_step]
  rw [if_neg (by omega), if_pos h]

theorem depth_step_close {c : Nat} (d : Int) (h : c = 125 ∨ c = 93) : depth_step d c = d - 1 := by
  simp only [depth_step]
  rw [if_pos h, if_neg (by omega)]

theorem depth_step_flat {c : Nat} (d : Int) (h1 : c ≠ 123) (h2 : c ≠ 91) (h3 : c ≠ 125)
    (h4 : c ≠ 93) : depth_step d c = d := by
  simp only [depth_step]
  rw [if_neg (by omega), if_neg (by omega)]

/-- One round of the item-counting loop. -/
theorem items_scan_step {buf : List Nat} {saved : Nat} {d : Int} (count : Nat)
    (h0 : rd buf saved ≠ 0) (hc : 0 < d ∨ rd buf saved ≠ 93) :
    items_scan buf saved d count =
      items_scan buf (saved + 1) (depth_step d (rd buf saved))
        (if depth_step d (rd buf saved) = 0 ∧ rd buf saved = 44 then count + 1 else count) := by
  have hlt := lt_length_of_rd_ne_zero h0
  obtain ⟨k, hk⟩ : ∃ k, buf.length - saved = k + 1 := ⟨buf.length - saved - 1, by omega⟩
  have hk' : buf.length - (saved + 1) = k := by omega
  simp only [items_scan, hk, hk', count_items, depth_step]
  rw [if_pos ⟨h0, by simpa using hc⟩]

/-- The item-counting loop ends on NUL and, at depth 0, on `]`. -/
theorem items_scan_stop {buf : List Nat} {saved : Nat} {d : Int} (count : Nat)
    (h : rd buf saved = 0 ∨ (d ≤ 0 ∧ rd buf saved = 93)) :
    items_scan buf saved d count = count := by
  simp only [items_scan]
  cases hk : buf.length - saved with
  | zero => rfl
  | succ k =>
    rw [count_items]
    simp only
    rw [if_neg]
    rintro ⟨h0, hc⟩
    rcases h with h | ⟨hd, h93⟩
    · exact h0 h
    · rcases hc with hc | hc
      · omega
      · exact hc h93

/-- One round of the value-skipping loop. -/
theorem value_scan_step {buf : List Nat} {saved : Nat} {d : Int}
    (h0 : rd buf saved ≠ 0) (hc : 0 < d ∨ (rd buf saved ≠ 44 ∧ rd buf saved ≠ 125)) :
    value_scan buf saved d = value_scan buf (saved + 1) (depth_step d (rd buf saved)) := by
  have hlt := lt_length_of_rd_ne_zero h0
  obtain ⟨k, hk⟩ : ∃ k, buf.length - saved = k + 1 := ⟨buf.length - saved - 1, by omega⟩
  have hk' : buf.length - (saved + 1) = k := by omega
  simp only [value_scan, hk, hk', skip_member_value, depth_step]
  rw [if_pos ⟨h0, by simpa using hc⟩]

/-- The value-skipping loop ends on NUL and, at depth 0, on `,` and `}`. -/
theorem value_scan_stop {buf : List Nat} {saved : Nat} {d : Int}
    (h : rd buf saved = 0 ∨ (d ≤ 0 ∧ (rd buf saved = 44 ∨ rd buf saved = 125))) :
    value_scan buf saved d = saved := by
  simp only [value_scan]
  cases hk : buf.length - saved with
  | zero => rfl
  | succ k =>
    rw [skip_member_value]
    simp only
    rw [if_neg]
    rintro ⟨h0, hc⟩
    rcases h with h | ⟨hd, h'⟩
    · exact h0 h
    · rcases hc with hc | ⟨hc1, hc2⟩
      · omega
      · rcases h' with h' | h'
        · exact hc1 h'
        · exact hc2 h'

/-- One round of the colon-finding loop. -/
theorem colon_scan_step {buf : List Nat} {saved : Nat} (h0 : rd buf saved ≠ 0)
    (h58 : rd buf saved ≠ 58) : colon_scan buf saved = colon_scan buf (saved + 1) := by
  have hlt := lt_length_of_rd_ne_zero h0
  obtain ⟨k, hk⟩ : ∃ k, buf.length - saved = k + 1 := ⟨buf.length - saved - 1, by omega⟩
  have hk' : buf.length - (saved + 1) = k := by omega
  simp only [colon_scan, hk, hk', find_colon]
  rw [if_pos ⟨h58, h0⟩]

theorem colon_scan_stop {buf : List Nat} {saved : Nat} (h : rd buf saved = 58) :
    colon_scan buf saved = saved := by
  simp only [colon_scan]
  cases hk : buf.length - saved with
  | zero => rfl
  | succ k =>
    rw [find_colon, if_neg]
    rintro ⟨h58, -⟩
    exact h58 h

/-! ## Running through passable text -/

theorem depth_after_append : ∀ (s t : List Nat) (d : Int),
    depth_after d (s ++ t) = depth_after (depth_after d s) t
  | [], _, _ => rfl
  | c :: s, t, d => depth_after_append s t (depth_step d c)

theorem passable_append : ∀ (s t : List Nat) (d : Int),
    Passable d (s ++ t) ↔ Passable d s ∧ Passable (depth_after d s) t
  | [], t, d => by simp [Passable, depth_after]
  | c :: s, t, d => by
    have ih := passable_append s t (depth_step d c)
    show (c ≠ 0 ∧ (0 < d ∨ (c ≠ 44 ∧ c ≠ 93 ∧ c ≠ 125)) ∧ Passable (depth_step d c) (s ++ t)) ↔
      (c ≠ 0 ∧ (0 < d ∨ (c ≠ 44 ∧ c ≠ 93 ∧ c ≠ 125)) ∧ Passable (depth_step d c) s) ∧
        Passable (depth_after (depth_step d c) s) t
    rw [ih]
    tauto

theorem items_scan_passable {buf : List Nat} : ∀ (t : List Nat) (d : Int) (saved count : Nat),
    Passable d t → At buf saved t →
    items_scan buf saved d count = items_scan buf (saved + t.length) (depth_after d t) count
  | [], _, _, _, _, _ => rfl
  | c :: t, d, saved, count, hp, hat => by
    obtain ⟨h0, hc, hp'⟩ := hp
    have hr : rd buf saved = c := hat.1
    have hcount : ¬ (depth_step d c = 0 ∧ c = 44) := by
      rintro ⟨h1, h2⟩
      rw [depth_step_flat d (by omega) (by omega) (by omega) (by omega)] at h1
      omega
    rw [items_scan_step count (by rw [hr]; exact h0) (by rw [hr]; omega), hr, if_neg hcount,
      items_scan_passable t _ (saved + 1) count hp' hat.2]
    simp only [depth_after, List.length_cons]
    congr 1
    omega

theorem value_scan_passable {buf : List Nat} : ∀ (t : List Nat) (d : Int) (saved : Nat),
    Passable d t → At buf saved t →
    value_scan buf saved d = value_scan buf (saved + t.length) (depth_after d t)
  | [], _, _, _, _ => rfl
  | c :: t, d, saved, hp, hat => by
    obtain ⟨h0, hc, hp'⟩ := hp
    have hr : rd buf saved = c := hat.1
    rw [value_scan_step (by rw [hr]; exact h0) (by rw [hr]; omega), hr,
      value_scan_passable t _ (saved + 1) hp' hat.2]
    simp only [depth_after, List.length_cons]
    congr 1
    omega

theorem colon_scan_over {buf : List Nat} : ∀ (t : List Nat) (saved : Nat),
    (∀ b ∈ t, b ≠ 0 ∧ b ≠ 58) → At buf saved t → rd buf (saved + t.length) = 58 →
    colon_scan buf saved = saved + t.length
  | [], saved, _, _, h => by simpa using colon_scan_stop h
  | c :: t, saved, hb, hat, h => by
    have hr : rd buf saved = c := hat.1
    have hc := hb c (List.mem_cons_self _ _)
    simp only [List.length_cons] at h ⊢
    rw [colon_scan_step (by rw [hr]; exact hc.1) (by rw [hr]; exact hc.2),
      colon_scan_over t (saved + 1) (fun b hb' => hb b (List.mem_cons_of_mem _ hb')) hat.2
        (by rw [show saved + 1 + t.length = saved + (t.length + 1) by omega]; exact h)]
    omega

end CJson

namespace CJson

/-! ## Rendered values are passable -/

theorem through_nil (d : Int) : Through d [] := ⟨trivial, rfl⟩

theorem through_append {d : Int} {s t : List Nat} (hs : Through d s) (ht : Through d t) :
    Through d (s ++ t) := by
  refine ⟨(passable_append s t d).mpr ⟨hs.1, ?_⟩, ?_⟩
  · rw [hs.2]; exact ht.1
  · rw [depth_after_append, hs.2, ht.2]

theorem through_flat : ∀ (t : List Nat) (d : Int), Flat t → Through d t
  | [], d, _ => through_nil d
  | c :: t, d, h => by
    obtain ⟨h0, h1, h2, h3, h4, h5⟩ := h c (List.mem_cons_self _ _)
    have ih := through_flat t d (fun b hb => h b (List.mem_cons_of_mem _ hb))
    have hs : depth_step d c = d := depth_step_flat d h4 h2 h5 h3
    refine ⟨⟨h0, Or.inr ⟨h1, h3, h5⟩, ?_⟩, ?_⟩
    · rw [hs]; exact ih.1
    · show depth_after (depth_step d c) t = d
      rw [hs]; exact ih.2

theorem flat_ws {w : List Nat} (h : IsWs w) : Flat w := by
  intro b hb
  have := h b hb
  simp only [isspace, Bool.or_eq_true, beq_iff_eq, Bool.and_eq_true, decide_eq_true_eq] at this
  omega

theorem flat_digits {ds : List Nat} (h : ∀ d ∈ ds, isdigit d = true) : Flat ds := by
  intro b hb
  have := h b hb
  simp only [isdigit, Bool.and_eq_true, decide_eq_true_eq] at this
  omega

theorem flat_quoted {s : List Nat} (h : Benign s) : Flat (quoted s) := by
  intro b hb
  simp only [quoted, List.mem_cons, List.mem_append, List.mem_singleton, List.not_mem_nil,
    or_false] at hb
  rcases hb with rfl | hb | rfl
  · decide
  · have := h b hb
    omega
  · decide

theorem through_comma {d : Int} (h : 0 < d) : Through d [44] := by
  have hs : depth_step d 44 = d :=
    depth_step_flat d (by decide) (by decide) (by decide) (by decide)
  exact ⟨⟨by decide, Or.inl h, trivial⟩, hs⟩

/-- A pair of brackets around text that is passable one level deeper. -/
theorem through_brackets {d : Int} {o c : Nat} {body : List Nat} (hd : 0 ≤ d)
    (hoc : (o = 91 ∧ c = 93) ∨ (o = 123 ∧ c = 125)) (hb : Through (d + 1) body) :
    Through d (o :: (body ++ [c])) := by
  have ho : depth_step d o = d + 1 := depth_step_open d (by omega)
  have hc : depth_step (d + 1) c = d := by
    rw [depth_step_close (d + 1) (by omega)]
    omega
  have hclose : Passable (d + 1) [c] ∧ depth_after (d + 1) [c] = d :=
    ⟨⟨by omega, Or.inl (by omega), trivial⟩, hc⟩
  refine ⟨⟨by omega, Or.inr (by omega), ?_⟩, ?_⟩
  · rw [ho]
    refine (passable_append body [c] (d + 1)).mpr ⟨hb.1, ?_⟩
    rw [hb.2]; exact hclose.1
  · show depth_after (depth_step d o) (body ++ [c]) = d
    rw [ho, depth_after_append, hb.2]
    exact hclose.2

end CJson

namespace CJson

theorem through_lead {d : Int} (hd : 0 < d) (first : Bool) {w0 : List Nat} (hw0 : IsWs w0) :
    Through d (if first then [] else w0 ++ [44]) := by
  cases first with
  | true => exact through_nil d
  | false => exact through_append (through_flat w0 d (flat_ws hw0)) (through_comma hd)

mutual
/-- The text of a value whose strings are benign is passable at every depth. -/
theorem token_through : ∀ (v : Value) (tok : List Nat), Token v tok → v.benign →
    ∀ d : Int, 0 ≤ d → Through d tok
  | .null, tok, h, _, d, _ => by
    simp only [Token] at h
    subst h
    exact through_flat _ d (by unfold Flat; decide)
  | .bool true, tok, h, _, d, _ => by
    simp only [Token] at h
    subst h
    exact through_flat _ d (by unfold Flat; decide)
  | .bool false, tok, h, _, d, _ => by
    simp only [Token] at h
    subst h
    exact through_flat _ d (by unfold Flat; decide)
  | .number ds, tok, h, _, d, _ => by
    simp only [Token] at h
    obtain ⟨-, hdig, rfl⟩ := h
    exact through_flat _ d (flat_digits hdig)
  | .string s, tok, h, hb, d, _ => by
    simp only [Token] at h
    obtain ⟨-, rfl⟩ := h
    simp only [Value.benign] at hb
    exact through_flat _ d (flat_quoted hb)
  | .array xs, tok, h, hb, d, hd => by
    simp only [Token] at h
    obtain ⟨body, w, hbody, hw, rfl⟩ := h
    simp only [Value.benign] at hb
    have h1 := items_through xs true body hbody hb (d + 1) (by omega)
    have h2 := through_append h1 (through_flat w (d + 1) (flat_ws hw))
    have h3 := through_brackets hd (Or.inl ⟨rfl, rfl⟩) h2
    simpa [List.append_assoc] using h3
  | .object ms, tok, h, hb, d, hd => by
    simp only [Token] at h
    obtain ⟨body, w, hbody, hw, rfl⟩ := h
    simp only [Value.benign] at hb
    have h1 := members_through ms true body hbody hb (d + 1) (by omega)
    have h2 := through_append h1 (through_flat w (d + 1) (flat_ws hw))
    have h3 := through_brackets hd (Or.inr ⟨rfl, rfl⟩) h2
    simpa [List.append_assoc] using h3
/-- The text of the items of an array is passable at every depth above 0. -/
theorem items_through : ∀ (xs : List Value) (first : Bool) (t : List Nat), Items first xs t →
    items_benign xs → ∀ d : Int, 0 < d → Through d t
  | [], first, t, h, _, d, _ => by
    simp only [Items] at h
    subst h
    exact through_nil d
  | x :: xs, first, t, h, hb, d, hd => by
    simp only [Items] at h
    obtain ⟨w0, w, tok, rest, hw0, hw, ht, hrest, rfl⟩ := h
    simp only [items_benign] at hb
    exact through_append (through_lead hd first hw0)
      (through_append (through_flat w d (flat_ws hw))
        (through_append (token_through x tok ht hb.1 d (by omega))
          (items_through xs false rest hrest hb.2 d hd)))
/-- The text of the members of an object is passable at every depth above 0. -/
theorem members_through : ∀ (ms : List (List Nat × Value)) (first : Bool) (t : List Nat),
    Members first ms t → members_benign ms → ∀ d : Int, 0 < d → Through d t
  | [], first, t, h, _, d, _ => by
    simp only [Members] at h
    subst h
    exact through_nil d
  | (k, v) :: ms, first, t, h, hb, d, hd => by
    simp only [Members] at h
    obtain ⟨w0, w1, w2, w, tok, rest, hw0, hw1, hw2, hw, hk, ht, hrest, rfl⟩ := h
    simp only [members_benign] at hb
    have hcolon : Through d [58] := through_flat _ d (by unfold Flat; decide)
    have htail : Through d (58 :: (w ++ (tok ++ rest))) :=
      through_append hcolon
        (through_append (through_flat w d (flat_ws hw))
          (through_append (token_through v tok ht hb.2.1 d (by omega))
            (members_through ms false rest hrest hb.2.2 d hd)))
    exact through_append (through_lead hd first hw0)
      (through_append (through_flat w1 d (flat_ws hw1))
        (through_append (through_flat _ d (flat_quoted hb.1))
          (through_append (through_flat w2 d (flat_ws hw2)) htail)))
end

end CJson

namespace CJson

/-! ## The child-count lookahead on rendered containers -/

theorem items_scan_through {buf : List Nat} {t : List Nat} {d : Int} {saved : Nat} (count : Nat)
    (h : Through d t) (hat : At buf saved t) :
    items_scan buf saved d count = items_scan buf (saved + t.length) d count := by
  rw [items_scan_passable t d saved count h.1 hat, h.2]

theorem value_scan_through {buf : List Nat} {t : List Nat} {d : Int} {saved : Nat}
    (h : Through d t) (hat : At buf saved t) :
    value_scan buf saved d = value_scan buf (saved + t.length) d := by
  rw [value_scan_passable t d saved h.1 hat, h.2]

/-- At depth 0 the item-counting loop counts one for each item that follows after a
comma, and ends on the closing bracket. -/
theorem items_scan_top {buf : List Nat} : ∀ (xs : List Value) (rest : List Nat),
    Items false xs rest → items_benign xs → ∀ (p : Nat) (w : List Nat) (count : Nat),
    IsWs w → At buf p (rest ++ (w ++ [93])) → items_scan buf p 0 count = count + xs.length
  | [], rest, h, _, p, w, count, hw, hat => by
    simp only [Items] at h
    subst h
    obtain ⟨hat1, hat2⟩ := (at_append w [93] p).mp hat
    rw [items_scan_through count (through_flat w 0 (flat_ws hw)) hat1,
      items_scan_stop count (Or.inr ⟨Int.le_refl 0, hat2.1⟩)]
    rfl
  | x :: xs, rest, h, hb, p, w, count, hw, hat => by
    simp only [Items, Bool.false_eq_true, if_false] at h
    obtain ⟨w0, w1, tok, rest', hw0, hw1, ht, hrest, rfl⟩ := h
    simp only [items_benign] at hb
    simp only [List.append_assoc] at hat
    obtain ⟨hat0, hat1⟩ := (at_append w0 _ p).mp hat
    have h44 : rd buf (p + w0.length) = 44 := hat1.1
    have hat2 : At buf (p + w0.length + 1) (w1 ++ (tok ++ (rest' ++ (w ++ [93])))) := hat1.2
    obtain ⟨hat3, hat4⟩ := (at_append w1 _ _).mp hat2
    obtain ⟨hat5, hat6⟩ := (at_append tok _ _).mp hat4
    have hs : depth_step 0 44 = 0 :=
      depth_step_flat 0 (by decide) (by decide) (by decide) (by decide)
    rw [items_scan_through count (through_flat w0 0 (flat_ws hw0)) hat0,
      items_scan_step count (by rw [h44]; decide) (by rw [h44]; exact Or.inr (by decide)),
      h44, hs, if_pos ⟨rfl, rfl⟩,
      items_scan_through (count + 1) (through_flat w1 0 (flat_ws hw1)) hat3,
      items_scan_through (count + 1) (token_through x tok ht hb.1 0 (Int.le_refl 0)) hat5,
      items_scan_top xs rest' hrest hb.2 _ w (count + 1) hw hat6]
    simp only [List.length_cons]
    omega

/-- The lookahead of the array branch finds the number of items of a rendered
array. -/
theorem array_count_rendered {buf : List Nat} {e q : Nat} {xs : List Value}
    {body w : List Nat} (hbody : Items true xs body) (hb : items_benign xs) (hw : IsWs w)
    (hat : At buf q (91 :: (body ++ (w ++ [93]))))
    (hle : q + (91 :: (body ++ (w ++ [93]))).length ≤ e) :
    array_count buf e q = xs.length := by
  have hat1 : At buf (q + 1) (body ++ (w ++ [93])) := hat.2
  simp only [List.length_cons, List.length_append, List.length_nil] at hle
  cases xs with
  | nil =>
    simp only [Items] at hbody
    subst hbody
    obtain ⟨hs, hr⟩ := skip_whitespace_to e hw hat1 (by simp at hle ⊢; omega) (by decide)
      (by decide)
    simp [array_count, hs, hr]
  | cons x xs =>
    simp only [Items, if_true, List.nil_append] at hbody
    obtain ⟨w0, w1, tok, rest, -, hw1, ht, hrest, rfl⟩ := hbody
    simp only [items_benign] at hb
    simp only [List.append_assoc, List.length_append] at hat1 hle
    obtain ⟨hat2, hat3⟩ := (at_append w1 _ _).mp hat1
    obtain ⟨hat4, hat5⟩ := (at_append tok _ _).mp hat3
    obtain ⟨hts, -, h93, -⟩ := token_start e ht hat4 (by omega)
    have hs : skip_whitespace buf e (q + 1) = q + 1 + w1.length :=
      skip_whitespace_run w1 _ hw1 hat2 (by omega) hts
    simp only [array_count, hs]
    rw [if_pos h93]
    show items_scan buf (q + 1 + w1.length) 0 1 = (x :: xs).length
    rw [items_scan_through 1 (token_through x tok ht hb.1 0 (Int.le_refl 0)) hat4,
      items_scan_top xs rest hrest hb.2 _ w 1 hw hat5]
    simp only [List.length_cons]
    omega

theorem count_keys_unfold (fuel : Nat) (buf : List Nat) (saved count : Nat) :
    count_keys (fuel + 1) buf saved count =
      if rd buf (value_scan buf
          (if rd buf (colon_scan buf saved) ≠ 0 then colon_scan buf saved + 1
            else colon_scan buf saved) 0) = 125 then some count
      else count_keys fuel buf (value_scan buf
          (if rd buf (colon_scan buf saved) ≠ 0 then colon_scan buf saved + 1
            else colon_scan buf saved) 0 + 1) (count + 1) := rfl

theorem quoted_no_colon {k : List Nat} (h : Benign k) : ∀ b ∈ quoted k, b ≠ 0 ∧ b ≠ 58 := by
  intro b hb
  simp only [quoted, List.mem_cons, List.mem_append, List.mem_singleton, List.not_mem_nil,
    or_false] at hb
  rcases hb with rfl | hb | rfl
  · decide
  · have := h b hb
    omega
  · decide

theorem ws_no_colon {w : List Nat} (h : IsWs w) : ∀ b ∈ w, b ≠ 0 ∧ b ≠ 58 := by
  intro b hb
  have := h b hb
  simp only [isspace, Bool.or_eq_true, beq_iff_eq, Bool.and_eq_true, decide_eq_true_eq] at this
  omega

/-- The key-counting loop, entered before a member, counts one for each member that
follows the first one, and ends on the closing brace. -/
theorem count_keys_rendered {buf : List Nat} : ∀ (ms : List (List Nat × Value))
    (k : List Nat) (v : Value) (t : List Nat), Members true ((k, v) :: ms) t →
    members_benign ((k, v) :: ms) → ∀ (p : Nat) (w : List Nat) (fuel count : Nat),
    IsWs w → At buf p (t ++ (w ++ [125])) →
    count_keys (fuel + ms.length + 1) buf p count = some (count + ms.length) := by
  intro ms
  induction ms with
  | nil =>
    intro k v t h hb p wend fuel count hwend hat
    simp only [Members, if_true, List.nil_append] at h
    obtain ⟨w0, w1, w2, w, tok, rest, -, hw1, hw2, hw, hk, ht, hrest, rfl⟩ := h
    subst hrest
    simp only [members_benign] at hb
    simp only [List.append_assoc, List.cons_append, List.append_nil] at hat
    have hat' : At buf p ((w1 ++ (quoted k ++ w2)) ++ (58 :: (w ++ (tok ++ (wend ++ [125]))))) := by
      simpa [List.append_assoc] using hat
    obtain ⟨hkey, hcol⟩ := (at_append (w1 ++ (quoted k ++ w2)) _ p).mp hat'
    have h58 : rd buf (p + (w1 ++ (quoted k ++ w2)).length) = 58 := hcol.1
    have hcs : colon_scan buf p = p + (w1 ++ (quoted k ++ w2)).length := by
      refine colon_scan_over _ p ?_ hkey h58
      intro b hb'
      simp only [List.mem_append] at hb'
      rcases hb' with hb' | hb' | hb'
      · exact ws_no_colon hw1 b hb'
      · exact quoted_no_colon hb.1 b hb'
      · exact ws_no_colon hw2 b hb'
    have hval : At buf (p + (w1 ++ (quoted k ++ w2)).length + 1)
        ((w ++ tok) ++ (wend ++ [125])) := by
      have := hcol.2
      simpa [List.append_assoc] using this
    obtain ⟨hv1, hv2⟩ := (at_append (w ++ tok) _ _).mp hval
    obtain ⟨hv3, hv4⟩ := (at_append wend [125] _).mp hv2
    have hthr : Through 0 (w ++ tok) :=
      through_append (through_flat w 0 (flat_ws hw)) (token_through v tok ht hb.2.1 0 (Int.le_refl 0))
    have hvs : value_scan buf (p + (w1 ++ (quoted k ++ w2)).length + 1) 0 =
        p + (w1 ++ (quoted k ++ w2)).length + 1 + (w ++ tok).length + wend.length := by
      rw [value_scan_through hthr hv1,
        value_scan_through (through_flat wend 0 (flat_ws hwend)) hv3,
        value_scan_stop (Or.inr ⟨Int.le_refl 0, Or.inr hv4.1⟩)]
    simp only [List.length_nil, Nat.add_zero]
    rw [count_keys_unfold, hcs, h58, if_pos (show (58 : Nat) ≠ 0 by decide), hvs, if_pos hv4.1]
  | cons m ms ih =>
    intro k v t h hb p wend fuel count hwend hat
    obtain ⟨k', v'⟩ := m
    simp only [Members, if_true, List.nil_append] at h
    obtain ⟨w0, w1, w2, w, tok, rest, -, hw1, hw2, hw, hk, ht, hrest, rfl⟩ := h
    simp only [members_benign] at hb
    have hrest' := hrest
    simp only [Members, Bool.false_eq_true, if_false] at hrest'
    obtain ⟨u0, u1, u2, u, tok', rest', hu0, hu1, hu2, hu, hk', ht', hrest'', rfl⟩ := hrest'
    have hnext : Members true ((k', v') :: ms)
        (u1 ++ (quoted k' ++ (u2 ++ (58 :: (u ++ (tok' ++ rest')))))) := by
      simp only [Members, if_true, List.nil_append]
      exact ⟨[], u1, u2, u, tok', rest', fun _ h => absurd h (List.not_mem_nil _), hu1, hu2, hu,
        hk', ht', hrest'', rfl⟩
    have hat' : At buf p ((w1 ++ (quoted k ++ w2)) ++ (58 :: ((w ++ tok) ++ (u0 ++ (44 ::
        ((u1 ++ (quoted k' ++ (u2 ++ (58 :: (u ++ (tok' ++ rest')))))) ++ (wend ++ [125]))))))) := by
      simpa [List.append_assoc] using hat
    obtain ⟨hkey, hcol⟩ := (at_append (w1 ++ (quoted k ++ w2)) _ p).mp hat'
    have h58 : rd buf (p + (w1 ++ (quoted k ++ w2)).length) = 58 := hcol.1
    have hcs : colon_scan buf p = p + (w1 ++ (quoted k ++ w2)).length := by
      refine colon_scan_over _ p ?_ hkey h58
      intro b hb'
      simp only [List.mem_append] at hb'
      rcases hb' with hb' | hb' | hb'
      · exact ws_no_colon hw1 b hb'
      · exact quoted_no_colon hb.1 b hb'
      · exact ws_no_colon hw2 b hb'
    obtain ⟨hv1, hv2⟩ := (at_append (w ++ tok) _ _).mp hcol.2
    obtain ⟨hv3, hv4⟩ := (at_append u0 _ _).mp hv2
    have hthr : Through 0 (w ++ tok) :=
      through_append (through_flat w 0 (flat_ws hw)) (token_through v tok ht hb.2.1 0 (Int.le_refl 0))
    have hvs : value_scan buf (p + (w1 ++ (quoted k ++ w2)).length + 1) 0 =
        p + (w1 ++ (quoted k ++ w2)).length + 1 + (w ++ tok).length + u0.length := by
      rw [value_scan_through hthr hv1,
        value_scan_through (through_flat u0 0 (flat_ws hu0)) hv3,
        value_scan_stop (Or.inr ⟨Int.le_refl 0, Or.inl hv4.1⟩)]
    have hfuel : fuel + (ms.length + 1) + 1 = (fuel + ms.length + 1) + 1 := by omega
    simp only [List.length_cons]
    have hb' : members_benign ((k', v') :: ms) := by
      simp only [members_benign]
      exact hb.2.2
    rw [hfuel, count_keys_unfold, hcs, h58, if_pos (show (58 : Nat) ≠ 0 by decide), hvs,
      if_neg (by rw [hv4.1]; decide),
      ih k' v' _ hnext hb' _ wend fuel (count + 1) hwend hv4.2]
    congr 1
    omega

end CJson

namespace CJson

theorem object_count_mono {buf : List Nat} {e cur n f f' : Nat} (hle : f ≤ f')
    (h : object_count f buf e cur = some n) : object_count f' buf e cur = some n := by
  induction hle with
  | refl => exact h
  | step _ ih => exact object_count_succ ih

/-- The lookahead of the object branch finds the number of members of a rendered
object. -/
theorem object_count_rendered {buf : List Nat} {e q : Nat} {ms : List (List Nat × Value)}
    {body w : List Nat} (hbody : Members true ms body) (hb : members_benign ms) (hw : IsWs w)
    (hat : At buf q (123 :: (body ++ (w ++ [125]))))
    (hle : q + (123 :: (body ++ (w ++ [125]))).length ≤ e) (fuel : Nat) :
    object_count (fuel + ms.length) buf e q = some ms.length := by
  have hat1 : At buf (q + 1) (body ++ (w ++ [125])) := hat.2
  simp only [List.length_cons, List.length_append, List.length_nil] at hle
  cases ms with
  | nil =>
    simp only [Members] at hbody
    subst hbody
    obtain ⟨hs, hr⟩ := skip_whitespace_to e hw hat1 (by simp at hle ⊢; omega) (by decide)
      (by decide)
    simp [object_count, hs, hr]
  | cons m ms =>
    obtain ⟨k, v⟩ := m
    have hbody' := hbody
    simp only [Members, if_true, List.nil_append] at hbody'
    obtain ⟨w0, w1, w2, u, tok, rest, hw0, hw1, hw2, hu, hk, ht, hrest, rfl⟩ := hbody'
    simp only [List.append_assoc, List.length_append] at hat1 hle
    obtain ⟨hat2, hat3⟩ := (at_append w1 _ _).mp hat1
    have h34 : rd buf (q + 1 + w1.length) = 34 := hat3.1
    have hs : skip_whitespace buf e (q + 1) = q + 1 + w1.length :=
      skip_whitespace_run w1 _ hw1 hat2 (by simp [quoted] at hle; omega)
        (Or.inr (by rw [h34]; exact ⟨by decide, by decide⟩))
    have hnext : Members true ((k, v) :: ms)
        (quoted k ++ (w2 ++ (58 :: (u ++ (tok ++ rest))))) := by
      simp only [Members, if_true, List.nil_append]
      exact ⟨[], [], w2, u, tok, rest, fun _ h => absurd h (List.not_mem_nil _),
        fun _ h => absurd h (List.not_mem_nil _), hw2, hu, hk, ht, hrest, rfl⟩
    have hat4 : At buf (q + 1 + w1.length)
        ((quoted k ++ (w2 ++ (58 :: (u ++ (tok ++ rest))))) ++ (w ++ [125])) := by
      simpa [List.append_assoc] using hat3
    have hc := count_keys_rendered ms k v _ hnext hb (q + 1 + w1.length) w fuel 1 hw hat4
    simp only [object_count, hs]
    rw [if_pos (by rw [h34]; decide)]
    simp only [List.length_cons]
    rw [show fuel + (ms.length + 1) = fuel + ms.length + 1 by omega, hc]
    congr 1
    omega

/-! ## Scalars in pass 2 -/

theorem parse_string_loop_plain {buf : List Nat} : ∀ (s : List Nat) (fuel p : Nat)
    (out : List Nat), Plain s → At buf p (s ++ [34]) → s.length < fuel →
    parse_string_loop fuel buf p out = some (out ++ s, p + s.length)
  | [], fuel, p, out, _, hat, hf => by
    have h34 : rd buf p = 34 := hat.1
    obtain ⟨k, rfl⟩ : ∃ k, fuel = k + 1 := ⟨fuel - 1, by simp at hf; omega⟩
    simp [parse_string_loop, h34]
  | b :: s, fuel, p, out, hp, hat, hf => by
    have hb : rd buf p = b := hat.1
    have hpb := hp b (List.mem_cons_self _ _)
    simp only [List.length_cons] at hf ⊢
    obtain ⟨k, rfl⟩ : ∃ k, fuel = k + 1 := ⟨fuel - 1, by omega⟩
    rw [parse_string_loop_byte k out (by rw [hb]; exact hpb.1) (by rw [hb]; exact hpb.2), hb,
      parse_string_loop_plain s k (p + 1) _ (fun x hx => hp x (List.mem_cons_of_mem _ hx)) hat.2
        (by omega)]
    simp
    omega

theorem parse_string_text_plain {buf : List Nat} {s : List Nat} {p fuel : Nat}
    (a : json_arena_t) (hp : Plain s) (hat : At buf p (quoted s)) (hf : s.length < fuel) :
    parse_string_text fuel buf p a =
      some (a.strings, s.length, s ++ [0], p + (quoted s).length,
        { a with strings := a.strings + (s.length + 1) }) := by
  have hbody : At buf (p + 1) (s ++ [34]) := hat.2
  have h := parse_string_loop_plain s fuel (p + 1) [] hp hbody hf
  simp only [parse_string_text, h]
  simp [quoted]
  omega

theorem span_end_run {buf : List Nat} (f : Nat → Bool) : ∀ (ds : List Nat) (fuel cur : Nat),
    (∀ d ∈ ds, f d = true) → At buf cur ds → f (rd buf (cur + ds.length)) = false →
    ds.length ≤ fuel → span_end f fuel buf cur = cur + ds.length
  | [], fuel, cur, _, _, hstop, _ => by
    simp only [List.length_nil, Nat.add_zero] at hstop ⊢
    cases fuel with
    | zero => rfl
    | succ k => simp [span_end, hstop]
  | d :: ds, fuel, cur, hd, hat, hstop, hf => by
    have hr : rd buf cur = d := hat.1
    simp only [List.length_cons] at hstop hf ⊢
    obtain ⟨k, rfl⟩ : ∃ k, fuel = k + 1 := ⟨fuel - 1, by omega⟩
    rw [span_end, hr, if_pos (hd d (List.mem_cons_self _ _)),
      span_end_run f ds k (cur + 1) (fun x hx => hd x (List.mem_cons_of_mem _ hx)) hat.2
        (by rw [show cur + 1 + ds.length = cur + (ds.length + 1) by omega]; exact hstop)
        (by omega)]
    omega

theorem at_inside {buf : List Nat} : ∀ (t : List Nat) (p : Nat), (∀ b ∈ t, b ≠ 0) →
    At buf p t → t ≠ [] → p + t.length ≤ buf.length
  | [], _, _, _, hne => absurd rfl hne
  | b :: t, p, hb, hat, _ => by
    have hlt : p < buf.length :=
      lt_length_of_rd_ne_zero (by rw [hat.1]; exact hb b (List.mem_cons_self _ _))
    simp only [List.length_cons]
    cases t with
    | nil => simp only [List.length_nil]; omega
    | cons c t =>
      have h := at_inside (c :: t) (p + 1) (fun x hx => hb x (List.mem_cons_of_mem _ hx)) hat.2
        (List.cons_ne_nil _ _)
      simp only [List.length_cons] at h ⊢
      omega

end CJson

namespace CJson

/-! ## `strtod` on a run of digits -/

theorem number_stop_facts {c : Nat} (h : number_stop c = true) :
    isdigit c = false ∧ c ≠ 46 ∧ tolower c ≠ 101 ∧ tolower c ≠ 120 ∧
      is_number_char c = false := by
  simp only [number_stop, is_number_char, isdigit, Bool.not_eq_true', Bool.or_eq_false_iff,
    Bool.and_eq_false_iff, decide_eq_false_iff_not, beq_eq_false_iff_ne] at h
  simp only [isdigit, is_number_char, tolower, Bool.and_eq_false_iff, decide_eq_false_iff_not,
    Bool.or_eq_false_iff, beq_eq_false_iff_ne]
  refine ⟨by omega, by omega, ?_, ?_, by omega⟩
  · split_ifs <;> omega
  · split_ifs <;> omega

theorem digit_facts {d : Nat} (h : isdigit d = true) :
    isspace d = false ∧ d ≠ 43 ∧ d ≠ 45 ∧ tolower d = d ∧ 48 ≤ d ∧ d ≤ 57 := by
  simp only [isdigit, Bool.and_eq_true, decide_eq_true_eq] at h
  simp only [isspace, tolower, Bool.or_eq_false_iff, beq_eq_false_iff_ne, Bool.and_eq_false_iff,
    decide_eq_false_iff_not]
  refine ⟨by omega, by omega, by omega, ?_, h.1, h.2⟩
  rw [if_neg (by omega)]

theorem run_end_stay {buf : List Nat} {f : Nat → Bool} {q : Nat} (h : f (rd buf q) = false) :
    run_end f buf q = q := by
  simp only [run_end]
  cases buf.length - q with
  | zero => rfl
  | succ k => simp [span_end, h]

theorem strtod_end_digits {buf : List Nat} {q : Nat} {ds : List Nat} (hne : ds ≠ [])
    (hdig : ∀ d ∈ ds, isdigit d = true) (hat : At buf q ds)
    (hstop : number_stop (rd buf (q + ds.length)) = true) :
    strtod_end buf q = q + ds.length := by
  obtain ⟨s1, s2, s3, s4, -⟩ := number_stop_facts hstop
  have hin : q + ds.length ≤ buf.length :=
    at_inside ds q (fun b hb => by have := (digit_facts (hdig b hb)).2.2.2.2.1; omega) hat hne
  have hrun : run_end isdigit buf q = q + ds.length :=
    span_end_run isdigit ds _ q hdig hat s1 (by omega)
  cases ds with
  | nil => exact absurd rfl hne
  | cons d tl =>
    have hr : rd buf q = d := hat.1
    obtain ⟨d1, d2, d3, d4, d5, d6⟩ := digit_facts (hdig d (List.mem_cons_self _ _))
    have hnext : tolower (rd buf (q + 1)) ≠ 120 := by
      cases tl with
      | nil => simpa using s4
      | cons d' tl' =>
        have hr' : rd buf (q + 1) = d' := hat.2.1
        obtain ⟨-, -, -, e4, e5, e6⟩ :=
          digit_facts (hdig d' (List.mem_cons_of_mem _ (List.mem_cons_self _ _)))
        rw [hr', e4]
        omega
    have hsp : run_end isspace buf q = q := run_end_stay (by rw [hr]; exact d1)
    have hexp : exponent_end buf 101 (q + (d :: tl).length) = q + (d :: tl).length := by
      simp only [exponent_end]
      rw [if_neg s3]
    have hman : mantissa_end isdigit buf q = some (q + (d :: tl).length) := by
      simp only [mantissa_end, hrun]
      rw [if_neg s2, if_pos (by simp)]
    have n1 : (d == 105) = false := by simp; omega
    have n2 : (d == 110) = false := by simp; omega
    simp only [strtod_end, hsp, hr, if_neg (show ¬ (d = 43 ∨ d = 45) by omega), strncasecmp_eq,
      d4, n1, n2, Bool.false_and, Bool.false_eq_true, if_false]
    rw [if_neg (fun h => hnext h.2), hman]
    exact hexp

theorem slice_of_at {buf : List Nat} : ∀ (t : List Nat) (q : Nat), At buf q t →
    q + t.length ≤ buf.length → slice buf q (q + t.length) = t
  | [], q, _, _ => by simp [slice]
  | b :: t, q, hat, hle => by
    simp only [List.length_cons] at hle
    have hlt : q < buf.length := by omega
    have hb : buf[q] = b := by
      have h := hat.1
      simp only [rd, List.getD_eq_getElem?_getD, List.getElem?_eq_getElem hlt,
        Option.getD_some] at h
      exact h
    have ih := slice_of_at t (q + 1) hat.2 (by omega)
    simp only [slice, List.length_cons] at ih ⊢
    rw [show q + (t.length + 1) - q = t.length + 1 by omega, List.drop_eq_getElem_cons hlt,
      List.take_succ_cons, hb]
    rw [show q + 1 + t.length - (q + 1) = t.length by omega] at ih
    rw [ih]

/-! ## `fill_node` on scalars -/

theorem fill_node_skip {buf : List Nat} {e cur q : Nat} (fuel node : Nat) (a : json_arena_t)
    (h1 : skip_whitespace buf e cur = q) (h2 : skip_whitespace buf e q = q) :
    fill_node fuel buf e node cur a = fill_node fuel buf e node q a := by
  cases fuel with
  | zero => rfl
  | succ k => simp only [fill_node, h1, h2]

theorem fill_node_scalar {buf : List Nat} {e q : Nat} (fuel node : Nat) (a : json_arena_t)
    (hs : skip_whitespace buf e q = q) (h1 : rd buf q ≠ 123) (h2 : rd buf q ≠ 91) :
    fill_node (fuel + 1) buf e node q a = fill_scalar fuel buf node q a := by
  simp only [fill_node, hs]
  rw [if_neg h1, if_neg h2]

theorem fill_scalar_number {buf : List Nat} {q : Nat} {ds : List Nat} (fuel node : Nat)
    (a : json_arena_t) (hne : ds ≠ []) (hdig : ∀ d ∈ ds, isdigit d = true) (hat : At buf q ds)
    (hstop : number_stop (rd buf (q + ds.length)) = true) :
    fill_scalar fuel buf node q a = some (.number node ds, q + ds.length, a) := by
  have hend := strtod_end_digits hne hdig hat hstop
  have hin : q + ds.length ≤ buf.length :=
    at_inside ds q (fun b hb => by have := (digit_facts (hdig b hb)).2.2.2.2.1; omega) hat hne
  cases ds with
  | nil => exact absurd rfl hne
  | cons d tl =>
    have hr : rd buf q = d := hat.1
    have hd := hdig d (List.mem_cons_self _ _)
    obtain ⟨-, -, -, -, d5, d6⟩ := digit_facts hd
    simp only [fill_scalar, hr, hend]
    rw [if_neg (by omega), if_pos (Or.inl hd), slice_of_at _ q hat hin]

theorem fill_scalar_string {buf : List Nat} {q : Nat} {s : List Nat} (fuel node : Nat)
    (a : json_arena_t) (hp : Plain s) (hat : At buf q (quoted s)) (hf : s.length < fuel) :
    fill_scalar fuel buf node q a =
      some (.string node a.strings s.length (s ++ [0]), q + (quoted s).length,
        { a with strings := a.strings + (s.length + 1) }) := by
  have hr : rd buf q = 34 := hat.1
  simp only [fill_scalar, hr, parse_string_text_plain a hp hat hf]
  simp

theorem fill_scalar_literal {buf : List Nat} {q : Nat} (fuel node : Nat) (a : json_arena_t) :
    (At buf q [110, 117, 108, 108] →
      fill_scalar fuel buf node q a = some (.null node, q + 4, a)) ∧
    (At buf q [116, 114, 117, 101] →
      fill_scalar fuel buf node q a = some (.bool node 1, q + 4, a)) ∧
    (At buf q [102, 97, 108, 115, 101] →
      fill_scalar fuel buf node q a = some (.bool node 0, q + 5, a)) := by
  refine ⟨?_, ?_, ?_⟩ <;> intro hat
  · have hr : rd buf q = 110 := hat.1
    have h1 : strncmp_eq buf q [116, 114, 117, 101] = false := by simp [strncmp_eq, hr]
    have h2 : strncmp_eq buf q [102, 97, 108, 115, 101] = false := by simp [strncmp_eq, hr]
    simp [fill_scalar, hr, isdigit, h1, h2, strncmp_eq_of_at _ q hat]
  · have hr : rd buf q = 116 := hat.1
    simp [fill_scalar, hr, isdigit, strncmp_eq_of_at _ q hat]
  · have hr : rd buf q = 102 := hat.1
    have h1 : strncmp_eq buf q [116, 114, 117, 101] = false := by simp [strncmp_eq, hr]
    simp [fill_scalar, hr, isdigit, h1, strncmp_eq_of_at _ q hat]

end CJson

namespace CJson

/-! ## Helpers for pass 2 on rendered containers -/

theorem fill_items_fuel_mono {buf : List Nat} {e : Nat} {f f' : Nat} (hle : f ≤ f')
    {items i count cur : Nat} {a : json_arena_t}
    {r : List json_value_t × Nat × json_arena_t}
    (h : fill_items f buf e items i count cur a = some r) :
    fill_items f' buf e items i count cur a = some r := by
  induction hle with
  | refl => exact h
  | step _ ih => exact (fill_fuel_succ buf e _).2.2 _ _ _ _ _ _ ih

theorem fill_entries_fuel_mono {buf : List Nat} {e : Nat} {f f' : Nat} (hle : f ≤ f')
    {entries i count cur : Nat} {a : json_arena_t}
    {r : List json_entry_t × Nat × json_arena_t}
    (h : fill_entries f buf e entries i count cur a = some r) :
    fill_entries f' buf e entries i count cur a = some r := by
  induction hle with
  | refl => exact h
  | step _ ih => exact (fill_fuel_succ buf e _).2.1 _ _ _ _ _ _ ih

theorem parse_string_text_mono {buf : List Nat} {f f' cur : Nat} (hle : f ≤ f')
    {a : json_arena_t} {r : Nat × Nat × List Nat × Nat × json_arena_t}
    (h : parse_string_text f buf cur a = some r) : parse_string_text f' buf cur a = some r := by
  induction hle with
  | refl => exact h
  | step _ ih => exact parse_string_text_succ ih

theorem number_stop_ws {c : Nat} (h : isspace c = true) : number_stop c = true := by
  simp only [isspace, Bool.or_eq_true, beq_iff_eq, Bool.and_eq_true, decide_eq_true_eq] at h
  simp only [number_stop, is_number_char, isdigit, Bool.not_eq_true', Bool.or_eq_false_iff,
    Bool.and_eq_false_iff, decide_eq_false_iff_not, beq_eq_false_iff_ne]
  omega

/-- The byte at the start of white space that is followed by a stop byte is a stop
byte. -/
theorem number_stop_ws_then {buf : List Nat} {p c : Nat} {w tl : List Nat} (hw : IsWs w)
    (hc : number_stop c = true) (hat : At buf p (w ++ (c :: tl))) :
    number_stop (rd buf p) = true := by
  cases w with
  | nil =>
    have : rd buf p = c := hat.1
    rw [this]; exact hc
  | cons b w =>
    have : rd buf p = b := hat.1
    rw [this]; exact number_stop_ws (hw b (List.mem_cons_self _ _))

theorem stop_after_item {buf : List Nat} {p : Nat} {xs : List Value} {rest w : List Nat}
    (h : Items false xs rest) (hw : IsWs w) (hat : At buf p (rest ++ (w ++ [93]))) :
    number_stop (rd buf p) = true := by
  cases xs with
  | nil =>
    simp only [Items] at h
    subst h
    exact number_stop_ws_then hw (by decide) hat
  | cons x xs =>
    simp only [Items, Bool.false_eq_true, if_false] at h
    obtain ⟨w0, w1, tok, rest', hw0, -, -, -, rfl⟩ := h
    simp only [List.append_assoc] at hat
    exact number_stop_ws_then hw0 (by decide) hat

theorem stop_after_member {buf : List Nat} {p : Nat} {ms : List (List Nat × Value)}
    {rest w : List Nat} (h : Members false ms rest) (hw : IsWs w)
    (hat : At buf p (rest ++ (w ++ [125]))) : number_stop (rd buf p) = true := by
  cases ms with
  | nil =>
    simp only [Members] at h
    subst h
    exact number_stop_ws_then hw (by decide) hat
  | cons m ms =>
    obtain ⟨k, v⟩ := m
    simp only [Members, Bool.false_eq_true, if_false] at h
    obtain ⟨w0, w1, w2, u, tok, rest', hw0, -, -, -, -, -, -, rfl⟩ := h
    simp only [List.append_assoc] at hat
    exact number_stop_ws_then hw0 (by decide) hat

/-- `skip_optional` over white space and the byte it looks for. -/
theorem skip_optional_hit {buf : List Nat} (e : Nat) {p c : Nat} {w tl : List Nat}
    (hw : IsWs w) (hat : At buf p (w ++ (c :: tl))) (hle : p + w.length < e)
    (hc : isspace c = false) (hc' : c ≠ 47) : skip_optional buf e p c = p + w.length + 1 := by
  obtain ⟨hs, hr⟩ := skip_whitespace_to e hw hat hle hc hc'
  simp [skip_optional, hs, hr]

/-- `skip_optional` over white space and another byte than the one it looks for. -/
theorem skip_optional_miss {buf : List Nat} (e : Nat) {p c c' : Nat} {w tl : List Nat}
    (hw : IsWs w) (hat : At buf p (w ++ (c :: tl))) (hle : p + w.length < e)
    (hc : isspace c = false) (hc' : c ≠ 47) (hne : c ≠ c') :
    skip_optional buf e p c' = p + w.length := by
  obtain ⟨hs, hr⟩ := skip_whitespace_to e hw hat hle hc hc'
  simp [skip_optional, hs, hr, hne]

/-- Where the loops of the two container branches start after the text before an
item: at the item's white space, the comma being passed. -/
theorem loop_start {buf : List Nat} (e : Nat) {p : Nat} (first : Bool) {w0 tl : List Nat}
    (hw0 : IsWs w0) (hat : At buf p ((if first then [] else w0 ++ [44]) ++ tl))
    (hle : p + (if first then [] else w0 ++ [44]).length ≤ e) :
    (if first then p else skip_optional buf e p 44) =
      p + (if first then [] else w0 ++ [44]).length := by
  cases first with
  | true => simp
  | false =>
    simp only [Bool.false_eq_true, if_false, List.append_assoc, List.length_append,
      List.length_singleton] at hat hle ⊢
    have h := skip_optional_hit e hw0 hat (by omega) (by decide) (by decide)
    rw [h]
    omega

end CJson

namespace CJson

/-! ## Pass 2 on a rendered value -/

mutual
/-- On the text of a value with benign strings, standing at `q` inside the input and
followed by a byte that ends a number, `fill_node` builds the node that
`Value.layout` describes and stops right after the text. -/
theorem token_fills : ∀ (v : Value) (tok : List Nat), Token v tok → v.benign →
    ∀ (buf : List Nat) (e q node : Nat) (a : json_arena_t),
      At buf q tok → q + tok.length ≤ e → number_stop (rd buf (q + tok.length)) = true →
      ∃ fuel, fill_node fuel buf e node q a =
        some ((v.layout node a).1, q + tok.length, (v.layout node a).2)
  | .null, tok, h, _, buf, e, q, node, a, hat, hle, _ => by
    obtain ⟨hts, -⟩ := token_start e h hat hle
    simp only [Token] at h
    subst h
    have hr : rd buf q = 110 := hat.1
    refine ⟨1, ?_⟩
    rw [fill_node_scalar 0 node a (skip_whitespace_stop hts) (by omega) (by omega),
      (fill_scalar_literal 0 node a).1 hat]
    rfl
  | .bool true, tok, h, _, buf, e, q, node, a, hat, hle, _ => by
    obtain ⟨hts, -⟩ := token_start e h hat hle
    simp only [Token] at h
    subst h
    have hr : rd buf q = 116 := hat.1
    refine ⟨1, ?_⟩
    rw [fill_node_scalar 0 node a (skip_whitespace_stop hts) (by omega) (by omega),
      (fill_scalar_literal 0 node a).2.1 hat]
    rfl
  | .bool false, tok, h, _, buf, e, q, node, a, hat, hle, _ => by
    obtain ⟨hts, -⟩ := token_start e h hat hle
    simp only [Token] at h
    subst h
    have hr : rd buf q = 102 := hat.1
    refine ⟨1, ?_⟩
    rw [fill_node_scalar 0 node a (skip_whitespace_stop hts) (by omega) (by omega),
      (fill_scalar_literal 0 node a).2.2 hat]
    rfl
  | .number ds, tok, h, _, buf, e, q, node, a, hat, hle, hstop => by
    obtain ⟨hts, -⟩ := token_start e h hat hle
    simp only [Token] at h
    obtain ⟨hne, hdig, rfl⟩ := h
    have hd : 48 ≤ rd buf q ∧ rd buf q ≤ 57 := by
      cases tok with
      | nil => exact absurd rfl hne
      | cons d tl =>
        have := digit_facts (hdig d (List.mem_cons_self _ _))
        rw [show rd buf q = d from hat.1]
        omega
    refine ⟨1, ?_⟩
    rw [fill_node_scalar 0 node a (skip_whitespace_stop hts) (by omega) (by omega),
      fill_scalar_number 0 node a hne hdig hat hstop]
    rfl
  | .string s, tok, h, _, buf, e, q, node, a, hat, hle, _ => by
    obtain ⟨hts, -⟩ := token_start e h hat hle
    simp only [Token] at h
    obtain ⟨hp, rfl⟩ := h
    have hr : rd buf q = 34 := hat.1
    refine ⟨s.length + 1 + 1, ?_⟩
    rw [fill_node_scalar (s.length + 1) node a (skip_whitespace_stop hts) (by omega) (by omega),
      fill_scalar_string (s.length + 1) node a hp hat (by omega)]
    rfl
  | .array xs, tok, h, hb, buf, e, q, node, a, hat, hle, _ => by
    obtain ⟨hts, -⟩ := token_start e h hat hle
    simp only [Token] at h
    obtain ⟨body, w, hbody, hw, rfl⟩ := h
    simp only [Value.benign] at hb
    have hr : rd buf q = 91 := hat.1
    have hat1 : At buf (q + 1) (body ++ (w ++ [93])) := hat.2
    have hcount := array_count_rendered hbody hb hw hat hle
    simp only [List.length_cons, List.length_append, List.length_singleton,
      List.length_nil] at hle ⊢
    obtain ⟨F, cur1, hfill, hskip⟩ := items_fill xs true body hbody hb buf e (q + 1) w a.nodes 0
      xs.length { a with nodes := a.nodes + xs.length } hw hat1 (by omega) (by omega)
    simp only [if_true] at hfill
    refine ⟨F + 1, ?_⟩
    simp only [fill_node, skip_whitespace_stop hts, hr, hcount, hfill, hskip, Value.layout]
    rw [if_neg (by decide)]
    simp only [if_true, Option.some.injEq, Prod.mk.injEq, true_and, and_true]
    omega
  | .object ms, tok, h, hb, buf, e, q, node, a, hat, hle, _ => by
    obtain ⟨hts, -⟩ := token_start e h hat hle
    simp only [Token] at h
    obtain ⟨body, w, hbody, hw, rfl⟩ := h
    simp only [Value.benign] at hb
    have hr : rd buf q = 123 := hat.1
    have hat1 : At buf (q + 1) (body ++ (w ++ [125])) := hat.2
    have hcount0 := object_count_rendered hbody hb hw hat hle 0
    simp only [List.length_cons, List.length_append, List.length_singleton,
      List.length_nil] at hle ⊢
    obtain ⟨F, cur1, hfill, hskip⟩ := members_fill ms true body hbody hb buf e (q + 1) w
      a.entries 0 ms.length { a with entries := a.entries + ms.length } hw hat1 (by omega)
      (by omega)
    simp only [if_true] at hfill
    have hcount : object_count (max F ms.length) buf e q = some ms.length :=
      object_count_mono (by simp) hcount0
    have hfill' := fill_entries_fuel_mono (Nat.le_max_left F ms.length) hfill
    refine ⟨max F ms.length + 1, ?_⟩
    simp only [fill_node, skip_whitespace_stop hts, hr, hcount, hfill', hskip, Value.layout]
    simp only [if_true, Option.some.injEq, Prod.mk.injEq, true_and, and_true]
    omega
/-- The loop of the array branch on rendered items, from item `i` on: it builds
their nodes, and the closing bracket is passed right after it. -/
theorem items_fill : ∀ (xs : List Value) (first : Bool) (t : List Nat), Items first xs t →
    items_benign xs →
    ∀ (buf : List Nat) (e p : Nat) (w : List Nat) (items i count : Nat) (a : json_arena_t),
      IsWs w → At buf p (t ++ (w ++ [93])) → p + t.length + w.length + 1 ≤ e →
      i + xs.length = count →
      ∃ fuel cur1,
        fill_items fuel buf e items i count (if first then p else skip_optional buf e p 44) a =
          some ((items_layout xs items i a).1, cur1, (items_layout xs items i a).2) ∧
        skip_optional buf e cur1 93 = p + t.length + w.length + 1
  | [], first, t, h, _, buf, e, p, w, items, i, count, a, hw, hat, hle, hi => by
    simp only [Items] at h
    subst h
    simp only [List.nil_append, List.length_nil, Nat.add_zero] at hat hle hi ⊢
    refine ⟨1, if first then p else skip_optional buf e p 44, ?_, ?_⟩
    · simp only [fill_items, items_layout]
      rw [if_neg (by omega)]
    · cases first with
      | true =>
        simp only [if_true]
        exact skip_optional_hit e hw hat (by omega) (by decide) (by decide)
      | false =>
        have h1 : skip_optional buf e p 44 = p + w.length :=
          skip_optional_miss e hw hat (by omega) (by decide) (by decide) (by decide)
        obtain ⟨-, hat2⟩ := (at_append w [93] p).mp hat
        have h2 := skip_optional_hit e (isWs_nil)
          hat2 (by simp; omega) (by decide) (by decide)
        simp only [Bool.false_eq_true, if_false, h1]
        simpa using h2
  | x :: xs, first, t, h, hb, buf, e, p, w, items, i, count, a, hw, hat, hle, hi => by
    simp only [Items] at h
    obtain ⟨w0, w1, tok, rest, hw0, hw1, ht, hrest, rfl⟩ := h
    simp only [items_benign] at hb
    simp only [List.append_assoc, List.length_append, List.length_cons] at hat hle hi
    have hstart := loop_start e first hw0 hat (by omega)
    obtain ⟨-, hat1⟩ := (at_append _ _ p).mp hat
    obtain ⟨hat2, hat3⟩ := (at_append w1 _ _).mp hat1
    obtain ⟨hat4, hat5⟩ := (at_append tok _ _).mp hat3
    obtain ⟨hts, -⟩ := token_start e ht hat4 (by omega)
    have hsk1 := skip_whitespace_run w1 _ hw1 hat2 (by omega) hts
    have hsk2 := skip_whitespace_stop hts
    obtain ⟨F1, hF1⟩ := token_fills x tok ht hb.1 buf e _ (items + i) a hat4 (by omega)
      (stop_after_item hrest hw hat5)
    obtain ⟨F2, cur1, hF2, hskip⟩ := items_fill xs false rest hrest hb.2 buf e _ w items (i + 1)
      count (x.layout (items + i) a).2 hw hat5 (by omega) (by omega)
    simp only [Bool.false_eq_true, if_false] at hF2
    have hF1' := fill_node_fuel_mono (Nat.le_max_left F1 F2) hF1
    have hF2' := fill_items_fuel_mono (Nat.le_max_right F1 F2) hF2
    refine ⟨max F1 F2 + 1, cur1, ?_, ?_⟩
    · rw [hstart]
      simp only [fill_items, items_layout]
      rw [if_pos (by omega), fill_node_skip _ _ _ hsk1 hsk2, hF1']
      simp only [hF2']
    · rw [hskip]
      simp only [List.length_append, List.length_cons]
      omega
/-- The loop of the object branch on rendered members, from member `i` on. -/
theorem members_fill : ∀ (ms : List (List Nat × Value)) (first : Bool) (t : List Nat),
    Members first ms t → members_benign ms →
    ∀ (buf : List Nat) (e p : Nat) (w : List Nat) (entries i count : Nat) (a : json_arena_t),
      IsWs w → At buf p (t ++ (w ++ [125])) → p + t.length + w.length + 1 ≤ e →
      i + ms.length = count →
      ∃ fuel cur1,
        fill_entries fuel buf e entries i count
            (if first then p else skip_optional buf e p 44) a =
          some ((members_layout ms entries i a).1, cur1, (members_layout ms entries i a).2) ∧
        skip_optional buf e cur1 125 = p + t.length + w.length + 1
  | [], first, t, h, _, buf, e, p, w, entries, i, count, a, hw, hat, hle, hi => by
    simp only [Members] at h
    subst h
    simp only [List.nil_append, List.length_nil, Nat.add_zero] at hat hle hi ⊢
    refine ⟨1, if first then p else skip_optional buf e p 44, ?_, ?_⟩
    · simp only [fill_entries, members_layout]
      rw [if_neg (by omega)]
    · cases first with
      | true =>
        simp only [if_true]
        exact skip_optional_hit e hw hat (by omega) (by decide) (by decide)
      | false =>
        have h1 : skip_optional buf e p 44 = p + w.length :=
          skip_optional_miss e hw hat (by omega) (by decide) (by decide) (by decide)
        obtain ⟨-, hat2⟩ := (at_append w [125] p).mp hat
        have h2 := skip_optional_hit e (isWs_nil)
          hat2 (by simp; omega) (by decide) (by decide)
        simp only [Bool.false_eq_true, if_false, h1]
        simpa using h2
  | (k, v) :: ms, first, t, h, hb, buf, e, p, w, entries, i, count, a, hw, hat, hle, hi => by
    simp only [Members] at h
    obtain ⟨w0, w1, w2, u, tok, rest, hw0, hw1, hw2, hu, hk, ht, hrest, rfl⟩ := h
    simp only [members_benign] at hb
    simp only [List.append_assoc, List.cons_append, List.length_append,
      List.length_cons] at hat hle hi
    have hstart := loop_start e first hw0 hat (by omega)
    obtain ⟨-, hat1⟩ := (at_append _ _ p).mp hat
    obtain ⟨hat2, hat3⟩ := (at_append w1 _ _).mp hat1
    obtain ⟨hat4, hat5⟩ := (at_append (quoted k) _ _).mp hat3
    have h34 : rd buf (p + (if first = true then [] else w0 ++ [44]).length + w1.length) = 34 :=
      hat4.1
    have htsk : TokenStart buf e
        (p + (if first = true then [] else w0 ++ [44]).length + w1.length) :=
      Or.inr (by rw [h34]; exact ⟨by decide, by decide⟩)
    have hskk := skip_whitespace_run w1 _ hw1 hat2 (by simp [quoted] at hle; omega) htsk
    have hkey := parse_string_text_plain a hk hat4 (Nat.lt_succ_self k.length)
    obtain ⟨hsc, -⟩ := skip_whitespace_to e hw2 hat5 (by omega) (by decide) (by decide)
    obtain ⟨-, hat6⟩ := (at_append w2 _ _).mp hat5
    have hat7 : At buf (p + (if first = true then [] else w0 ++ [44]).length + w1.length +
        (quoted k).length + w2.length + 1) (u ++ (tok ++ (rest ++ (w ++ [125])))) := hat6.2
    obtain ⟨hat8, hat9⟩ := (at_append u _ _).mp hat7
    obtain ⟨hat10, hat11⟩ := (at_append tok _ _).mp hat9
    obtain ⟨hts, -⟩ := token_start e ht hat10 (by omega)
    have hsk1 := skip_whitespace_run u _ hu hat8 (by omega) hts
    have hsk2 := skip_whitespace_stop hts
    obtain ⟨F1, hF1⟩ := token_fills v tok ht hb.2.1 buf e _ a.nodes
      { a with strings := a.strings + (k.length + 1), nodes := a.nodes + 1 } hat10 (by omega)
      (stop_after_member hrest hw hat11)
    obtain ⟨F2, cur1, hF2, hskip⟩ := members_fill ms false rest hrest hb.2.2 buf e _ w entries
      (i + 1) count (v.layout a.nodes
        { a with strings := a.strings + (k.length + 1), nodes := a.nodes + 1 }).2 hw hat11
      (by omega) (by omega)
    simp only [Bool.false_eq_true, if_false] at hF2
    have hle1 : k.length + 1 ≤ max (k.length + 1) (max F1 F2) := Nat.le_max_left _ _
    have hle2 : F1 ≤ max (k.length + 1) (max F1 F2) :=
      Nat.le_trans (Nat.le_max_left F1 F2) (Nat.le_max_right _ _)
    have hle3 : F2 ≤ max (k.length + 1) (max F1 F2) :=
      Nat.le_trans (Nat.le_max_right F1 F2) (Nat.le_max_right _ _)
    have hkey' := parse_string_text_mono hle1 hkey
    have hF1' := fill_node_fuel_mono hle2 hF1
    have hF2' := fill_entries_fuel_mono hle3 hF2
    refine ⟨max (k.length + 1) (max F1 F2) + 1, cur1, ?_, ?_⟩
    · rw [hstart]
      simp only [fill_entries, members_layout]
      rw [if_pos (by omega), hskk, hkey']
      simp only [hsc]
      rw [fill_node_skip _ _ _ hsk1 hsk2, hF1']
      simp only [hF2']
    · rw [hskip]
      simp only [List.length_append, List.length_cons]
      omega
end

end CJson

namespace CJson

/-! ## Both passes on a JSON text followed by other bytes -/

theorem rd_after {V S : List Nat} : rd (V ++ S) V.length = S.headD 0 := by
  cases S with
  | nil => simp [rd_of_length_le]
  | cons c S =>
    have h := at_of_append [c] V S
    exact h.1

theorem number_stop_after {V S : List Nat} (hS : StopHead S) :
    number_stop (rd (V ++ S) V.length) = true := by
  rw [rd_after]
  cases S with
  | nil => decide
  | cons c S => exact hS

/-- On a rendering `V` of `v` with benign strings, followed in memory by bytes `S`
that cannot continue a number, and with any length that covers `V`: pass 1 accepts,
stops right after `V` and has the counts of `v`, and `parse_json` returns the tree
of `v`. -/
theorem parse_json_rendered (v : Value) (V S : List Nat) (hr : Renders v V) (hb : v.benign)
    (hS : StopHead S) (e : Nat) (he : V.length ≤ e) :
    (∃ r, pass1_analyze (V ++ S) e 0 stats_zero = some r ∧ r.ok = true ∧
        r.cursor = V.length ∧ r.stats.nodes = v.node_count ∧
        r.stats.entries = v.entry_count) ∧
      ∃ fuel0, ∀ fuel, fuel0 ≤ fuel → ∀ eb : Option String,
        parse_json fuel (V ++ S) e eb true =
          some ⟨some (v.layout 0 ⟨1, 0, 0, v.node_count⟩).1, eb⟩ := by
  have hstop := number_stop_after (V := V) hS
  obtain ⟨w0, tok, hw0, htok, rfl⟩ := hr
  have hat : At ((w0 ++ tok) ++ S) 0 (w0 ++ tok) := at_zero _ _
  obtain ⟨hat0, hat1⟩ := (at_append w0 tok 0).mp hat
  simp only [Nat.zero_add] at hat1
  simp only [List.length_append] at he hstop ⊢
  obtain ⟨hts, -⟩ := token_start e htok hat1 he
  have hd : Delim ((w0 ++ tok) ++ S) e (w0.length + tok.length) :=
    fun _ => (number_stop_facts hstop).2.2.2.2
  obtain ⟨r, hr, hok, hcur, hn, hen⟩ := token_returns v tok htok _ e _ stats_zero hat1 he hd
  have hsk : skip_whitespace ((w0 ++ tok) ++ S) e 0 = 0 + w0.length :=
    skip_whitespace_run w0 0 hw0 hat0 (by omega) (by simpa using hts)
  simp only [Nat.zero_add] at hsk
  have hr0 := pass1_analyze_eq_some_iff.mpr (returns_skip hsk (skip_whitespace_stop hts) hr)
  have hn' : r.stats.nodes = v.node_count := by simpa [stats_zero] using hn
  refine ⟨⟨r, hr0, hok, hcur, hn', by simpa [stats_zero] using hen⟩, ?_⟩
  obtain ⟨F, hF⟩ := token_fills v tok htok hb ((w0 ++ tok) ++ S) e w0.length 0
    ⟨1, 0, 0, v.node_count⟩ hat1 he hstop
  refine ⟨F, fun fuel hfuel eb => ?_⟩
  have h := fill_node_fuel_mono hfuel hF
  rw [← fill_node_skip fuel 0 _ hsk (skip_whitespace_stop hts)] at h
  have h2 : pass2 fuel ((w0 ++ tok) ++ S) e r.stats =
      some ((v.layout 0 ⟨1, 0, 0, v.node_count⟩).1, w0.length + tok.length,
        (v.layout 0 ⟨1, 0, 0, v.node_count⟩).2) := by
    simp only [pass2, hn']
    exact h
  exact parse_json_of_passes eb hr0 hok h2

end CJson

namespace CJson

/-- C20, counterexample.  `1` parses to the Number `1`, and with the byte `2`
appended after it the input `12` parses to the Number `12`.  `["["]` parses to an
Array of one String; with `,2]` appended after it `pass1_analyze` still ends the
first value at offset 5, but the tree is an Array of count 2 whose second slot is
never filled. -/
theorem appended_bytes_can_change_the_tree :
    parse_json 20 (bytes "1") 1 none true = some ⟨some (.number 0 [49]), none⟩ ∧
      parse_json 20 (bytes "12") 2 none true = some ⟨some (.number 0 [49, 50]), none⟩ ∧
      parse_json 20 (bytes "[\"[\"]") 5 none true =
        some ⟨some (.array 0 (some 1) 1 [.string 1 0 1 [91, 0]]), none⟩ ∧
      (pass1_analyze (bytes "[\"[\"],2]") 8 0 stats_zero).map (fun r => (r.ok, r.cursor)) =
        some (true, 5) ∧
      parse_json 20 (bytes "[\"[\"],2]") 8 none true =
        some ⟨some (.array 0 (some 1) 2 [.string 1 0 1 [91, 0], .untouched 2]), none⟩ := by
  exact ⟨eq_of_same_parse (by decide!), eq_of_same_parse (by decide!),
    eq_of_same_parse (by decide!), by decide!, eq_of_same_parse (by decide!)⟩

/-- C20, amended.  Let `V` be a rendering of a JSON value `v` (white space between
tokens, numbers as digit runs) whose strings and keys are free of `"`, `\`, NUL and
of the bytes `,` `:` `[` `]` `{` `}`, and let `S` be any bytes appended after it that
are empty or begin with a byte that cannot continue a number (none of the digits,
`.`, `-`, `+`, `e`, `E`, `x`, `X`).  Then for every length `e` that covers `V`,
`pass1_analyze` accepts `V ++ S` with the counts of `v` and leaves its cursor right
after `V`, wherever the end of the input is; and `parse_json` returns a tree for
`V ++ S`, the same tree as for `V` alone. -/
theorem trailing_bytes_after_json_text_are_ignored (v : Value) (V S : List Nat)
    (hr : Renders v V) (hb : v.benign) (hS : StopHead S) (e : Nat) (he : V.length ≤ e) :
    (∃ r, pass1_analyze (V ++ S) e 0 stats_zero = some r ∧ r.ok = true ∧
        r.cursor = V.length ∧ r.stats.nodes = v.node_count ∧
        r.stats.entries = v.entry_count) ∧
      ∃ fuel0 tree, ∀ fuel, fuel0 ≤ fuel → ∀ eb : Option String,
        parse_json fuel (V ++ S) e eb true = some ⟨some tree, eb⟩ ∧
          parse_json fuel V V.length eb true = some ⟨some tree, eb⟩ := by
  obtain ⟨h1, F1, hF1⟩ := parse_json_rendered v V S hr hb hS e he
  obtain ⟨-, F2, hF2⟩ := parse_json_rendered v V [] hr hb trivial V.length (Nat.le_refl _)
  refine ⟨h1, max F1 F2, _, fun fuel hfuel eb => ⟨hF1 fuel (by omega) eb, ?_⟩⟩
  have h := hF2 fuel (by omega) eb
  simpa using h

/-- C20, witness: `[1, "a"]` followed by `] x`, and the two examples `1 garbage` and
`[] ]`. -/
theorem trailing_bytes_after_json_text_are_ignored_witness :
    Renders (.array [.number [49], .string [97]]) (bytes "[1, \"a\"]") ∧
      ((∃ r, pass1_analyze (bytes "[1, \"a\"]" ++ bytes "] x") 11 0 stats_zero = some r ∧
          r.ok = true ∧ r.cursor = (bytes "[1, \"a\"]").length ∧
          r.stats.nodes = (Value.array [.number [49], .string [97]]).node_count ∧
          r.stats.entries = (Value.array [.number [49], .string [97]]).entry_count) ∧
        ∃ fuel0 tree, ∀ fuel, fuel0 ≤ fuel → ∀ eb : Option String,
          parse_json fuel (bytes "[1, \"a\"]" ++ bytes "] x") 11 eb true =
              some ⟨some tree, eb⟩ ∧
            parse_json fuel (bytes "[1, \"a\"]") (bytes "[1, \"a\"]").length eb true =
              some ⟨some tree, eb⟩) ∧
      parse_json 20 (bytes "[1, \"a\"]] x") 11 none true =
        some ⟨some (.array 0 (some 1) 2 [.number 1 [49], .string 2 0 1 [97, 0]]), none⟩ ∧
      parse_json 20 (bytes "1 garbage") 9 none true = some ⟨some (.number 0 [49]), none⟩ ∧
      parse_json 20 (bytes "[] ]") 4 none true = some ⟨some (.array 0 none 0 []), none⟩ := by
  have hrest : Items false [.string [97]]
      ((if false = true then [] else [] ++ [44]) ++ ([32] ++ (quoted [97] ++ []))) :=
    items_cons false isWs_nil isWs_space (token_string (by simp [Plain])) (items_nil false)
  have hitems : Items true [.number [49], .string [97]]
      ((if true = true then [] else [] ++ [44]) ++ ([] ++ ([49] ++
        ((if false = true then [] else [] ++ [44]) ++ ([32] ++ (quoted [97] ++ [])))))) :=
    items_cons true isWs_nil isWs_nil (token_number (by simp) (by simp [isdigit])) hrest
  have htok := token_array hitems isWs_nil
  have hr : Renders (.array [.number [49], .string [97]]) (bytes "[1, \"a\"]") :=
    ⟨[], _, isWs_nil, htok, by decide!⟩
  exact ⟨hr,
    trailing_bytes_after_json_text_are_ignored _ _ (bytes "] x") hr
      (by simp [Value.benign, items_benign, Benign])
      (show number_stop 93 = true by decide) 11 (by decide),
    eq_of_same_parse (by decide!), eq_of_same_parse (by decide!),
    eq_of_same_parse (by decide!)⟩

end CJson

namespace CJson

/-! ## `parse_string_text` on a literal that `scan_string` accepted -/

/-- When the loop of `scan_string` returns `true`, its cursor is past the byte it
started on, not past `end`, and the byte before it is the closing quote. -/
theorem scan_string_loop_accept (buf : List Nat) (e : Nat) : ∀ (fuel p n c1 n1 : Nat),
    scan_string_loop fuel buf e p n = (true, c1, n1) →
      p < c1 ∧ c1 ≤ e ∧ rd buf (c1 - 1) = 34 := by
  intro fuel
  induction fuel with
  | zero => intro p n c1 n1 h; simp [scan_string_loop] at h
  | succ k ih =>
    intro p n c1 n1 h
    unfold scan_string_loop at h
    by_cases hp : p < e
    · rw [if_pos hp] at h
      by_cases h34 : rd buf p = 34
      · simp only [h34, if_true] at h
        cases h
        exact ⟨by omega, by omega, by simpa using h34⟩
      · simp only [h34, if_false] at h
        by_cases h92 : rd buf p = 92
        · simp only [h92, if_true] at h
          by_cases hq : p + 1 ≥ e
          · rw [if_pos hq] at h
            cases h
          · rw [if_neg hq] at h
            have hr := ih _ _ _ _ h
            refine ⟨?_, hr.2⟩
            have := hr.1
            split at this <;> omega
        · simp only [h92, if_false] at h
          have hr := ih _ _ _ _ h
          exact ⟨by omega, hr.2⟩
    · rw [if_neg hp] at h
      cases h

theorem has_unicode_escape_byte {b : Nat} {t : List Nat} (hb : b ≠ 92)
    (h : has_unicode_escape false (b :: t) = false) : has_unicode_escape false t = false := by
  have hb' : (b == 92) = false := by simpa using hb
  simpa [has_unicode_escape, hb'] using h

theorem has_unicode_escape_pair {c : Nat} {t : List Nat}
    (h : has_unicode_escape false (92 :: c :: t) = false) :
    c ≠ 117 ∧ has_unicode_escape false t = false := by
  simpa [has_unicode_escape] using h

/-- The loop of `parse_string_text` follows the loop of `scan_string` round by round
over a body without `\u`: it stops on the closing quote that `scan_string` found and
has written one byte for every unit that `scan_string` added to `len`. -/
theorem parse_string_loop_follows (buf : List Nat) (e : Nat) :
    ∀ (fuel p n c1 n1 : Nat) (body out : List Nat) (F : Nat),
      scan_string_loop fuel buf e p n = (true, c1, n1) → At buf p body →
      c1 = p + body.length + 1 → has_unicode_escape false body = false → fuel ≤ F →
      ∃ w, parse_string_loop F buf p out = some (out ++ w, c1 - 1) ∧ n1 = n + w.length := by
  intro fuel
  induction fuel with
  | zero => intro p n c1 n1 body out F h; simp [scan_string_loop] at h
  | succ k ih =>
    intro p n c1 n1 body out F h hat hc hu hF
    obtain ⟨G, rfl⟩ : ∃ G, F = G + 1 := ⟨F - 1, by omega⟩
    have hG : k ≤ G := by omega
    unfold scan_string_loop at h
    by_cases hp : p < e
    · rw [if_pos hp] at h
      by_cases h34 : rd buf p = 34
      · simp only [h34, if_true] at h
        cases h
        refine ⟨[], ?_, by simp⟩
        simp [parse_string_loop, h34]
      · simp only [h34, if_false] at h
        by_cases h92 : rd buf p = 92
        · simp only [h92, if_true] at h
          by_cases hq : p + 1 ≥ e
          · rw [if_pos hq] at h
            cases h
          · rw [if_neg hq] at h
            have hacc := scan_string_loop_accept buf e _ _ _ _ _ h
            have hlen : 2 ≤ body.length := by
              have := hacc.1
              split at this <;> omega
            obtain ⟨b0, b1, t, rfl⟩ : ∃ b0 b1 t, body = b0 :: b1 :: t := by
              match body, hlen with
              | b0 :: b1 :: t, _ => exact ⟨b0, b1, t, rfl⟩
            obtain ⟨hb0, hb1, hat2⟩ : rd buf p = b0 ∧ rd buf (p + 1) = b1 ∧ At buf (p + 1 + 1) t :=
              ⟨hat.1, hat.2.1, hat.2.2⟩
            have hb0' : b0 = 92 := by rw [← hb0, h92]
            subst hb0'
            have hpair := has_unicode_escape_pair hu
            have h117 : rd buf (p + 1) ≠ 117 := by rw [hb1]; exact hpair.1
            rw [if_neg h117] at h
            simp only [List.length_cons] at hc
            obtain ⟨w, hw, hn⟩ := ih (p + 1 + 1) (n + 1) c1 n1 t
              (out ++ [if rd buf (p + 1) = 110 then 10 else if rd buf (p + 1) = 116 then 9
                else rd buf (p + 1)]) G h hat2 (by omega) hpair.2 hG
            refine ⟨(if rd buf (p + 1) = 110 then 10 else if rd buf (p + 1) = 116 then 9
                else rd buf (p + 1)) :: w, ?_, by simp only [List.length_cons]; omega⟩
            rw [parse_string_loop_escape G out h92, hw]
            simp
        · simp only [h92, if_false] at h
          have hacc := scan_string_loop_accept buf e _ _ _ _ _ h
          have hlen : 1 ≤ body.length := by omega
          obtain ⟨b0, t, rfl⟩ : ∃ b0 t, body = b0 :: t := by
            match body, hlen with
            | b0 :: t, _ => exact ⟨b0, t, rfl⟩
          obtain ⟨hb0, hat2⟩ : rd buf p = b0 ∧ At buf (p + 1) t := ⟨hat.1, hat.2⟩
          have hne : b0 ≠ 92 := by rw [← hb0]; exact h92
          simp only [List.length_cons] at hc
          obtain ⟨w, hw, hn⟩ := ih (p + 1) (n + 1) c1 n1 t (out ++ [rd buf p]) G h hat2
            (by omega) (has_unicode_escape_byte hne hu) hG
          refine ⟨rd buf p :: w, ?_, by simp only [List.length_cons]; omega⟩
          rw [parse_string_loop_byte G out h34 h92, hw]
          simp
    · rw [if_neg hp] at h
      cases h

/-- The bytes of `buf` in `[p, q)` stand at offset `p` when `q` is inside `buf`. -/
theorem at_slice (buf : List Nat) : ∀ (k p : Nat), p + k ≤ buf.length →
    At buf p (slice buf p (p + k)) ∧ (slice buf p (p + k)).length = k := by
  intro k
  induction k with
  | zero => intro p _; simp [slice, At]
  | succ k ih =>
    intro p hle
    have hlt : p < buf.length := by omega
    have hs : slice buf p (p + (k + 1)) = rd buf p :: slice buf (p + 1) (p + 1 + k) := by
      simp only [slice, rd]
      rw [show p + (k + 1) - p = k + 1 by omega, show p + 1 + k - (p + 1) = k by omega,
        List.drop_eq_getElem_cons hlt, List.take_succ_cons]
      simp [List.getD_eq_getElem?_getD, List.getElem?_eq_getElem hlt]
    have h := ih (p + 1) (by omega)
    rw [hs]
    exact ⟨⟨rfl, h.1⟩, by simp [h.2]⟩

end CJson

namespace CJson

/-- C21.  Let `scan_string`, called with the cursor on an opening quote at offset
`cur`, accept and leave the cursor at `c1` and the byte count at `sb`, and let the
body of the literal (the bytes from `cur + 1` up to the closing quote at `c1 - 1`)
hold no escape `\u`.  Then `parse_string_text`, called at `cur` with any arena and a
loop budget of at least `end - cur` rounds, returns: it writes bytes `out` and one
NUL, as many bytes as `scan_string` added to the byte count, reports the length
`out.length` (that number minus one), moves the arena's string cursor by the bytes
written, and leaves the input cursor at `c1`, which is inside the input and stands
right after a `"`. -/
theorem decoder_follows_counter_without_unicode (buf : List Nat) (e cur out_len c1 sb : Nat)
    (hs : scan_string buf e cur out_len = (true, c1, sb))
    (hu : has_unicode_escape false (slice buf (cur + 1) (c1 - 1)) = false)
    (a : json_arena_t) (fuel : Nat) (hf : e - cur ≤ fuel) :
    ∃ out : List Nat,
      parse_string_text fuel buf cur a =
          some (a.strings, out.length, out ++ [0], c1,
            { a with strings := a.strings + (out.length + 1) }) ∧
        sb = out_len + (out.length + 1) ∧ cur + 2 ≤ c1 ∧ c1 ≤ e ∧ rd buf (c1 - 1) = 34 := by
  unfold scan_string at hs
  rcases hl : scan_string_loop (e - cur) buf e (cur + 1) 0 with ⟨b, c, n⟩
  rw [hl] at hs
  cases b with
  | false => simp at hs
  | true =>
    simp only [Prod.mk.injEq, true_and] at hs
    obtain ⟨rfl, rfl⟩ := hs
    obtain ⟨hgt, hle, h34⟩ := scan_string_loop_accept buf e _ _ _ _ _ hl
    have hin : c - 1 < buf.length := lt_length_of_rd_ne_zero (by rw [h34]; decide)
    have hk : cur + 1 + (c - 1 - (cur + 1)) = c - 1 := by omega
    have hsl := at_slice buf (c - 1 - (cur + 1)) (cur + 1) (by omega)
    rw [hk] at hsl
    obtain ⟨w, hw, hn⟩ := parse_string_loop_follows buf e (e - cur) (cur + 1) 0 c n
      (slice buf (cur + 1) (c - 1)) [] fuel hl hsl.1 (by rw [hsl.2]; omega) hu hf
    refine ⟨w, ?_, by omega, by omega, hle, h34⟩
    simp only [parse_string_text, hw, List.nil_append]
    rw [show c - 1 + 1 = c by omega]

/-- C21, witness: the literal `"a\"\\u"` (8 bytes), whose body holds the escapes `\"`
and `\\` and then a plain `u`, with 3 bytes counted before it. -/
theorem decoder_follows_counter_without_unicode_witness :
    scan_string (bytes "\"a\\\"\\\\u\"") 8 0 3 = (true, 8, 8) ∧
      has_unicode_escape false (slice (bytes "\"a\\\"\\\\u\"") (0 + 1) (8 - 1)) = false ∧
      ∃ out : List Nat,
        parse_string_text 8 (bytes "\"a\\\"\\\\u\"") 0 ⟨1, 0, 0, 1⟩ =
            some (0, out.length, out ++ [0], 8, ⟨1, 0, 0 + (out.length + 1), 1⟩) ∧
          8 = 3 + (out.length + 1) ∧ 0 + 2 ≤ 8 ∧ 8 ≤ 8 ∧
          rd (bytes "\"a\\\"\\\\u\"") (8 - 1) = 34 :=
  ⟨by decide, by decide,
    decoder_follows_counter_without_unicode (bytes "\"a\\\"\\\\u\"") 8 0 3 8 8 (by decide)
      (by decide) ⟨1, 0, 0, 1⟩ 8 (by decide)⟩

end CJson

namespace CJson

/-- C22, the code at failing inputs.  A call that reads no byte at or after offset
`length` returns the same on two memories that hold the same bytes below `length`;
`pass1_analyze` does not.  With length 1, the memory `t` followed by NUL is rejected,
and the memory `true` is accepted with the cursor at offset 4, after the end of the
input, so that `parse_json` returns a Bool node for the one-byte input `t`: the
`strncmp` of line 204 compares the bytes at offsets 1, 2 and 3.  With length 4,
`{"a"` followed by NUL is rejected with the cursor at 4 and no entry counted, and
followed by `:` it is rejected with the cursor at 5 and one entry counted: line 161
tests the byte at offset 4.  With length 7, `{"a":1,` followed by NUL is rejected
with the cursor at 7, and followed by `"` with the cursor at 8: line 154 tests the
byte at offset 7. -/
theorem pass1_analyze_reads_at_and_after_length :
    (AgreeBelow (bytes "t") (bytes "true") 1 ∧
        (pass1_analyze (bytes "t") 1 0 stats_zero).map
          (fun r => (r.ok, r.cursor, r.stats.entries)) = some (false, 0, 0) ∧
        (pass1_analyze (bytes "true") 1 0 stats_zero).map
          (fun r => (r.ok, r.cursor, r.stats.entries)) = some (true, 4, 0) ∧
        parse_json 20 (bytes "true") 1 none true = some ⟨some (.bool 0 1), none⟩) ∧
      (AgreeBelow (bytes "\x7b\"a\"") (bytes "\x7b\"a\":") 4 ∧
        (pass1_analyze (bytes "\x7b\"a\"") 4 0 stats_zero).map
          (fun r => (r.ok, r.cursor, r.stats.entries)) = some (false, 4, 0) ∧
        (pass1_analyze (bytes "\x7b\"a\":") 4 0 stats_zero).map
          (fun r => (r.ok, r.cursor, r.stats.entries)) = some (false, 5, 1)) ∧
      (AgreeBelow (bytes "\x7b\"a\":1,") (bytes "\x7b\"a\":1,\"") 7 ∧
        (pass1_analyze (bytes "\x7b\"a\":1,") 7 0 stats_zero).map
          (fun r => (r.ok, r.cursor, r.stats.entries)) = some (false, 7, 1) ∧
        (pass1_analyze (bytes "\x7b\"a\":1,\"") 7 0 stats_zero).map
          (fun r => (r.ok, r.cursor, r.stats.entries)) = some (false, 8, 1)) ∧
      ¬ (∀ buf buf2 e, AgreeBelow buf buf2 e →
          pass1_analyze buf e 0 stats_zero = pass1_analyze buf2 e 0 stats_zero) ∧
      ¬ (∀ buf e r, pass1_analyze buf e 0 stats_zero = some r → r.ok = true →
          0 < r.cursor ∧ r.cursor ≤ e) := by
  have hag : AgreeBelow (bytes "t") (bytes "true") 1 := by unfold AgreeBelow; decide
  have ht : pass1_analyze (bytes "t") 1 0 stats_zero =
      some ⟨false, 0, { stats_zero with nodes := 1 }⟩ := by decide!
  have htrue : pass1_analyze (bytes "true") 1 0 stats_zero =
      some ⟨true, 4, { stats_zero with nodes := 1 }⟩ := by decide!
  refine ⟨⟨hag, by rw [ht]; rfl, by rw [htrue]; rfl, eq_of_same_parse (by decide!)⟩,
    ⟨by unfold AgreeBelow; decide, by decide!, by decide!⟩,
    ⟨by unfold AgreeBelow; decide, by decide!, by decide!⟩, ?_, ?_⟩
  · intro h
    have h2 := h _ _ _ hag
    rw [ht, htrue] at h2
    exact absurd h2 (by decide)
  · intro h
    have h2 := (h _ _ _ htrue rfl).2
    exact absurd h2 (by decide)

end CJson
